import Mathlib

/-!
# A versioned tree of nodes (`tree.go`)

Shallow embedding of the Go package `tree`: sequences (`Slice`), keyed maps
(`Map`) and scalar leaves (`Leaf`), each carrying a pointer to a `base`
record (version counter and parent back-reference).

The Go program works on a pointer graph, so the embedding is explicit state
passing over a `Heap`:

* a `*base` is an index into `Heap.version` / `Heap.parent`;
* a Go slice value `[]Node` is a header (backing array, offset, length,
  capacity) over `Heap.arr`;
* a Go `map[string]Node` is an index into `Heap.maps`;
* the mutable `value` field of a `Leaf` is an index into `Heap.leaves`.

The structs `Slice` and `Map` are never written after they are built (only
the storage they point into is), so a `*Slice` / `*Map` is represented by
the content of the struct. A `Node` interface value is `Option Node`, with
`none` for Go `nil`.

`version` is a Go `int`; it is modelled as an unbounded `Int` (the counter
starts at 1 and only ever moves by `+ 1`, so the 64-bit wrap-around needs
2^63 mutations of one node).

A panic is an `Outcome.panic` carrying the store as it was when the panic was
raised. The only recursion, `base.incrementVersion`, takes a fuel argument;
on cyclic parent links it exhausts every fuel (in Go: a stack overflow).

The statements about a mutating call say that the call returns and what the
store is after it, on every store that meets the stated conditions: the
parent links above the container form a finite chain (`IsChain`), the fuel
covers it, an overwritten occupant is empty or has its parent link set
(`IsAttached`), and a new value is empty or a parentless node off the chain
of the container (`NoParent`, `OffChain`). Where the code leaves these
conditions it is evaluated on stores built with the public operations.
-/

namespace Tree

set_option linter.dupNamespace false

/-! ## Data model -/

/-- The struct `Slice`: the embedded `*base` and the slice header of `value`
(backing array, offset into it, length, capacity). -/
structure Slice where
  base : Nat
  arr : Nat
  off : Nat
  len : Nat
  cap : Nat
deriving DecidableEq, Repr

/-- The struct `Map`: the embedded `*base` and the reference to the Go map. -/
structure Map where
  base : Nat
  tbl : Nat
deriving DecidableEq, Repr

/-- The struct `Leaf`: the embedded `*base` and the location of the `value`
field. -/
structure Leaf where
  base : Nat
  cell : Nat
deriving DecidableEq, Repr

/-- A non-nil value of the interface `Node`: a `*Slice`, `*Map` or `*Leaf`. -/
inductive Node where
  | slice (s : Slice)
  | map (m : Map)
  | leaf (l : Leaf)
deriving DecidableEq, Repr

/-- The `*base` embedded in a node; every method of the interface `Node` is
promoted from it. -/
def Node.base : Node → Nat
  | .slice s => s.base
  | .map m => m.base
  | .leaf l => l.base

/-- The store. `version` and `parent` are the two fields of each `base`;
`arr a j` is element `j` of backing array `a`; `maps t k` is `none` for a key
absent from map `t` and `some v` for a key present with value `v` (`v` may be
the nil node); `leaves c` is the `value` field of a leaf. The `next*` fields
are the allocation counters. `V` stands for `constant.Value`. -/
structure Heap (V : Type) where
  version : Nat → Int
  parent : Nat → Option Node
  arr : Nat → Nat → Option Node
  maps : Nat → String → Option (Option Node)
  leaves : Nat → V
  nextBase : Nat
  nextArr : Nat
  nextMap : Nat
  nextLeaf : Nat

/-- The run-time faults of the package: the two explicit `panic`s of
`setParent` / `resetParent`, the Go run-time panics of indexing, slicing and
`make`, and the `panic("not implemented")` of the JSON stubs. -/
inductive Fault where
  | multipleParents
  | internalError
  | indexOutOfRange
  | sliceBounds
  | makeSlice
  | notImplemented
deriving DecidableEq, Repr

/-- Result of running an operation: it returns `a` in state `st`, it panics
in state `st` (the state reached when the panic was raised), or the
recursion budget ran out. -/
inductive Outcome (σ α : Type) where
  | ok (a : α) (st : σ)
  | panic (f : Fault) (st : σ)
  | outOfFuel

/-- Sequencing: run `f` on the result of `x` unless `x` stopped. -/
def Outcome.andThen {σ α β : Type} (x : Outcome σ α) (f : α → σ → Outcome σ β) :
    Outcome σ β :=
  match x with
  | .ok a st => f a st
  | .panic e st => .panic e st
  | .outOfFuel => .outOfFuel

/-- The state in which an operation stopped (`d` when it ran out of fuel). -/
def Outcome.state {σ α : Type} (d : σ) : Outcome σ α → σ
  | .ok _ st => st
  | .panic _ st => st
  | .outOfFuel => d

variable {V : Type}

/-- A store with nothing allocated. -/
def Heap.empty (d : V) : Heap V :=
  { version := fun _ => 0, parent := fun _ => none, arr := fun _ _ => none,
    maps := fun _ _ => none, leaves := fun _ => d,
    nextBase := 0, nextArr := 0, nextMap := 0, nextLeaf := 0 }

/-- Assignment `a[j] = v` into backing array `a`. -/
def Heap.store (h : Heap V) (a j : Nat) (v : Option Node) : Heap V :=
  { h with arr := fun a' j' => if a' = a ∧ j' = j then v else h.arr a' j' }

/-- Allocation `&base{version: 1}`: a new base with version 1 and no parent. -/
def Heap.newBase (h : Heap V) : Nat × Heap V :=
  (h.nextBase,
   { h with version := Function.update h.version h.nextBase 1,
            parent := Function.update h.parent h.nextBase none,
            nextBase := h.nextBase + 1 })

/-! ## `base` -/

/-- The method `base.Version`. -/
def base.Version (h : Heap V) (b : Nat) : Int := h.version b

/-- The method `base.setParent`. -/
def base.setParent (h : Heap V) (b : Nat) (n : Node) : Outcome (Heap V) Unit :=
  match h.parent b with
  | some _ => .panic .multipleParents h
  | none => .ok () { h with parent := Function.update h.parent b (some n) }

/-- The method `base.resetParent`. -/
def base.resetParent (h : Heap V) (b : Nat) : Outcome (Heap V) Unit :=
  match h.parent b with
  | none => .panic .internalError h
  | some _ => .ok () { h with parent := Function.update h.parent b none }

/-- The method `base.incrementVersion`; `fuel` bounds the depth of the
recursion through the parent links. -/
def base.incrementVersion : Nat → Heap V → Nat → Outcome (Heap V) Unit
  | 0, _, _ => .outOfFuel
  | fuel + 1, h, b =>
    let h1 : Heap V := { h with version := Function.update h.version b (h.version b + 1) }
    match h1.parent b with
    | none => .ok () h1
    | some p => base.incrementVersion fuel h1 p.base

/-- The guarded call `if prev != nil { prev.resetParent() }`. -/
def detach (h : Heap V) (prev : Option Node) : Outcome (Heap V) Unit :=
  match prev with
  | none => .ok () h
  | some p => base.resetParent h p.base

/-- The guarded call `if value != nil { value.setParent(n) }`. -/
def attach (h : Heap V) (value : Option Node) (n : Node) : Outcome (Heap V) Unit :=
  match value with
  | none => .ok () h
  | some v => base.setParent h v.base n

/-! ## `Slice` -/

/-- The constructor `MakeSlice`: `make([]Node, len, cap)` panics unless
`0 ≤ len ≤ cap` and the capacity is one the allocator accepts; otherwise a
new base and a new zeroed backing array. The largest capacity `make` accepts
is a constant of the Go run time, taken as the parameter `maxCap`. -/
def MakeSlice (maxCap : Nat) (h : Heap V) (len cap : Int) : Outcome (Heap V) Slice :=
  if len < 0 ∨ cap < len ∨ (maxCap : Int) < cap then .panic .makeSlice h
  else
    let (b, h1) := h.newBase
    .ok { base := b, arr := h1.nextArr, off := 0, len := len.toNat, cap := cap.toNat }
      { h1 with arr := fun a j => if a = h1.nextArr then none else h1.arr a j,
                nextArr := h1.nextArr + 1 }

/-- The method `Slice.Index`: `s.value[i]`. -/
def Slice.Index (h : Heap V) (s : Slice) (i : Int) : Outcome (Heap V) (Option Node) :=
  if i < 0 ∨ (s.len : Int) ≤ i then .panic .indexOutOfRange h
  else .ok (h.arr s.arr (s.off + i.toNat)) h

/-- The method `Slice.SetIndex`. -/
def Slice.SetIndex (fuel : Nat) (h : Heap V) (s : Slice) (i : Int) (value : Option Node) :
    Outcome (Heap V) Unit :=
  if i < 0 ∨ (s.len : Int) ≤ i then .panic .indexOutOfRange h
  else
    (detach h (h.arr s.arr (s.off + i.toNat))).andThen fun _ h1 =>
    (attach h1 value (.slice s)).andThen fun _ h2 =>
    base.incrementVersion fuel (h2.store s.arr (s.off + i.toNat) value) s.base

/-- The method `Slice.Slice3`: `s.value[i:j:k]` panics unless
`0 ≤ i ≤ j ≤ k ≤ cap(s.value)`. -/
def Slice.Slice3 (h : Heap V) (s : Slice) (i j k : Int) : Outcome (Heap V) Slice :=
  if i < 0 ∨ j < i ∨ k < j ∨ (s.cap : Int) < k then .panic .sliceBounds h
  else .ok { base := s.base, arr := s.arr, off := s.off + i.toNat,
             len := j.toNat - i.toNat, cap := k.toNat - i.toNat } h

/-- The loop `for _, v := range values { if v != nil { v.setParent(s) } }`. -/
def attachAll (n : Node) : Heap V → List (Option Node) → Outcome (Heap V) Unit
  | h, [] => .ok () h
  | h, v :: vs => (attach h v n).andThen fun _ h1 => attachAll n h1 vs

/-- The builtin `append(s.value, values...)`: written in place behind the
current length when the capacity suffices, otherwise into a fresh backing
array that first receives the current elements. The capacity of a fresh
array is chosen by the Go run time: `grow cap needed`. -/
def goAppend (grow : Nat → Nat → Nat) (h : Heap V) (s : Slice) (values : List (Option Node)) :
    Slice × Heap V :=
  if s.len + values.length ≤ s.cap then
    ({ s with len := s.len + values.length },
     { h with arr := fun a j =>
         if a = s.arr ∧ s.off + s.len ≤ j ∧ j < s.off + s.len + values.length
         then (values.get? (j - (s.off + s.len))).join else h.arr a j })
  else
    ({ base := s.base, arr := h.nextArr, off := 0, len := s.len + values.length,
       cap := grow s.cap (s.len + values.length) },
     { h with
       arr := fun a j =>
         if a = h.nextArr then
           (if j < s.len then h.arr s.arr (s.off + j) else (values.get? (j - s.len)).join)
         else h.arr a j
       nextArr := h.nextArr + 1 })

/-- The method `Slice.Append`. -/
def Slice.Append (grow : Nat → Nat → Nat) (fuel : Nat) (h : Heap V) (s : Slice)
    (values : List (Option Node)) : Outcome (Heap V) Slice :=
  (attachAll (.slice s) h values).andThen fun _ h1 =>
  (base.incrementVersion fuel (goAppend grow h1 s values).2 s.base).andThen fun _ h3 =>
  .ok (goAppend grow h1 s values).1 h3

/-- The method `Slice.Slice`: `s.value[i:j]` panics unless
`0 ≤ i ≤ j ≤ cap(s.value)`; the view keeps the base and the backing array. -/
def Slice.Slice (h : Heap V) (s : Slice) (i j : Int) : Outcome (Heap V) Slice :=
  if i < 0 ∨ j < i ∨ (s.cap : Int) < j then .panic .sliceBounds h
  else .ok { base := s.base, arr := s.arr, off := s.off + i.toNat,
             len := j.toNat - i.toNat, cap := s.cap - i.toNat } h

/-- The builtin `copy(dst.value, src.value)`: the first
`min (len dst) (len src)` elements, read before any is written. -/
def goCopy (h : Heap V) (dst src : Tree.Slice) : Heap V :=
  { h with arr := fun a j =>
      if a = dst.arr ∧ dst.off ≤ j ∧ j < dst.off + min dst.len src.len
      then h.arr src.arr (src.off + (j - dst.off)) else h.arr a j }

/-- The loop `for i, v := range src.value { ... }` of `Move`, over the
indices still to visit. -/
def moveLoop (dst src : Tree.Slice) : Heap V → List Nat → Outcome (Heap V) Unit
  | h, [] => .ok () h
  | h, i :: is =>
    match h.arr src.arr (src.off + i) with
    | none => moveLoop dst src h is
    | some v =>
      (base.resetParent h v.base).andThen fun _ h1 =>
      (base.setParent h1 v.base (.slice dst)).andThen fun _ h2 =>
      moveLoop dst src (h2.store src.arr (src.off + i) none) is

/-- The function `Move`. -/
def Move (fuel : Nat) (h : Heap V) (dst src : Tree.Slice) : Outcome (Heap V) Unit :=
  (moveLoop dst src (goCopy h dst src) (List.range src.len)).andThen fun _ h1 =>
  (base.incrementVersion fuel h1 src.base).andThen fun _ h2 =>
  base.incrementVersion fuel h2 dst.base

/-! ## `Map` -/

/-- The constructor `MakeMap`: a new base and a new empty Go map. -/
def MakeMap (h : Heap V) : Outcome (Heap V) Map :=
  let (b, h1) := h.newBase
  .ok { base := b, tbl := h1.nextMap }
    { h1 with maps := fun t k => if t = h1.nextMap then none else h1.maps t k,
              nextMap := h1.nextMap + 1 }

/-- The method `Map.MapIndex`: `m.value[key]`, nil for an absent key. -/
def Map.MapIndex (h : Heap V) (m : Map) (key : String) : Option Node :=
  (h.maps m.tbl key).join

/-- The method `Map.MapIndex2`: `value, ok := m.value[key]`. -/
def Map.MapIndex2 (h : Heap V) (m : Map) (key : String) : Option Node × Bool :=
  ((h.maps m.tbl key).join, (h.maps m.tbl key).isSome)

/-- Assignment `m[key] = v` into Go map `t`. -/
def Heap.mapStore (h : Heap V) (t : Nat) (key : String) (v : Option Node) : Heap V :=
  { h with maps := fun t' k' => if t' = t ∧ k' = key then some v else h.maps t' k' }

/-- The builtin `delete(m, key)` on Go map `t`. -/
def Heap.mapDelete (h : Heap V) (t : Nat) (key : String) : Heap V :=
  { h with maps := fun t' k' => if t' = t ∧ k' = key then none else h.maps t' k' }

/-- The method `Map.SetMapIndex`. -/
def Map.SetMapIndex (fuel : Nat) (h : Heap V) (m : Map) (key : String) (value : Option Node) :
    Outcome (Heap V) Unit :=
  (detach h (h.maps m.tbl key).join).andThen fun _ h1 =>
  (attach h1 value (.map m)).andThen fun _ h2 =>
  base.incrementVersion fuel (h2.mapStore m.tbl key value) m.base

/-- The method `Map.Delete`. -/
def Map.Delete (fuel : Nat) (h : Heap V) (m : Map) (key : String) : Outcome (Heap V) Unit :=
  (detach h (h.maps m.tbl key).join).andThen fun _ h1 =>
  base.incrementVersion fuel (h1.mapDelete m.tbl key) m.base

/-! ## `Leaf` -/

/-- The constructor `MakeLeaf`: a new base and a new leaf holding `value`. -/
def MakeLeaf (h : Heap V) (value : V) : Outcome (Heap V) Leaf :=
  let (b, h1) := h.newBase
  .ok { base := b, cell := h1.nextLeaf }
    { h1 with leaves := Function.update h1.leaves h1.nextLeaf value,
              nextLeaf := h1.nextLeaf + 1 }

/-- The method `Leaf.Value`. -/
def Leaf.Value (h : Heap V) (l : Leaf) : V := h.leaves l.cell

/-- The method `Leaf.SetValue`. -/
def Leaf.SetValue (fuel : Nat) (h : Heap V) (l : Leaf) (value : V) : Outcome (Heap V) Unit :=
  base.incrementVersion fuel { h with leaves := Function.update h.leaves l.cell value } l.base

/-! ## Parent chains -/

/-- The list `l` is the chain of bases met from `b` by following the parent
links up to a base without parent: `b` first, the root last. Such a list
exists exactly when the parent links above `b` are acyclic. -/
def IsChain (par : Nat → Option Node) : Nat → List Nat → Prop
  | _, [] => False
  | b, [x] => x = b ∧ par b = none
  | b, x :: y :: l => x = b ∧ (par b).map Node.base = some y ∧ IsChain par y (y :: l)

/-- Every base of `l` has its version raised by the number of its occurrences
in `l`; nothing else changes. -/
def Heap.bump (h : Heap V) (l : List Nat) : Heap V :=
  { h with version := fun x => h.version x + (l.count x : Int) }

/-! ## Predicates used in the statements -/

instance IsChain.instDecidable (par : Nat → Option Node) :
    ∀ (b : Nat) (l : List Nat), Decidable (IsChain par b l)
  | _, [] => inferInstanceAs (Decidable False)
  | b, [x] => inferInstanceAs (Decidable (x = b ∧ par b = none))
  | b, x :: y :: l =>
    have := IsChain.instDecidable par y (y :: l)
    inferInstanceAs
      (Decidable (x = b ∧ (par b).map Node.base = some y ∧ IsChain par y (y :: l)))

/-- The occupant `prev` of a slot or entry is empty or a child of the
container with base `c`: its parent link leads to `c`. -/
def IsChildOf (par : Nat → Option Node) (c : Nat) : Option Node → Prop
  | none => True
  | some p => (par p.base).map Node.base = some c

instance IsChildOf.instDecidable (par : Nat → Option Node) (c : Nat) :
    ∀ prev : Option Node, Decidable (IsChildOf par c prev)
  | none => inferInstanceAs (Decidable True)
  | some p => inferInstanceAs (Decidable ((par p.base).map Node.base = some c))

/-- The value `v` is empty or a node without parent. -/
def NoParent (par : Nat → Option Node) : Option Node → Prop
  | none => True
  | some n => par n.base = none

instance NoParent.instDecidable (par : Nat → Option Node) :
    ∀ v : Option Node, Decidable (NoParent par v)
  | none => inferInstanceAs (Decidable True)
  | some n => inferInstanceAs (Decidable (par n.base = none))

/-- The value `v` is empty or a node whose base is not in the list `l`. -/
def OffChain (l : List Nat) : Option Node → Prop
  | none => True
  | some n => n.base ∉ l

instance OffChain.instDecidable (l : List Nat) : ∀ v : Option Node, Decidable (OffChain l v)
  | none => inferInstanceAs (Decidable True)
  | some n => inferInstanceAs (Decidable (n.base ∉ l))

/-- The storage ranges of two sequences do not overlap: different backing
arrays, or disjoint index ranges of one array. -/
def NonOverlapping (dst src : Slice) : Prop :=
  dst.arr ≠ src.arr ∨ dst.off + dst.len ≤ src.off ∨ src.off + src.len ≤ dst.off

instance NonOverlapping.instDecidable (dst src : Slice) : Decidable (NonOverlapping dst src) :=
  inferInstanceAs
    (Decidable (dst.arr ≠ src.arr ∨ dst.off + dst.len ≤ src.off ∨ src.off + src.len ≤ dst.off))

/-- The largest capacity `make([]Node, len, cap)` accepts on a 64-bit
platform: the run time refuses more than 2^48 bytes, and an interface value
takes 16 bytes, so the bound is 2^44 elements. -/
def maxCap64 : Nat := 17592186044416

/-- A growth policy for `append`: double the capacity, or take what is
needed when that is more. -/
def growDouble (cap needed : Nat) : Nat := max (2 * cap) needed

/-! ## Sample stores, built with the public operations -/

/-- The three-level tree of the specification, built with the public
operations on an empty store: a root sequence of length 1 whose slot 0 holds
a map, whose key "k" holds a leaf of value 7. -/
def sampleTree : Outcome (Heap Int) (Slice × Map × Leaf) :=
  (MakeSlice maxCap64 (Heap.empty 0) 1 1).andThen fun r h1 =>
  (MakeMap h1).andThen fun m h2 =>
  (MakeLeaf h2 7).andThen fun l h3 =>
  (Map.SetMapIndex 4 h3 m "k" (some (.leaf l))).andThen fun _ h4 =>
  (Slice.SetIndex 4 h4 r 0 (some (.map m))).andThen fun _ h5 =>
  .ok (r, m, l) h5

/-- The store holding the sample tree. -/
def sampleHeap : Heap Int := sampleTree.state (Heap.empty 0)

/-- The root sequence of the sample tree. -/
def sampleRoot : Slice := { base := 0, arr := 0, off := 0, len := 1, cap := 1 }

/-- The map of the sample tree. -/
def sampleMap : Map := { base := 1, tbl := 0 }

/-- The leaf of the sample tree. -/
def sampleLeaf : Leaf := { base := 2, cell := 0 }

/-- A state reached with the public operations in which a sequence holds one
of its own ancestors. `s` and `a` are sequences of length and capacity 1; `a`
is put in slot 0 of `s`; appending to the full `s` gives the view `s2` over a
fresh backing array that still lists `a`; `a` is then removed from `s`, put
in slot 0 of a third sequence `r`, and `s2` is put in slot 0 of `a`. The
parent links are `s2 → a → r`. Returns `(s2, a, r)`. -/
def staleTree : Outcome (Heap Int) (Slice × Slice × Slice) :=
  (MakeSlice maxCap64 (Heap.empty 0) 1 1).andThen fun s h1 =>
  (MakeSlice maxCap64 h1 1 1).andThen fun a h2 =>
  (Slice.SetIndex 4 h2 s 0 (some (.slice a))).andThen fun _ h3 =>
  (Slice.Append growDouble 4 h3 s [none]).andThen fun s2 h4 =>
  (Slice.SetIndex 4 h4 s 0 none).andThen fun _ h5 =>
  (MakeSlice maxCap64 h5 1 1).andThen fun r h6 =>
  (Slice.SetIndex 4 h6 r 0 (some (.slice a))).andThen fun _ h7 =>
  (Slice.SetIndex 4 h7 a 0 (some (.slice s2))).andThen fun _ h8 =>
  .ok (s2, a, r) h8

/-- The store reached by `staleTree`. -/
def staleHeap : Heap Int := staleTree.state (Heap.empty 0)

/-- The view `s2` of `staleTree`. -/
def staleView : Slice := { base := 0, arr := 2, off := 0, len := 2, cap := 2 }

/-- The sequence `a` of `staleTree`. -/
def staleInner : Slice := { base := 1, arr := 1, off := 0, len := 1, cap := 1 }

/-- The sequence `r` of `staleTree`. -/
def staleRoot : Slice := { base := 2, arr := 3, off := 0, len := 1, cap := 1 }

/-- The sample store after `root.SetIndex(0, nil)`. -/
def sampleAfterSetIndex : Heap Int :=
  (Slice.SetIndex 1 sampleHeap sampleRoot 0 none).state sampleHeap

/-- The sample store after `root.Append(nil)`. -/
def sampleAfterAppend : Heap Int :=
  (Slice.Append growDouble 1 sampleHeap sampleRoot [none]).state sampleHeap

/-- The sample store after `map.SetMapIndex("k", nil)`. -/
def sampleAfterSetMapIndex : Heap Int :=
  (Map.SetMapIndex 2 sampleHeap sampleMap "k" none).state sampleHeap

/-- The sample store after `map.Delete("k")`. -/
def sampleAfterDelete : Heap Int :=
  (Map.Delete 2 sampleHeap sampleMap "k").state sampleHeap

/-- The sample tree together with a freshly made, unattached leaf of
value 5. -/
def spareTree : Outcome (Heap Int) Leaf := MakeLeaf sampleHeap 5

/-- The store holding the sample tree and the spare leaf. -/
def spareHeap : Heap Int := spareTree.state sampleHeap

/-- The spare leaf. -/
def spareLeaf : Leaf := { base := 3, cell := 1 }

/-- The store after `root.SetIndex(0, spareLeaf)`. -/
def spareAfterSetIndex : Heap Int :=
  (Slice.SetIndex 1 spareHeap sampleRoot 0 (some (.leaf spareLeaf))).state spareHeap

/-- A sequence of length 5 whose slots 0 to 4 hold five leaves of values
10 to 14, with a sixth, unattached leaf; all built with the public
operations. Returns the sequence and the unattached leaf. -/
def fiveTree : Outcome (Heap Int) (Slice × Leaf) :=
  (MakeSlice maxCap64 (Heap.empty 0) 5 5).andThen fun s h0 =>
  (MakeLeaf h0 10).andThen fun l0 h1 =>
  (Slice.SetIndex 1 h1 s 0 (some (.leaf l0))).andThen fun _ h2 =>
  (MakeLeaf h2 11).andThen fun l1 h3 =>
  (Slice.SetIndex 1 h3 s 1 (some (.leaf l1))).andThen fun _ h4 =>
  (MakeLeaf h4 12).andThen fun l2 h5 =>
  (Slice.SetIndex 1 h5 s 2 (some (.leaf l2))).andThen fun _ h6 =>
  (MakeLeaf h6 13).andThen fun l3 h7 =>
  (Slice.SetIndex 1 h7 s 3 (some (.leaf l3))).andThen fun _ h8 =>
  (MakeLeaf h8 14).andThen fun l4 h9 =>
  (Slice.SetIndex 1 h9 s 4 (some (.leaf l4))).andThen fun _ h10 =>
  (MakeLeaf h10 15).andThen fun l5 h11 =>
  .ok (s, l5) h11

/-- The store reached by `fiveTree`. -/
def fiveHeap : Heap Int := fiveTree.state (Heap.empty 0)

/-- The sequence of `fiveTree`. -/
def fiveSeq : Slice := { base := 0, arr := 0, off := 0, len := 5, cap := 5 }

/-- The unattached leaf of `fiveTree`. -/
def fiveSpare : Leaf := { base := 6, cell := 5 }

/-- The view `fiveSeq.Slice(1, 3)`. -/
def fiveView : Slice := { base := 0, arr := 0, off := 1, len := 2, cap := 4 }

/-- The store after `fiveView.SetIndex(0, fiveSpare)`. -/
def fiveAfterViewSet : Heap Int :=
  (Slice.SetIndex 1 fiveHeap fiveView 0 (some (.leaf fiveSpare))).state fiveHeap

/-- The bulk-move example of the specification, built with the public
operations: `src = [A, B]` (two leaves) and `dst = [nil, nil]`. Returns
`(dst, src)`. -/
def moveTree : Outcome (Heap Int) (Slice × Slice) :=
  (MakeSlice maxCap64 (Heap.empty 0) 2 2).andThen fun src h0 =>
  (MakeLeaf h0 1).andThen fun a h1 =>
  (Slice.SetIndex 1 h1 src 0 (some (.leaf a))).andThen fun _ h2 =>
  (MakeLeaf h2 2).andThen fun b h3 =>
  (Slice.SetIndex 1 h3 src 1 (some (.leaf b))).andThen fun _ h4 =>
  (MakeSlice maxCap64 h4 2 2).andThen fun dst h5 =>
  .ok (dst, src) h5

/-- The store reached by `moveTree`. -/
def moveHeap : Heap Int := moveTree.state (Heap.empty 0)

/-- The sequence `src` of `moveTree`. -/
def moveSrc : Slice := { base := 0, arr := 0, off := 0, len := 2, cap := 2 }

/-- The sequence `dst` of `moveTree`. -/
def moveDst : Slice := { base := 3, arr := 1, off := 0, len := 2, cap := 2 }

/-- The leaf `A` of `moveTree`. -/
def moveA : Leaf := { base := 1, cell := 0 }

/-- The leaf `B` of `moveTree`. -/
def moveB : Leaf := { base := 2, cell := 1 }

/-- The store after `Move(dst, src)` on `moveTree`. -/
def moveAfter : Heap Int := (Move 1 moveHeap moveDst moveSrc).state moveHeap

/-- The view `fiveSeq.Slice(0, 2)`. -/
def fiveFront : Slice := { base := 0, arr := 0, off := 0, len := 2, cap := 5 }

/-- The view `fiveSeq.Slice(2, 4)`. -/
def fiveMiddle : Slice := { base := 0, arr := 0, off := 2, len := 2, cap := 3 }

/-- A sequence `c` of length 1 nested in slot 0 of a sequence `r` of
length 1, built with the public operations. Returns `(r, c)`. -/
def nestTree : Outcome (Heap Int) (Slice × Slice) :=
  (MakeSlice maxCap64 (Heap.empty 0) 1 1).andThen fun r h0 =>
  (MakeSlice maxCap64 h0 1 1).andThen fun c h1 =>
  (Slice.SetIndex 1 h1 r 0 (some (.slice c))).andThen fun _ h2 =>
  .ok (r, c) h2

/-- The store reached by `nestTree`. -/
def nestHeap : Heap Int := nestTree.state (Heap.empty 0)

/-- The outer sequence `r` of `nestTree`. -/
def nestOuter : Slice := { base := 0, arr := 0, off := 0, len := 1, cap := 1 }

/-- The inner sequence `c` of `nestTree`. -/
def nestInner : Slice := { base := 1, arr := 1, off := 0, len := 1, cap := 1 }

/-- The store after `Move(fiveFront, fiveMiddle)`. -/
def fiveAfterMove : Heap Int := (Move 1 fiveHeap fiveFront fiveMiddle).state fiveHeap

/-- The store after `Move(r, c)` on `nestTree`. -/
def nestAfterMove : Heap Int := (Move 2 nestHeap nestOuter nestInner).state nestHeap

/-- The sequence returned by `root.Append(spareLeaf, nil)` on the sample
tree: the root is full, so the result lives in a fresh backing array. -/
def spareAppended : Slice := { base := 0, arr := 1, off := 0, len := 3, cap := 3 }

/-- The store after `root.Append(spareLeaf, nil)`. -/
def spareAfterAppend : Heap Int :=
  (Slice.Append growDouble 1 spareHeap sampleRoot [some (.leaf spareLeaf), none]).state spareHeap

/-- The sequence `MakeSlice(0, 5)`: length 0, capacity 5. -/
def capTree : Outcome (Heap Int) Slice := MakeSlice maxCap64 (Heap.empty 0) 0 5

/-- The store reached by `capTree`. -/
def capHeap : Heap Int := capTree.state (Heap.empty 0)

/-- The sequence of `capTree`. -/
def capSeq : Slice := { base := 0, arr := 0, off := 0, len := 0, cap := 5 }

/-- The view `capSeq.Slice(0, 3)`. -/
def capView : Slice := { base := 0, arr := 0, off := 0, len := 3, cap := 5 }

/-- The bulk-move example with a shorter destination, built with the public
operations: `src = [A, B]` (the sequence and leaves of `moveTree`) and
`dst = [nil]` of length 1. Returns `(dst, src)`. -/
def shortTree : Outcome (Heap Int) (Slice × Slice) :=
  (MakeSlice maxCap64 (Heap.empty 0) 2 2).andThen fun src h0 =>
  (MakeLeaf h0 1).andThen fun a h1 =>
  (Slice.SetIndex 1 h1 src 0 (some (.leaf a))).andThen fun _ h2 =>
  (MakeLeaf h2 2).andThen fun b h3 =>
  (Slice.SetIndex 1 h3 src 1 (some (.leaf b))).andThen fun _ h4 =>
  (MakeSlice maxCap64 h4 1 1).andThen fun dst h5 =>
  .ok (dst, src) h5

/-- The store reached by `shortTree`. -/
def shortHeap : Heap Int := shortTree.state (Heap.empty 0)

/-- The sequence `dst` of `shortTree`. -/
def shortDst : Slice := { base := 3, arr := 1, off := 0, len := 1, cap := 1 }

/-- The store after `Move(dst, src)` on `shortTree`. -/
def shortAfter : Heap Int := (Move 1 shortHeap shortDst moveSrc).state shortHeap

/-- A single parentless sequence of length 1, made by `MakeSlice(1, 1)`. -/
def selfTree : Outcome (Heap Int) Slice := MakeSlice maxCap64 (Heap.empty 0) 1 1

/-- The store reached by `selfTree`. -/
def selfHeap : Heap Int := selfTree.state (Heap.empty 0)

/-- The sequence of `selfTree`. -/
def selfSeq : Slice := { base := 0, arr := 0, off := 0, len := 1, cap := 1 }

/-- The store in which `root.SetIndex(0, leaf)` stops on the sample tree. -/
def sampleAtFault : Heap Int :=
  (Slice.SetIndex 1 sampleHeap sampleRoot 0 (some (.leaf sampleLeaf))).state sampleHeap

/-- The view `fiveSeq.Slice3(1, 3, 4)`: length 2, capacity 3. -/
def fiveCapped : Slice := { base := 0, arr := 0, off := 1, len := 2, cap := 3 }

/-- The sequence returned by `fiveCapped.Append(fiveSpare, nil)`: the two
values exceed the one free slot, so it lives in a fresh backing array. -/
def fiveGrown : Slice := { base := 0, arr := 1, off := 0, len := 4, cap := 6 }

/-- The store after `fiveCapped.Append(fiveSpare, nil)`. -/
def fiveAfterAppend : Heap Int :=
  (Slice.Append growDouble 1 fiveHeap fiveCapped [some (.leaf fiveSpare), none]).state fiveHeap

/-- The leaf in slot 0 of `fiveSeq`. -/
def fiveFirst : Leaf := { base := 1, cell := 0 }

/-- The store after `fiveFirst.SetValue(99)`. -/
def fiveAfterSetValue : Heap Int := (Leaf.SetValue 2 fiveHeap fiveFirst 99).state fiveHeap

/-- Two root sequences of length 1, each holding a leaf, built with the
public operations: `src = [A]` and `dst = [X]`. Returns `(dst, src)`. -/
def overTree : Outcome (Heap Int) (Slice × Slice) :=
  (MakeSlice maxCap64 (Heap.empty 0) 1 1).andThen fun src h0 =>
  (MakeLeaf h0 1).andThen fun a h1 =>
  (Slice.SetIndex 1 h1 src 0 (some (.leaf a))).andThen fun _ h2 =>
  (MakeSlice maxCap64 h2 1 1).andThen fun dst h3 =>
  (MakeLeaf h3 2).andThen fun x h4 =>
  (Slice.SetIndex 1 h4 dst 0 (some (.leaf x))).andThen fun _ h5 =>
  .ok (dst, src) h5

/-- The store reached by `overTree`. -/
def overHeap : Heap Int := overTree.state (Heap.empty 0)

/-- The sequence `src` of `overTree`. -/
def overSrc : Slice := { base := 0, arr := 0, off := 0, len := 1, cap := 1 }

/-- The leaf `A` of `overTree`. -/
def overA : Leaf := { base := 1, cell := 0 }

/-- The sequence `dst` of `overTree`. -/
def overDst : Slice := { base := 2, arr := 1, off := 0, len := 1, cap := 1 }

/-- The leaf `X` of `overTree`. -/
def overX : Leaf := { base := 3, cell := 1 }

/-- The store after `Move(dst, src)` on `overTree`. -/
def overAfter : Heap Int := (Move 1 overHeap overDst overSrc).state overHeap

/-- The leaf in slot 2 of `fiveSeq`. -/
def fiveThird : Leaf := { base := 3, cell := 2 }

/-- The sequence returned by `fiveFront.Append(fiveSpare)`: the view over
`[0, 2)` has capacity 5, so the value is written in place, into slot 2 of the
shared backing array. -/
def fiveFrontGrown : Slice := { base := 0, arr := 0, off := 0, len := 3, cap := 5 }

/-- The store after `fiveFront.Append(fiveSpare)`. -/
def fiveAfterFrontAppend : Heap Int :=
  (Slice.Append growDouble 1 fiveHeap fiveFront [some (.leaf fiveSpare)]).state fiveHeap

/-- A node listed in two backing arrays, built with the public operations:
`s = [A]` is full, `s2 = s.Append(nil)` copies its slot into a fresh array,
and `s.SetIndex(0, nil)` then detaches `A`. Returns `(s, s2)`. -/
def dupTree : Outcome (Heap Int) (Slice × Slice) :=
  (MakeSlice maxCap64 (Heap.empty 0) 1 1).andThen fun s h0 =>
  (MakeLeaf h0 1).andThen fun a h1 =>
  (Slice.SetIndex 1 h1 s 0 (some (.leaf a))).andThen fun _ h2 =>
  (Slice.Append growDouble 1 h2 s [none]).andThen fun s2 h3 =>
  (Slice.SetIndex 1 h3 s 0 none).andThen fun _ h4 =>
  .ok (s, s2) h4

/-- The store reached by `dupTree`. -/
def dupHeap : Heap Int := dupTree.state (Heap.empty 0)

/-- The sequence `s` of `dupTree`. -/
def dupSeq : Slice := { base := 0, arr := 0, off := 0, len := 1, cap := 1 }

/-- The sequence `s2` of `dupTree`. -/
def dupGrown : Slice := { base := 0, arr := 1, off := 0, len := 2, cap := 2 }

/-- The leaf `A` of `dupTree`. -/
def dupA : Leaf := { base := 1, cell := 0 }

/-- The occupant `prev` of a slot or entry is empty or a node whose parent
link is set. -/
def IsAttached (par : Nat → Option Node) : Option Node → Prop
  | none => True
  | some p => par p.base ≠ none

instance IsAttached.instDecidable (par : Nat → Option Node) :
    ∀ prev : Option Node, Decidable (IsAttached par prev)
  | none => inferInstanceAs (Decidable True)
  | some p => inferInstanceAs (Decidable (par p.base ≠ none))

/-- A freshly made map, with nothing else in the store. -/
def freshMapTree : Outcome (Heap Int) Map := MakeMap (Heap.empty 0)

/-- The store reached by `freshMapTree`. -/
def freshMapHeap : Heap Int := freshMapTree.state (Heap.empty 0)

/-- The map of `freshMapTree`. -/
def freshMap : Map := { base := 0, tbl := 0 }

/-- A map entry holding a node without parent link, built with the public
operations on the store of `dupTree`: the leaf `A`, still listed in slot 0 of
`s2`, is stored under key "k" of a new map, and `s2.SetIndex(0, nil)` then
detaches it. Returns the map. -/
def staleMapTree : Outcome (Heap Int) Map :=
  (MakeMap dupHeap).andThen fun m h1 =>
  (Map.SetMapIndex 1 h1 m "k" (some (.leaf dupA))).andThen fun _ h2 =>
  (Slice.SetIndex 1 h2 dupGrown 0 none).andThen fun _ h3 =>
  .ok m h3

/-- The store reached by `staleMapTree`. -/
def staleMapHeap : Heap Int := staleMapTree.state dupHeap

/-- The map of `staleMapTree`. -/
def staleMap : Map := { base := 2, tbl := 0 }

/-- Three nested sequences of length 1, built with the public operations:
`src = [r]`, `r = [dst]`, `dst = [nil]`. Returns `(dst, src)`. -/
def cycleMoveTree : Outcome (Heap Int) (Slice × Slice) :=
  (MakeSlice maxCap64 (Heap.empty 0) 1 1).andThen fun src h0 =>
  (MakeSlice maxCap64 h0 1 1).andThen fun r h1 =>
  (MakeSlice maxCap64 h1 1 1).andThen fun dst h2 =>
  (Slice.SetIndex 1 h2 r 0 (some (.slice dst))).andThen fun _ h3 =>
  (Slice.SetIndex 1 h3 src 0 (some (.slice r))).andThen fun _ h4 =>
  .ok (dst, src) h4

/-- The store reached by `cycleMoveTree`. -/
def cycleMoveHeap : Heap Int := cycleMoveTree.state (Heap.empty 0)

/-- The sequence `src` of `cycleMoveTree`. -/
def cycleSrc : Slice := { base := 0, arr := 0, off := 0, len := 1, cap := 1 }

/-- The sequence `r` of `cycleMoveTree`. -/
def cycleMid : Slice := { base := 1, arr := 1, off := 0, len := 1, cap := 1 }

/-- The sequence `dst` of `cycleMoveTree`. -/
def cycleDst : Slice := { base := 2, arr := 2, off := 0, len := 1, cap := 1 }

/-- The store left by the loop of `Move(dst, src)` on `cycleMoveTree`. -/
def cycleAfterLoop : Heap Int :=
  (moveLoop cycleDst cycleSrc (goCopy cycleMoveHeap cycleDst cycleSrc)
    (List.range cycleSrc.len)).state cycleMoveHeap

/-- The store of `dupTree` with a new sequence `dst` of length 2. -/
def staleMoveTree : Outcome (Heap Int) Slice := MakeSlice maxCap64 dupHeap 2 2

/-- The store reached by `staleMoveTree`. -/
def staleMoveHeap : Heap Int := staleMoveTree.state dupHeap

/-- The sequence `dst` of `staleMoveTree`. -/
def staleMoveDst : Slice := { base := 2, arr := 2, off := 0, len := 2, cap := 2 }

/-- The store in which `Move(dst, s2)` stops on `staleMoveTree`. -/
def staleMoveAtFault : Heap Int :=
  (Move 1 staleMoveHeap staleMoveDst dupGrown).state staleMoveHeap

/-- Two sequences of length 1 and an empty view of the second, built with
the public operations: `s = MakeSlice(1, 1)`, `a = MakeSlice(1, 1)`,
`e = a.Slice(0, 0)`. Returns `(s, a, e)`. -/
def pairTree : Outcome (Heap Int) (Slice × Slice × Slice) :=
  (MakeSlice maxCap64 (Heap.empty 0) 1 1).andThen fun s h0 =>
  (MakeSlice maxCap64 h0 1 1).andThen fun a h1 =>
  (Slice.Slice h1 a 0 0).andThen fun e h2 =>
  .ok (s, a, e) h2

/-- The store reached by `pairTree`. -/
def pairHeap : Heap Int := pairTree.state (Heap.empty 0)

/-- The sequence `s` of `pairTree`. -/
def pairSeq : Slice := { base := 0, arr := 0, off := 0, len := 1, cap := 1 }

/-- The sequence `a` of `pairTree`. -/
def pairA : Slice := { base := 1, arr := 1, off := 0, len := 1, cap := 1 }

/-- The view `e = a.Slice(0, 0)` of `pairTree`. -/
def pairView : Slice := { base := 1, arr := 1, off := 0, len := 0, cap := 1 }

/-- The store in which `s.Append(a, e)` stops on `pairTree`. -/
def pairAtFault : Heap Int :=
  (Slice.Append growDouble 1 pairHeap pairSeq
    [some (.slice pairA), some (.slice pairView)]).state pairHeap

/-- The store left by the attachment loop of `s.Append(s)` on `selfTree`. -/
def selfAfterAttach : Heap Int :=
  (attachAll (.slice selfSeq) selfHeap [some (.slice selfSeq)]).state selfHeap

/-- The store left by the attachment loop of `w.Append(fiveSeq, nil)`, for
the view `w = fiveSeq.Slice3(1, 3, 4)`. -/
def fiveAfterAttach : Heap Int :=
  (attachAll (.slice fiveCapped) fiveHeap [some (.slice fiveSeq), none]).state fiveHeap

/-- The store after `s2.SetIndex(0, nil)` on `staleTree`. -/
def staleAfter : Heap Int := (Slice.SetIndex 3 staleHeap staleView 0 none).state staleHeap

/-! ## Lemmas on parent chains -/

theorem IsChain.cons_inv {par : Nat → Option Node} {b x : Nat} {l : List Nat}
    (hc : IsChain par b (x :: l)) : x = b := by
  cases l with
  | nil => exact hc.1
  | cons y t => exact hc.1

theorem IsChain.exists_tail {par : Nat → Option Node} {b : Nat} {l : List Nat}
    (hc : IsChain par b l) : ∃ t, l = b :: t := by
  cases l with
  | nil => exact absurd hc (by simp [IsChain])
  | cons x t => exact ⟨t, by rw [hc.cons_inv]⟩

theorem IsChain.head_mem {par : Nat → Option Node} {b : Nat} {l : List Nat}
    (hc : IsChain par b l) : b ∈ l := by
  obtain ⟨t, rfl⟩ := hc.exists_tail
  simp

/-- A chain only depends on the parent links of its own members. -/
theorem IsChain.congr {par par' : Nat → Option Node} :
    ∀ {l : List Nat} {b : Nat}, IsChain par b l →
      (∀ x ∈ l, (par' x).map Node.base = (par x).map Node.base) → IsChain par' b l
  | [], _, hc, _ => hc
  | [x], b, hc, hagree => by
    obtain ⟨rfl, hroot⟩ := hc
    have h1 := hagree x (by simp)
    rw [hroot] at h1
    exact ⟨rfl, by simpa using h1⟩
  | x :: y :: t, b, hc, hagree => by
    obtain ⟨rfl, hstep, hrest⟩ := hc
    refine ⟨rfl, ?_, IsChain.congr hrest (fun z hz => hagree z (List.mem_cons_of_mem _ hz))⟩
    rw [hagree x (by simp)]
    exact hstep

/-- Two chains from the same base coincide. -/
theorem IsChain.unique {par : Nat → Option Node} :
    ∀ {l l' : List Nat} {b : Nat}, IsChain par b l → IsChain par b l' → l = l'
  | [], _, _, hc, _ => absurd hc (by simp [IsChain])
  | _ :: _, [], _, _, hc' => absurd hc' (by simp [IsChain])
  | [x], [x'], b, hc, hc' => by rw [hc.1, hc'.1]
  | [x], x' :: y' :: t', b, hc, hc' => by
    have h1 := hc.2
    have h2 := hc'.2.1
    rw [h1] at h2
    simp at h2
  | x :: y :: t, [x'], b, hc, hc' => by
    have h1 := hc.2.1
    have h2 := hc'.2
    rw [h2] at h1
    simp at h1
  | x :: y :: t, x' :: y' :: t', b, hc, hc' => by
    obtain ⟨rfl, hstep, hrest⟩ := hc
    obtain ⟨rfl, hstep', hrest'⟩ := hc'
    rw [hstep] at hstep'
    have hy : y = y' := by simpa using hstep'
    subst hy
    rw [IsChain.unique hrest hrest']

/-- From every member of a chain the rest of the chain is the chain of that
member. -/
theorem IsChain.suffix {par : Nat → Option Node} :
    ∀ {l : List Nat} {b x : Nat}, IsChain par b l → x ∈ l →
      ∃ pre suf, l = pre ++ suf ∧ IsChain par x suf
  | [], _, _, hc, _ => absurd hc (by simp [IsChain])
  | [y], b, x, hc, hx => by
    have hxy : x = y := by simpa using hx
    subst hxy
    have hb : x = b := hc.1
    subst hb
    exact ⟨[], [x], rfl, hc⟩
  | y :: z :: t, b, x, hc, hx => by
    have hb : y = b := hc.1
    subst hb
    rcases List.mem_cons.1 hx with hxy | hxt
    · subst hxy
      exact ⟨[], x :: z :: t, rfl, hc⟩
    · obtain ⟨pre, suf, hl, hs⟩ := IsChain.suffix hc.2.2 hxt
      exact ⟨y :: pre, suf, by rw [hl]; rfl, hs⟩

/-- A chain visits no base twice: a repeated base would make the parent links
cyclic, and then no finite chain exists. -/
theorem IsChain.nodup {par : Nat → Option Node} :
    ∀ {l : List Nat} {b : Nat}, IsChain par b l → l.Nodup
  | [], _, _ => List.nodup_nil
  | [x], _, _ => List.nodup_singleton x
  | x :: y :: t, b, hc => by
    have hrest : IsChain par y (y :: t) := hc.2.2
    refine List.nodup_cons.2 ⟨?_, IsChain.nodup hrest⟩
    intro hmem
    obtain ⟨pre, suf, hl, hs⟩ := IsChain.suffix hrest hmem
    have hb : x = b := hc.1
    subst hb
    have huniq := IsChain.unique hs hc
    have hlen := congrArg List.length hl
    rw [huniq] at hlen
    simp at hlen
    omega

/-- A base whose parent link leads back into its own chain has no chain. -/
theorem IsChain.not_mem_of_parent {par : Nat → Option Node} {b x : Nat} {l : List Nat}
    {p : Node} (hc : IsChain par b l) (hp : par x = some p) (hb : p.base = b) : x ∉ l := by
  intro hx
  obtain ⟨pre, suf, hl, hs⟩ := IsChain.suffix hc hx
  obtain ⟨t, rfl⟩ := hs.exists_tail
  cases t with
  | nil =>
    have h1 := hs.2
    rw [hp] at h1
    simp at h1
  | cons y t =>
    obtain ⟨-, hstep, hrest⟩ := hs
    rw [hp] at hstep
    have hy : p.base = y := by simpa using hstep
    rw [hb] at hy
    subst hy
    have huniq := IsChain.unique hrest hc
    have hlen := congrArg List.length hl
    rw [huniq] at hlen
    simp at hlen
    omega

/-! ## Lemmas on version propagation -/

theorem Heap.bump_nil (h : Heap V) : h.bump [] = h := by
  cases h
  simp [Heap.bump]

theorem Heap.bump_cons (h : Heap V) (b : Nat) (l : List Nat) :
    Heap.bump { h with version := Function.update h.version b (h.version b + 1) } l
      = h.bump (b :: l) := by
  cases h with
  | mk version parent arr maps leaves nb na nm nl =>
    simp only [Heap.bump, Heap.mk.injEq, and_true]
    funext x
    by_cases hx : x = b
    · subst hx
      simp [List.count_cons]
      ring
    · have hbx : ¬ b = x := fun hbx => hx hbx.symm
      simp [List.count_cons, Function.update_noteq hx, hbx]

/-- Along an acyclic chain `l` starting at `b`, `incrementVersion` returns as
soon as the fuel covers the length of the chain, and its whole effect is to
bump the versions of the members of `l`. -/
theorem incrementVersion_of_chain :
    ∀ (l : List Nat) (fuel : Nat) (h : Heap V) (b : Nat),
      IsChain h.parent b l → l.length ≤ fuel →
      base.incrementVersion fuel h b = .ok () (h.bump l)
  | [], _, _, _, hc, _ => absurd hc (by simp [IsChain])
  | _ :: _, 0, _, _, _, hf => absurd hf (by simp)
  | [x], fuel + 1, h, b, hc, _ => by
    obtain ⟨rfl, hroot⟩ := hc
    simp only [base.incrementVersion, hroot]
    rw [← Heap.bump_cons, Heap.bump_nil]
  | x :: y :: t, fuel + 1, h, b, hc, hf => by
    obtain ⟨rfl, hstep, hrest⟩ := hc
    cases hp : h.parent x with
    | none => rw [hp] at hstep; simp at hstep
    | some p =>
      rw [hp] at hstep
      have hy : p.base = y := by simpa using hstep
      simp only [base.incrementVersion, hp]
      rw [hy, ← Heap.bump_cons]
      exact incrementVersion_of_chain (y :: t) fuel _ y hrest
        (by simp at hf ⊢; omega)

/-- `incrementVersion` raises no panic. -/
theorem incrementVersion_ne_panic :
    ∀ (fuel : Nat) (h : Heap V) (b : Nat) (f : Fault) (h' : Heap V),
      base.incrementVersion fuel h b ≠ .panic f h'
  | 0, _, _, _, _ => by simp [base.incrementVersion]
  | fuel + 1, h, b, f, h' => by
    cases hp : h.parent b with
    | none => simp [base.incrementVersion, hp]
    | some p =>
      simp only [base.incrementVersion, hp]
      exact incrementVersion_ne_panic fuel _ p.base f h'

/-- When `incrementVersion` returns, the parent links above `b` formed a
finite chain, and the versions of its members were bumped. -/
theorem chain_of_incrementVersion :
    ∀ (fuel : Nat) (h : Heap V) (b : Nat) (h' : Heap V),
      base.incrementVersion fuel h b = .ok () h' →
      ∃ l, IsChain h.parent b l ∧ l.length ≤ fuel ∧ h' = h.bump l
  | 0, _, _, _, hr => by simp [base.incrementVersion] at hr
  | fuel + 1, h, b, h', hr => by
    cases hp : h.parent b with
    | none =>
      simp only [base.incrementVersion, hp, Outcome.ok.injEq, true_and] at hr
      refine ⟨[b], ⟨rfl, hp⟩, by simp, ?_⟩
      rw [← hr, ← Heap.bump_cons, Heap.bump_nil]
    | some p =>
      simp only [base.incrementVersion, hp] at hr
      obtain ⟨l, hc, hlen, hb⟩ := chain_of_incrementVersion fuel _ p.base h' hr
      obtain ⟨t, rfl⟩ := hc.exists_tail
      refine ⟨b :: p.base :: t, ⟨rfl, by simp [hp], hc⟩, by simp at hlen ⊢; omega, ?_⟩
      rw [hb, Heap.bump_cons]

theorem Heap.bump_version_of_mem (h : Heap V) {l : List Nat} (hn : l.Nodup) {x : Nat}
    (hx : x ∈ l) : (h.bump l).version x = h.version x + 1 := by
  simp [Heap.bump, List.count_eq_one_of_mem hn hx]

theorem Heap.bump_version_of_not_mem (h : Heap V) {l : List Nat} {x : Nat}
    (hx : x ∉ l) : (h.bump l).version x = h.version x := by
  simp [Heap.bump, List.count_eq_zero_of_not_mem hx]

theorem Heap.le_bump_version (h : Heap V) (l : List Nat) (x : Nat) :
    h.version x ≤ (h.bump l).version x := by
  simp [Heap.bump]

/-! ## Lemmas on the building blocks -/

theorem Outcome.andThen_eq_ok {σ α β : Type} {x : Outcome σ α} {f : α → σ → Outcome σ β}
    {b : β} {st : σ} :
    x.andThen f = .ok b st ↔ ∃ a st1, x = .ok a st1 ∧ f a st1 = .ok b st := by
  cases x with
  | ok a st1 =>
    constructor
    · intro hf
      exact ⟨a, st1, rfl, hf⟩
    · rintro ⟨a', st', heq, hf⟩
      cases heq
      exact hf
  | panic e st1 => simp [Outcome.andThen]
  | outOfFuel => simp [Outcome.andThen]

theorem detach_eq_ok {h h1 : Heap V} {prev : Option Node} {u : Unit}
    (hd : detach h prev = .ok u h1) :
    (prev = none ∧ h1 = h) ∨
    (∃ p q, prev = some p ∧ h.parent p.base = some q ∧
      h1 = { h with parent := Function.update h.parent p.base none }) := by
  cases prev with
  | none =>
    simp only [detach, Outcome.ok.injEq, true_and] at hd
    exact Or.inl ⟨rfl, hd.symm⟩
  | some p =>
    right
    cases hp : h.parent p.base with
    | none => simp [detach, base.resetParent, hp] at hd
    | some q =>
      simp only [detach, base.resetParent, hp, Outcome.ok.injEq, true_and] at hd
      exact ⟨p, q, rfl, hp, hd.symm⟩

theorem attach_eq_ok {h h1 : Heap V} {value : Option Node} {n : Node} {u : Unit}
    (ha : attach h value n = .ok u h1) :
    (value = none ∧ h1 = h) ∨
    (∃ v, value = some v ∧ h.parent v.base = none ∧
      h1 = { h with parent := Function.update h.parent v.base (some n) }) := by
  cases value with
  | none =>
    simp only [attach, Outcome.ok.injEq, true_and] at ha
    exact Or.inl ⟨rfl, ha.symm⟩
  | some v =>
    right
    cases hp : h.parent v.base with
    | some q => simp [attach, base.setParent, hp] at ha
    | none =>
      simp only [attach, base.setParent, hp, Outcome.ok.injEq, true_and] at ha
      exact ⟨v, rfl, hp, ha.symm⟩

theorem detach_ok_of_parent (h : Heap V) (p q : Node) (hp : h.parent p.base = some q) :
    detach h (some p) = .ok () { h with parent := Function.update h.parent p.base none } := by
  simp [detach, base.resetParent, hp]

theorem attach_ok_of_no_parent (h : Heap V) (v n : Node) (hp : h.parent v.base = none) :
    attach h (some v) n = .ok () { h with parent := Function.update h.parent v.base (some n) } := by
  simp [attach, base.setParent, hp]

/-- The guarded `resetParent` and `setParent` only write parent links. -/
theorem detach_frame {h h1 : Heap V} {prev : Option Node} {u : Unit}
    (hd : detach h prev = .ok u h1) :
    h1.version = h.version ∧ h1.arr = h.arr ∧ h1.maps = h.maps ∧ h1.leaves = h.leaves ∧
    h1.nextArr = h.nextArr := by
  rcases detach_eq_ok hd with ⟨-, rfl⟩ | ⟨p, q, -, -, rfl⟩ <;> simp

theorem attach_frame {h h1 : Heap V} {value : Option Node} {n : Node} {u : Unit}
    (ha : attach h value n = .ok u h1) :
    h1.version = h.version ∧ h1.arr = h.arr ∧ h1.maps = h.maps ∧ h1.leaves = h.leaves ∧
    h1.nextArr = h.nextArr := by
  rcases attach_eq_ok ha with ⟨-, rfl⟩ | ⟨v, -, -, rfl⟩ <;> simp

/-- Detaching a node that is not on a chain leaves the chain as it is. -/
theorem chain_detach {h h1 : Heap V} {prev : Option Node} {u : Unit} {c : Nat} {l : List Nat}
    (hd : detach h prev = .ok u h1) (hc : IsChain h.parent c l)
    (hnot : ∀ p, prev = some p → p.base ∉ l) : IsChain h1.parent c l := by
  rcases detach_eq_ok hd with ⟨-, rfl⟩ | ⟨p, q, hprev, -, rfl⟩
  · exact hc
  · refine hc.congr (fun x hx => ?_)
    have hne : x ≠ p.base := fun hxp => hnot p hprev (hxp ▸ hx)
    simp [Function.update_noteq hne]

/-- A chain through the new parent links that starts at the container was
already a chain before the attachment: the attached node is not on it. -/
theorem chain_attach_back {h h1 : Heap V} {value : Option Node} {n : Node} {u : Unit}
    {l : List Nat} (ha : attach h value n = .ok u h1) (hc : IsChain h1.parent n.base l) :
    IsChain h.parent n.base l := by
  rcases attach_eq_ok ha with ⟨-, rfl⟩ | ⟨v, -, -, rfl⟩
  · exact hc
  · have hv : v.base ∉ l :=
      IsChain.not_mem_of_parent hc (p := n) (by simp) rfl
    refine hc.congr (fun x hx => ?_)
    have hne : x ≠ v.base := fun hxv => hv (hxv ▸ hx)
    simp [Function.update_noteq hne]

/-- Attaching a node that is not on a chain leaves the chain as it is. -/
theorem chain_attach {h h1 : Heap V} {value : Option Node} {n : Node} {u : Unit} {c : Nat}
    {l : List Nat} (ha : attach h value n = .ok u h1) (hc : IsChain h.parent c l)
    (hnot : ∀ v, value = some v → v.base ∉ l) : IsChain h1.parent c l := by
  rcases attach_eq_ok ha with ⟨-, rfl⟩ | ⟨v, hval, -, rfl⟩
  · exact hc
  · refine hc.congr (fun x hx => ?_)
    have hne : x ≠ v.base := fun hxv => hnot v hval (hxv ▸ hx)
    simp [Function.update_noteq hne]

/-! ## What a successful call did -/

theorem Heap.store_parent (h : Heap V) (a j : Nat) (v : Option Node) :
    (h.store a j v).parent = h.parent := rfl

theorem Heap.store_version (h : Heap V) (a j : Nat) (v : Option Node) :
    (h.store a j v).version = h.version := rfl

theorem Heap.bump_parent (h : Heap V) (l : List Nat) : (h.bump l).parent = h.parent := rfl

theorem Heap.bump_arr (h : Heap V) (l : List Nat) : (h.bump l).arr = h.arr := rfl

theorem goAppend_parent (grow : Nat → Nat → Nat) (h : Heap V) (s : Slice)
    (values : List (Option Node)) : (goAppend grow h s values).2.parent = h.parent := by
  unfold goAppend
  split <;> rfl

theorem goAppend_version (grow : Nat → Nat → Nat) (h : Heap V) (s : Slice)
    (values : List (Option Node)) : (goAppend grow h s values).2.version = h.version := by
  unfold goAppend
  split <;> rfl

/-- A call of `incrementVersion` returns exactly when a chain no longer than
the fuel exists. -/
theorem incrementVersion_eq_ok {fuel : Nat} {h h' : Heap V} {b : Nat} {u : Unit} :
    base.incrementVersion fuel h b = .ok u h' ↔
      ∃ l, IsChain h.parent b l ∧ l.length ≤ fuel ∧ h' = h.bump l := by
  constructor
  · exact chain_of_incrementVersion fuel h b h'
  · rintro ⟨l, hc, hlen, rfl⟩
    exact incrementVersion_of_chain l fuel h b hc hlen

theorem SetIndex_eq_ok {fuel : Nat} {h h' : Heap V} {s : Slice} {i : Int}
    {value : Option Node} {u : Unit} :
    Slice.SetIndex fuel h s i value = .ok u h' ↔
      (0 ≤ i ∧ i < s.len) ∧ ∃ h1 h2 l,
        detach h (h.arr s.arr (s.off + i.toNat)) = .ok () h1 ∧
        attach h1 value (.slice s) = .ok () h2 ∧
        IsChain h2.parent s.base l ∧ l.length ≤ fuel ∧
        h' = (h2.store s.arr (s.off + i.toNat) value).bump l := by
  unfold Slice.SetIndex
  by_cases hi : i < 0 ∨ (s.len : Int) ≤ i
  · rw [if_pos hi]
    constructor
    · intro hr
      cases hr
    · rintro ⟨⟨h0, hlen⟩, -⟩
      omega
  · rw [if_neg hi]
    simp only [Outcome.andThen_eq_ok, incrementVersion_eq_ok, Heap.store_parent]
    constructor
    · rintro ⟨_, h1, hd, _, h2, ha, l, hc, hlen, rfl⟩
      exact ⟨by omega, h1, h2, l, hd, ha, hc, hlen, rfl⟩
    · rintro ⟨-, h1, h2, l, hd, ha, hc, hlen, rfl⟩
      exact ⟨(), h1, hd, (), h2, ha, l, hc, hlen, rfl⟩

theorem Heap.mapStore_parent (h : Heap V) (t : Nat) (k : String) (v : Option Node) :
    (h.mapStore t k v).parent = h.parent := rfl

theorem Heap.mapDelete_parent (h : Heap V) (t : Nat) (k : String) :
    (h.mapDelete t k).parent = h.parent := rfl

theorem SetMapIndex_eq_ok {fuel : Nat} {h h' : Heap V} {m : Map} {key : String}
    {value : Option Node} {u : Unit} :
    Map.SetMapIndex fuel h m key value = .ok u h' ↔
      ∃ h1 h2 l,
        detach h (h.maps m.tbl key).join = .ok () h1 ∧
        attach h1 value (.map m) = .ok () h2 ∧
        IsChain h2.parent m.base l ∧ l.length ≤ fuel ∧
        h' = (h2.mapStore m.tbl key value).bump l := by
  unfold Map.SetMapIndex
  simp only [Outcome.andThen_eq_ok, incrementVersion_eq_ok, Heap.mapStore_parent]
  constructor
  · rintro ⟨_, h1, hd, _, h2, ha, l, hc, hlen, rfl⟩
    exact ⟨h1, h2, l, hd, ha, hc, hlen, rfl⟩
  · rintro ⟨h1, h2, l, hd, ha, hc, hlen, rfl⟩
    exact ⟨(), h1, hd, (), h2, ha, l, hc, hlen, rfl⟩

theorem Delete_eq_ok {fuel : Nat} {h h' : Heap V} {m : Map} {key : String} {u : Unit} :
    Map.Delete fuel h m key = .ok u h' ↔
      ∃ h1 l,
        detach h (h.maps m.tbl key).join = .ok () h1 ∧
        IsChain h1.parent m.base l ∧ l.length ≤ fuel ∧
        h' = (h1.mapDelete m.tbl key).bump l := by
  unfold Map.Delete
  simp only [Outcome.andThen_eq_ok, incrementVersion_eq_ok, Heap.mapDelete_parent]
  constructor
  · rintro ⟨_, h1, hd, l, hc, hlen, rfl⟩
    exact ⟨h1, l, hd, hc, hlen, rfl⟩
  · rintro ⟨h1, l, hd, hc, hlen, rfl⟩
    exact ⟨(), h1, hd, l, hc, hlen, rfl⟩

theorem Append_eq_ok {grow : Nat → Nat → Nat} {fuel : Nat} {h h' : Heap V} {s s2 : Slice}
    {values : List (Option Node)} :
    Slice.Append grow fuel h s values = .ok s2 h' ↔
      ∃ h1 l,
        attachAll (.slice s) h values = .ok () h1 ∧
        IsChain h1.parent s.base l ∧ l.length ≤ fuel ∧
        s2 = (goAppend grow h1 s values).1 ∧
        h' = (goAppend grow h1 s values).2.bump l := by
  unfold Slice.Append
  simp only [Outcome.andThen_eq_ok, incrementVersion_eq_ok, goAppend_parent,
    Outcome.ok.injEq]
  constructor
  · rintro ⟨_, h1, hd, _, _, ⟨l, hc, hlen, rfl⟩, rfl, rfl⟩
    exact ⟨h1, l, hd, hc, hlen, rfl, rfl⟩
  · rintro ⟨h1, l, hd, hc, hlen, rfl, rfl⟩
    exact ⟨(), h1, hd, (), _, ⟨l, hc, hlen, rfl⟩, rfl, rfl⟩

/-- The attachment loop of `Append` only writes parent links. -/
theorem attachAll_frame {n : Node} :
    ∀ {values : List (Option Node)} {h h1 : Heap V} {u : Unit},
      attachAll n h values = .ok u h1 →
      h1.version = h.version ∧ h1.arr = h.arr ∧ h1.maps = h.maps ∧ h1.leaves = h.leaves ∧
      h1.nextArr = h.nextArr
  | [], h, h1, _, hr => by
    simp only [attachAll, Outcome.ok.injEq, true_and] at hr
    subst hr
    simp
  | v :: vs, h, h1, _, hr => by
    simp only [attachAll, Outcome.andThen_eq_ok] at hr
    obtain ⟨_, h2, ha, hrest⟩ := hr
    obtain ⟨e1, e2, e3, e4, e5⟩ := attach_frame ha
    obtain ⟨f1, f2, f3, f4, f5⟩ := attachAll_frame hrest
    exact ⟨f1.trans e1, f2.trans e2, f3.trans e3, f4.trans e4, f5.trans e5⟩

/-- A chain from the receiver through the parent links left by the
attachment loop was a chain before the loop. -/
theorem chain_attachAll_back {n : Node} {l : List Nat} :
    ∀ {values : List (Option Node)} {h h1 : Heap V} {u : Unit},
      attachAll n h values = .ok u h1 → IsChain h1.parent n.base l →
      IsChain h.parent n.base l
  | [], h, h1, _, hr, hc => by
    simp only [attachAll, Outcome.ok.injEq, true_and] at hr
    subst hr
    exact hc
  | v :: vs, h, h1, _, hr, hc => by
    simp only [attachAll, Outcome.andThen_eq_ok] at hr
    obtain ⟨_, h2, ha, hrest⟩ := hr
    exact chain_attach_back ha (chain_attachAll_back hrest hc)

/-! ## C1 -/

/-- C1: in a tree with acyclic parent links (`anc` is the chain of bases from
the leaf up to the root), `l.SetValue(v)` returns, stores `v`, and raises by
exactly 1 the version of `l` and of every ancestor of `l`. -/
theorem C1_setValue_bumps_ancestors (h : Heap V) (l : Leaf) (v : V) (anc : List Nat)
    (fuel : Nat) (hanc : IsChain h.parent l.base anc) (hfuel : anc.length ≤ fuel) :
    ∃ h', Leaf.SetValue fuel h l v = .ok () h' ∧ Leaf.Value h' l = v ∧
      h'.version l.base = h.version l.base + 1 ∧
      ∀ b ∈ anc, h'.version b = h.version b + 1 := by
  have hrun := incrementVersion_of_chain anc fuel
    { h with leaves := Function.update h.leaves l.cell v } l.base hanc hfuel
  refine ⟨_, hrun, ?_, ?_, ?_⟩
  · simp [Leaf.Value, Heap.bump]
  · exact Heap.bump_version_of_mem _ hanc.nodup hanc.head_mem
  · intro b hb
    exact Heap.bump_version_of_mem _ hanc.nodup hb

/-- C1 on the sample tree: the leaf sits at depth 2; its chain is leaf, map,
root sequence, and all three versions go up by 1. -/
theorem C1_setValue_bumps_ancestors_witness :
    sampleTree = .ok (sampleRoot, sampleMap, sampleLeaf) sampleHeap ∧
    IsChain sampleHeap.parent sampleLeaf.base [2, 1, 0] ∧
    ∃ h', Leaf.SetValue 3 sampleHeap sampleLeaf 9 = .ok () h' ∧ Leaf.Value h' sampleLeaf = 9 ∧
      h'.version sampleLeaf.base = sampleHeap.version sampleLeaf.base + 1 ∧
      ∀ b ∈ [2, 1, 0], h'.version b = sampleHeap.version b + 1 :=
  ⟨rfl, by decide,
   C1_setValue_bumps_ancestors sampleHeap sampleLeaf 9 [2, 1, 0] 3 (by decide) (by decide)⟩

/-! ## C2 -/

theorem bumped_of_chain {par : Nat → Option Node} {h h3 : Heap V} {c : Nat} {l : List Nat}
    (hc : IsChain par c l) (hv : h3.version = h.version) :
    (∀ b ∈ l, (h3.bump l).version b = h.version b + 1) ∧
    (∀ b, h.version b ≤ (h3.bump l).version b) := by
  constructor
  · intro b hb
    rw [Heap.bump_version_of_mem _ hc.nodup hb, hv]
  · intro b
    rw [← hv]
    exact Heap.le_bump_version _ _ _

theorem IsChildOf.not_mem_chain {par : Nat → Option Node} {c : Nat} {l : List Nat}
    {prev : Option Node} (hchild : IsChildOf par c prev) (hc : IsChain par c l) :
    ∀ p, prev = some p → p.base ∉ l := by
  intro p hp
  subst hp
  cases hq : par p.base with
  | none => simp [IsChildOf, hq] at hchild
  | some q =>
    have hqc : q.base = c := by simpa [IsChildOf, hq] using hchild
    exact IsChain.not_mem_of_parent hc hq hqc

/-- A node off the chain of a container is what the guarded detachment may
clear without cutting that chain. -/
theorem OffChain.base_not_mem {l : List Nat} {prev : Option Node}
    (hoff : OffChain l prev) : ∀ p, prev = some p → p.base ∉ l := by
  intro p hp
  subst hp
  exact hoff

/-- Where the overwritten or removed occupant (slot `i`, key `k`) is empty or
off the chain `anc` of the container and its ancestors, every successful
`SetIndex`, `SetMapIndex` and `Delete`, and every successful `Append`, leaves
the version of each member of `anc` exactly 1 greater, and lowers no
version. -/
theorem mutation_bumps_chain (grow : Nat → Nat → Nat) (fuel : Nat)
    (h h' : Heap V) (anc : List Nat) :
    (∀ (s : Slice) (i : Int) (v : Option Node),
      IsChain h.parent s.base anc →
      OffChain anc (h.arr s.arr (s.off + i.toNat)) →
      Slice.SetIndex fuel h s i v = .ok () h' →
      (∀ b ∈ anc, h'.version b = h.version b + 1) ∧ ∀ b, h.version b ≤ h'.version b) ∧
    (∀ (s s2 : Slice) (values : List (Option Node)),
      IsChain h.parent s.base anc →
      Slice.Append grow fuel h s values = .ok s2 h' →
      (∀ b ∈ anc, h'.version b = h.version b + 1) ∧ ∀ b, h.version b ≤ h'.version b) ∧
    (∀ (m : Map) (k : String) (v : Option Node),
      IsChain h.parent m.base anc →
      OffChain anc (h.maps m.tbl k).join →
      Map.SetMapIndex fuel h m k v = .ok () h' →
      (∀ b ∈ anc, h'.version b = h.version b + 1) ∧ ∀ b, h.version b ≤ h'.version b) ∧
    (∀ (m : Map) (k : String),
      IsChain h.parent m.base anc →
      OffChain anc (h.maps m.tbl k).join →
      Map.Delete fuel h m k = .ok () h' →
      (∀ b ∈ anc, h'.version b = h.version b + 1) ∧ ∀ b, h.version b ≤ h'.version b) := by
  refine ⟨?_, ?_, ?_, ?_⟩
  · intro s i v hanc hoff hrun
    obtain ⟨-, h1, h2, l, hd, ha, hc, -, rfl⟩ := SetIndex_eq_ok.1 hrun
    have hc1 : IsChain h1.parent s.base anc := chain_detach hd hanc hoff.base_not_mem
    have hl : l = anc := IsChain.unique (chain_attach_back (n := .slice s) ha hc) hc1
    subst hl
    exact bumped_of_chain hc
      (by rw [Heap.store_version, (attach_frame ha).1, (detach_frame hd).1])
  · intro s s2 values hanc hrun
    obtain ⟨h1, l, hat, hc, -, -, rfl⟩ := Append_eq_ok.1 hrun
    have hl : l = anc := IsChain.unique (chain_attachAll_back (n := .slice s) hat hc) hanc
    subst hl
    exact bumped_of_chain hc (by rw [goAppend_version, (attachAll_frame hat).1])
  · intro m k v hanc hoff hrun
    obtain ⟨h1, h2, l, hd, ha, hc, -, rfl⟩ := SetMapIndex_eq_ok.1 hrun
    have hc1 : IsChain h1.parent m.base anc := chain_detach hd hanc hoff.base_not_mem
    have hl : l = anc := IsChain.unique (chain_attach_back (n := .map m) ha hc) hc1
    subst hl
    exact bumped_of_chain hc
      (by
        show h2.version = h.version
        rw [(attach_frame ha).1, (detach_frame hd).1])
  · intro m k hanc hoff hrun
    obtain ⟨h1, l, hd, hc, -, rfl⟩ := Delete_eq_ok.1 hrun
    have hc1 : IsChain h1.parent m.base anc := chain_detach hd hanc hoff.base_not_mem
    have hl : l = anc := IsChain.unique hc hc1
    subst hl
    exact bumped_of_chain hc
      (by
        show h1.version = h.version
        rw [(detach_frame hd).1])

/-- On the sample tree: one successful call of each of the four operations,
on the root sequence (chain: base 0) and on the map (chain: bases 1, 0). -/
theorem mutation_bumps_chain_sample :
    ((∀ b ∈ [0], sampleAfterSetIndex.version b = sampleHeap.version b + 1) ∧
      ∀ b, sampleHeap.version b ≤ sampleAfterSetIndex.version b) ∧
    ((∀ b ∈ [0], sampleAfterAppend.version b = sampleHeap.version b + 1) ∧
      ∀ b, sampleHeap.version b ≤ sampleAfterAppend.version b) ∧
    ((∀ b ∈ [1, 0], sampleAfterSetMapIndex.version b = sampleHeap.version b + 1) ∧
      ∀ b, sampleHeap.version b ≤ sampleAfterSetMapIndex.version b) ∧
    ((∀ b ∈ [1, 0], sampleAfterDelete.version b = sampleHeap.version b + 1) ∧
      ∀ b, sampleHeap.version b ≤ sampleAfterDelete.version b) :=
  ⟨(mutation_bumps_chain growDouble 1 sampleHeap sampleAfterSetIndex [0]).1
      sampleRoot 0 none (by decide) (by decide) rfl,
   (mutation_bumps_chain growDouble 1 sampleHeap sampleAfterAppend [0]).2.1
      sampleRoot { base := 0, arr := 1, off := 0, len := 2, cap := 2 } [none]
      (by decide) rfl,
   (mutation_bumps_chain growDouble 2 sampleHeap sampleAfterSetMapIndex
      [1, 0]).2.2.1 sampleMap "k" none (by decide) (by decide) rfl,
   (mutation_bumps_chain growDouble 2 sampleHeap sampleAfterDelete
      [1, 0]).2.2.2 sampleMap "k" (by decide) (by decide) rfl⟩

/-- C2, the code at the failing input: every operation of `staleTree`
returns without fault and leaves acyclic parent links (the chain of the view
`s2` is `s2`, `a`, `r`, bases 0, 1, 2). Slot 0 of `s2` still lists `a`, the
copy made by `Append`, while `a` sits in slot 0 of `r`. The call
`s2.SetIndex(0, nil)` returns; the versions of `s2` and `a` are 1 greater,
and the version of the ancestor `r` is as before: detaching `a` cut the chain
before the bump. -/
theorem C2_ancestor_not_bumped :
    staleTree = .ok (staleView, staleInner, staleRoot) staleHeap ∧
    IsChain staleHeap.parent staleView.base [0, 1, 2] ∧
    Slice.Index staleHeap staleView 0 = .ok (some (.slice staleInner)) staleHeap ∧
    Slice.Index staleHeap staleRoot 0 = .ok (some (.slice staleInner)) staleHeap ∧
    Slice.SetIndex 3 staleHeap staleView 0 none = .ok () staleAfter ∧
    staleAfter.version 0 = staleHeap.version 0 + 1 ∧
    staleAfter.version 1 = staleHeap.version 1 + 1 ∧
    staleAfter.version 2 = staleHeap.version 2 :=
  ⟨rfl, by decide, rfl, rfl, rfl, rfl, rfl, rfl⟩

/-! ## C3 -/

/-- The attachment loop of `Append` stops with the multiple-parents panic as
soon as it meets an attached value; the parent link of that value is kept. -/
theorem attachAll_panic_of_parent (n v q : Node) :
    ∀ (values : List (Option Node)) (h : Heap V), h.parent v.base = some q →
      some v ∈ values →
      ∃ h1, attachAll n h values = .panic .multipleParents h1 ∧ h1.parent v.base = some q
  | [], _, _, hmem => absurd hmem (by simp)
  | none :: vs, h, hv, hmem => by
    have hmem' : some v ∈ vs := by simpa using hmem
    simpa [attachAll, attach, Outcome.andThen] using
      attachAll_panic_of_parent n v q vs h hv hmem'
  | some w :: vs, h, hv, hmem => by
    cases hw : h.parent w.base with
    | some qw =>
      refine ⟨h, ?_, hv⟩
      simp [attachAll, attach, base.setParent, hw, Outcome.andThen]
    | none =>
      have hne : v.base ≠ w.base := by
        intro heq
        rw [heq, hw] at hv
        cases hv
      have hmem' : some v ∈ vs := by
        rcases List.mem_cons.1 hmem with heq | hin
        · have hvw : v = w := by simpa using heq
          exact absurd (congrArg Node.base hvw) hne
        · exact hin
      have hv' : (Function.update h.parent w.base (some n)) v.base = some q := by
        rw [Function.update_noteq hne]
        exact hv
      obtain ⟨h1, hrun, hpar⟩ := attachAll_panic_of_parent n v q vs
        { h with parent := Function.update h.parent w.base (some n) } hv' hmem'
      refine ⟨h1, ?_, hpar⟩
      simp only [attachAll, attach, base.setParent, hw, Outcome.andThen]
      exact hrun

/-- C3, counterexample: in the sample tree the map already has the root
sequence as parent and the leaf has the map as parent, yet
`root.SetIndex(0, map)` and `map.SetMapIndex("k", leaf)` return without a
panic: the occupant of the slot (entry) is the node itself, and it is
detached before it is attached again. -/
theorem C3_counterexample :
    sampleTree = .ok (sampleRoot, sampleMap, sampleLeaf) sampleHeap ∧
    sampleHeap.parent sampleMap.base = some (.slice sampleRoot) ∧
    Slice.SetIndex 1 sampleHeap sampleRoot 0 (some (.map sampleMap))
      = .ok () ((Slice.SetIndex 1 sampleHeap sampleRoot 0 (some (.map sampleMap))).state
          sampleHeap) ∧
    sampleHeap.parent sampleLeaf.base = some (.map sampleMap) ∧
    Map.SetMapIndex 2 sampleHeap sampleMap "k" (some (.leaf sampleLeaf))
      = .ok () ((Map.SetMapIndex 2 sampleHeap sampleMap "k" (some (.leaf sampleLeaf))).state
          sampleHeap) :=
  ⟨rfl, rfl, rfl, rfl, rfl⟩

/-- C3, amended: let `v` be a node whose parent link is set (to `q`). Then
`s.Append(..., v, ...)` always stops with the multiple-parents panic, and so
do `s.SetIndex(i, v)` with `i` in range and `m.SetMapIndex(k, v)` whenever the
current occupant of the slot or entry is empty or an attached node with a
base other than that of `v`; in each case the parent link of `v` is still
`q` when the panic is raised. -/
theorem C3_attach_parented_faults (grow : Nat → Nat → Nat) (fuel : Nat) (h : Heap V)
    (v q : Node) (hv : h.parent v.base = some q) :
    (∀ (s : Slice) (values : List (Option Node)), some v ∈ values →
      ∃ h1, Slice.Append grow fuel h s values = .panic .multipleParents h1 ∧
        h1.parent v.base = some q) ∧
    (∀ (s : Slice) (i : Int), 0 ≤ i → i < s.len →
      (∀ p, h.arr s.arr (s.off + i.toNat) = some p →
        p.base ≠ v.base ∧ h.parent p.base ≠ none) →
      ∃ h1, Slice.SetIndex fuel h s i (some v) = .panic .multipleParents h1 ∧
        h1.parent v.base = some q) ∧
    (∀ (m : Map) (k : String),
      (∀ p, (h.maps m.tbl k).join = some p → p.base ≠ v.base ∧ h.parent p.base ≠ none) →
      ∃ h1, Map.SetMapIndex fuel h m k (some v) = .panic .multipleParents h1 ∧
        h1.parent v.base = some q) := by
  have key : ∀ (prev : Option Node) (n : Node) (k : Unit → Heap V → Outcome (Heap V) Unit),
      (∀ p, prev = some p → p.base ≠ v.base ∧ h.parent p.base ≠ none) →
      ∃ h1, (detach h prev).andThen (fun _ h1 => (attach h1 (some v) n).andThen k)
          = .panic .multipleParents h1 ∧ h1.parent v.base = some q := by
    intro prev n k hocc
    cases prev with
    | none =>
      refine ⟨h, ?_, hv⟩
      simp [detach, attach, base.setParent, hv, Outcome.andThen]
    | some p =>
      obtain ⟨hne, hpar⟩ := hocc p rfl
      cases hp : h.parent p.base with
      | none => exact absurd hp hpar
      | some qp =>
        have hv' : (Function.update h.parent p.base none) v.base = some q := by
          rw [Function.update_noteq (Ne.symm hne)]
          exact hv
        refine ⟨{ h with parent := Function.update h.parent p.base none }, ?_, hv'⟩
        simp [detach, attach, base.resetParent, base.setParent, hp, hv', Outcome.andThen]
  refine ⟨?_, ?_, ?_⟩
  · intro s values hmem
    obtain ⟨h1, hrun, hpar⟩ := attachAll_panic_of_parent (.slice s) v q values h hv hmem
    exact ⟨h1, by simp [Slice.Append, hrun, Outcome.andThen], hpar⟩
  · intro s i h0 hlen hocc
    have hi : ¬ (i < 0 ∨ (s.len : Int) ≤ i) := by omega
    unfold Slice.SetIndex
    rw [if_neg hi]
    exact key _ _ _ hocc
  · intro m k hocc
    unfold Map.SetMapIndex
    exact key _ _ _ hocc

/-- C3, amended, on the sample tree, with the leaf (attached to the map) as
`v`: appending it to the root sequence, storing it in slot 0 of the root
sequence (occupied by the map) and storing it under the absent key "j" of the
map all stop with the multiple-parents panic. -/
theorem C3_attach_parented_faults_witness :
    sampleHeap.parent sampleLeaf.base = some (.map sampleMap) ∧
    (∃ h1, Slice.Append growDouble 1 sampleHeap sampleRoot [some (.leaf sampleLeaf)]
        = .panic .multipleParents h1 ∧ h1.parent sampleLeaf.base = some (.map sampleMap)) ∧
    (∃ h1, Slice.SetIndex 1 sampleHeap sampleRoot 0 (some (.leaf sampleLeaf))
        = .panic .multipleParents h1 ∧ h1.parent sampleLeaf.base = some (.map sampleMap)) ∧
    (∃ h1, Map.SetMapIndex 1 sampleHeap sampleMap "j" (some (.leaf sampleLeaf))
        = .panic .multipleParents h1 ∧ h1.parent sampleLeaf.base = some (.map sampleMap)) :=
  have hthm := C3_attach_parented_faults growDouble 1 sampleHeap (.leaf sampleLeaf)
    (.map sampleMap) rfl
  ⟨rfl,
   hthm.1 sampleRoot [some (.leaf sampleLeaf)] (by simp),
   hthm.2.1 sampleRoot 0 (by decide) (by decide) (by
     intro p hp
     have hp' : p = .map sampleMap := (Option.some.inj hp).symm
     subst hp'
     exact ⟨by decide, by decide⟩),
   hthm.2.2 sampleMap "j" (by
     intro p hp
     have hnone : (sampleHeap.maps sampleMap.tbl "j").join = none := by decide
     rw [hnone] at hp
     cases hp)⟩

/-! ## Lemmas on `SetIndex`, `SetMapIndex` and `Delete` -/

theorem NoParent.eq_none {par : Nat → Option Node} {n : Node} (hv : NoParent par (some n)) :
    par n.base = none := hv

theorem Index_eq_ok_of_lt (h : Heap V) (s : Slice) (j : Int) (h0 : 0 ≤ j) (hlen : j < s.len) :
    Slice.Index h s j = .ok (h.arr s.arr (s.off + j.toNat)) h := by
  have hj : ¬ (j < 0 ∨ (s.len : Int) ≤ j) := by omega
  simp [Slice.Index, hj]

/-- In a tree the guarded detachment of a child and the guarded attachment of
a parentless node off the chain both go through and keep the chain. -/
theorem detach_attach_returns (h : Heap V) (prev v : Option Node) (n : Node) (c : Nat)
    (anc : List Nat) (hv : NoParent h.parent v) (hanc : IsChain h.parent c anc)
    (hchild : IsChildOf h.parent c prev) (hoff : OffChain anc v) :
    ∃ h1 h2, detach h prev = .ok () h1 ∧ attach h1 v n = .ok () h2 ∧
      IsChain h1.parent c anc ∧ IsChain h2.parent c anc := by
  have hd : ∃ h1, detach h prev = .ok () h1 ∧
      ∀ w, v = some w → h1.parent w.base = none := by
    cases prev with
    | none => exact ⟨h, rfl, fun w hw => by subst hw; exact hv⟩
    | some p =>
      cases hp : h.parent p.base with
      | none => simp [IsChildOf, hp] at hchild
      | some q =>
        refine ⟨_, detach_ok_of_parent h p q hp, ?_⟩
        intro w hw
        subst hw
        have hne : w.base ≠ p.base := by
          intro heq
          have hvn : h.parent w.base = none := hv
          rw [heq, hp] at hvn
          cases hvn
        simp [Function.update_noteq hne, hv.eq_none]
  obtain ⟨h1, hdet, hfree⟩ := hd
  have hc1 : IsChain h1.parent c anc := chain_detach hdet hanc (hchild.not_mem_chain hanc)
  have ha : ∃ h2, attach h1 v n = .ok () h2 := by
    cases v with
    | none => exact ⟨h1, rfl⟩
    | some w => exact ⟨_, attach_ok_of_no_parent h1 w _ (hfree w rfl)⟩
  obtain ⟨h2, hatt⟩ := ha
  exact ⟨h1, h2, hdet, hatt, hc1, chain_attach hatt hc1 (fun w hw => by subst hw; exact hoff)⟩

/-- `SetIndex` returns when the index is in range, the occupant of the slot
is empty or a child of the sequence, the new value is empty or a parentless
node off the chain of the sequence, and the fuel covers the chain. -/
theorem SetIndex_returns (fuel : Nat) (h : Heap V) (s : Slice) (i : Int) (v : Option Node)
    (anc : List Nat) (h0 : 0 ≤ i) (hlen : i < s.len) (hv : NoParent h.parent v)
    (hanc : IsChain h.parent s.base anc) (hfuel : anc.length ≤ fuel)
    (hchild : IsChildOf h.parent s.base (h.arr s.arr (s.off + i.toNat)))
    (hoff : OffChain anc v) :
    ∃ h', Slice.SetIndex fuel h s i v = .ok () h' := by
  obtain ⟨h1, h2, hdet, hatt, -, hc2⟩ :=
    detach_attach_returns h _ v (.slice s) s.base anc hv hanc hchild hoff
  exact ⟨_, SetIndex_eq_ok.2 ⟨⟨h0, hlen⟩, h1, h2, anc, hdet, hatt, hc2, hfuel, rfl⟩⟩

/-- `SetMapIndex` returns under the same conditions on the entry. -/
theorem SetMapIndex_returns (fuel : Nat) (h : Heap V) (m : Map) (k : String)
    (v : Option Node) (anc : List Nat) (hv : NoParent h.parent v)
    (hanc : IsChain h.parent m.base anc) (hfuel : anc.length ≤ fuel)
    (hchild : IsChildOf h.parent m.base (h.maps m.tbl k).join) (hoff : OffChain anc v) :
    ∃ h', Map.SetMapIndex fuel h m k v = .ok () h' := by
  obtain ⟨h1, h2, hdet, hatt, -, hc2⟩ :=
    detach_attach_returns h _ v (.map m) m.base anc hv hanc hchild hoff
  exact ⟨_, SetMapIndex_eq_ok.2 ⟨h1, h2, anc, hdet, hatt, hc2, hfuel, rfl⟩⟩

/-- What a returned `SetIndex` leaves behind, for a new value that was empty
or parentless. -/
theorem SetIndex_post (fuel : Nat) (h h' : Heap V) (s : Slice) (i : Int)
    (v : Option Node) (h0 : 0 ≤ i) (hlen : i < s.len) (hv : NoParent h.parent v)
    (hrun : Slice.SetIndex fuel h s i v = .ok () h') :
    Slice.Index h' s i = .ok v h' ∧
    (∀ j : Int, 0 ≤ j → j < s.len → j ≠ i →
      ∃ x, Slice.Index h s j = .ok x h ∧ Slice.Index h' s j = .ok x h') ∧
    (∀ p, h.arr s.arr (s.off + i.toNat) = some p → h'.parent p.base = none) ∧
    (∀ n, v = some n → h'.parent n.base = some (.slice s)) ∧
    h'.version s.base = h.version s.base + 1 := by
  obtain ⟨-, h1, h2, l, hd, ha, hc, -, rfl⟩ := SetIndex_eq_ok.1 hrun
  have harr2 : h2.arr = h.arr := (attach_frame ha).2.1.trans (detach_frame hd).2.1
  have hver2 : h2.version = h.version := (attach_frame ha).1.trans (detach_frame hd).1
  refine ⟨?_, ?_, ?_, ?_, ?_⟩
  · rw [Index_eq_ok_of_lt _ s i h0 hlen]
    simp [Heap.bump, Heap.store]
  · intro j hj0 hjlen hji
    refine ⟨_, Index_eq_ok_of_lt h s j hj0 hjlen, ?_⟩
    rw [Index_eq_ok_of_lt _ s j hj0 hjlen]
    have hne : ¬ (s.off + j.toNat = s.off + i.toNat) := by omega
    simp [Heap.bump, Heap.store, hne, harr2]
  · intro p hp
    rw [hp] at hd
    rcases detach_eq_ok hd with ⟨hnone, -⟩ | ⟨p', q, hp', hq, rfl⟩
    · cases hnone
    · cases hp'
      rcases attach_eq_ok ha with ⟨-, rfl⟩ | ⟨n, hn, -, rfl⟩
      · simp [Heap.bump, Heap.store]
      · subst hn
        have hne : p.base ≠ n.base := by
          intro heq
          have hvn : h.parent n.base = none := hv
          rw [← heq, hq] at hvn
          cases hvn
        simp [Heap.bump, Heap.store, Function.update_noteq hne]
  · intro n hn
    subst hn
    rcases attach_eq_ok ha with ⟨hnone, -⟩ | ⟨n', hn', -, rfl⟩
    · cases hnone
    · cases hn'
      simp [Heap.bump, Heap.store]
  · rw [Heap.bump_version_of_mem _ hc.nodup hc.head_mem, Heap.store_version, hver2]

/-! ## Lemmas on the constructors and on views -/

theorem MakeMap_eq (h : Heap V) :
    MakeMap h = .ok { base := h.nextBase, tbl := h.nextMap }
      { h with version := Function.update h.version h.nextBase 1,
               parent := Function.update h.parent h.nextBase none,
               nextBase := h.nextBase + 1,
               maps := fun t k => if t = h.nextMap then none else h.maps t k,
               nextMap := h.nextMap + 1 } := rfl

/-- The view `s.Slice(i, j)` for bounds `0 ≤ i ≤ j ≤ len s ≤ cap s`. -/
theorem Slice_eq_ok (h : Heap V) (s : Slice) (i j : Int) (h0 : 0 ≤ i) (hij : i ≤ j)
    (hj : j ≤ s.len) (hcap : s.len ≤ s.cap) :
    Slice.Slice h s i j = .ok
      { base := s.base, arr := s.arr, off := s.off + i.toNat,
        len := j.toNat - i.toNat, cap := s.cap - i.toNat } h := by
  have hb : ¬ (i < 0 ∨ j < i ∨ (s.cap : Int) < j) := by omega
  simp [Slice.Slice, hb]

/-- Slot `k` of the view over `[i, j)` is slot `i + k` of the source, in
every store. -/
theorem Index_view (g : Heap V) (s : Slice) (i j k : Int) (h0 : 0 ≤ i) (hj : j ≤ s.len)
    (hk0 : 0 ≤ k) (hk : k < j - i) :
    Slice.Index g
        { base := s.base, arr := s.arr, off := s.off + i.toNat,
          len := j.toNat - i.toNat, cap := s.cap - i.toNat } k
      = Slice.Index g s (i + k) := by
  have h1 : ¬ (k < 0 ∨ ((j.toNat - i.toNat : Nat) : Int) ≤ k) := by omega
  have h2 : ¬ (i + k < 0 ∨ (s.len : Int) ≤ i + k) := by omega
  have h3 : s.off + i.toNat + k.toNat = s.off + (i + k).toNat := by omega
  simp [Slice.Index, h1, h2, h3]

/-! ## Lemmas on `Move` -/

theorem resetParent_setParent_ok (h : Heap V) (b : Nat) (q n : Node)
    (hp : h.parent b = some q) (k : Unit → Heap V → Outcome (Heap V) Unit) :
    ((base.resetParent h b).andThen fun _ h1 => (base.setParent h1 b n).andThen k)
      = k () { h with parent := Function.update h.parent b (some n) } := by
  simp [base.resetParent, base.setParent, hp, Outcome.andThen]

theorem resetParent_panic (h : Heap V) (b : Nat) (hp : h.parent b = none)
    (k : Unit → Heap V → Outcome (Heap V) Unit) :
    (base.resetParent h b).andThen k = .panic .internalError h := by
  simp [base.resetParent, hp, Outcome.andThen]

/-- What the loop of `Move` did when it returns: it wrote only parent links
and slots of `src`; each visited slot of `src` is empty; the parent of every
base that sat in a visited slot is `dst`; every other parent link is as
before. -/
theorem moveLoop_eq_ok (dst src : Slice) :
    ∀ (is : List Nat) (g g' : Heap V), moveLoop dst src g is = .ok () g' →
      g'.version = g.version ∧ g'.maps = g.maps ∧ g'.leaves = g.leaves ∧
      (∀ a j, (a = src.arr ∧ ∃ i ∈ is, j = src.off + i) → g'.arr a j = none) ∧
      (∀ a j, ¬ (a = src.arr ∧ ∃ i ∈ is, j = src.off + i) → g'.arr a j = g.arr a j) ∧
      (∀ b, (∃ i ∈ is, ∃ v, g.arr src.arr (src.off + i) = some v ∧ v.base = b) →
        g'.parent b = some (.slice dst)) ∧
      (∀ b, ¬ (∃ i ∈ is, ∃ v, g.arr src.arr (src.off + i) = some v ∧ v.base = b) →
        g'.parent b = g.parent b)
  | [], g, g', hrun => by
    simp only [moveLoop, Outcome.ok.injEq, true_and] at hrun
    subst hrun
    simp
  | i :: is, g, g', hrun => by
    cases hocc : g.arr src.arr (src.off + i) with
    | none =>
      simp only [moveLoop, hocc] at hrun
      obtain ⟨e1, e2, e3, e4, e5, e6, e7⟩ := moveLoop_eq_ok dst src is g g' hrun
      refine ⟨e1, e2, e3, ?_, ?_, ?_, ?_⟩
      · rintro a j ⟨ha, i', hi', hj⟩
        rcases List.mem_cons.1 hi' with heq | hin
        · subst heq
          by_cases hmem : ∃ i'' ∈ is, j = src.off + i''
          · exact e4 a j ⟨ha, hmem⟩
          · rw [e5 a j (fun hx => hmem hx.2), ha, hj, hocc]
        · exact e4 a j ⟨ha, i', hin, hj⟩
      · intro a j hnot
        exact e5 a j (fun ⟨ha, i', hi', hj⟩ => hnot ⟨ha, i', List.mem_cons_of_mem _ hi', hj⟩)
      · rintro b ⟨i', hi', v, hv, hb⟩
        rcases List.mem_cons.1 hi' with heq | hin
        · subst heq
          rw [hocc] at hv
          cases hv
        · exact e6 b ⟨i', hin, v, hv, hb⟩
      · intro b hnot
        exact e7 b (fun ⟨i', hi', v, hv, hb⟩ =>
          hnot ⟨i', List.mem_cons_of_mem _ hi', v, hv, hb⟩)
    | some v =>
      cases hp : g.parent v.base with
      | none =>
        simp only [moveLoop, hocc] at hrun
        rw [resetParent_panic g v.base hp] at hrun
        cases hrun
      | some q =>
        simp only [moveLoop, hocc] at hrun
        rw [resetParent_setParent_ok g v.base q (.slice dst) hp] at hrun
        obtain ⟨e1, e2, e3, e4, e5, e6, e7⟩ := moveLoop_eq_ok dst src is _ g' hrun
        have hslot : ∀ i' w,
            (Heap.store { g with parent := Function.update g.parent v.base (some (.slice dst)) }
              src.arr (src.off + i) none).arr src.arr (src.off + i') = some w →
            g.arr src.arr (src.off + i') = some w := by
          intro i' w hw
          by_cases hii : src.off + i' = src.off + i
          · simp [Heap.store, hii] at hw
          · simpa [Heap.store, hii] using hw
        refine ⟨e1, e2, e3, ?_, ?_, ?_, ?_⟩
        · rintro a j ⟨ha, i', hi', hj⟩
          by_cases hmem : ∃ i'' ∈ is, j = src.off + i''
          · exact e4 a j ⟨ha, hmem⟩
          · rw [e5 a j (fun hx => hmem hx.2)]
            rcases List.mem_cons.1 hi' with heq | hin
            · subst heq
              simp [Heap.store, ha, hj]
            · exact absurd ⟨i', hin, hj⟩ hmem
        · intro a j hnot
          rw [e5 a j (fun ⟨ha, i', hi', hj⟩ =>
            hnot ⟨ha, i', List.mem_cons_of_mem _ hi', hj⟩)]
          have hne : ¬ (a = src.arr ∧ j = src.off + i) :=
            fun ⟨ha, hj⟩ => hnot ⟨ha, i, List.mem_cons_self _ _, hj⟩
          simp [Heap.store, hne]
        · rintro b ⟨i', hi', w, hw, hb⟩
          by_cases hmem : ∃ i'' ∈ is, ∃ w',
              (Heap.store
                { g with parent := Function.update g.parent v.base (some (.slice dst)) }
                src.arr (src.off + i) none).arr src.arr (src.off + i'') = some w' ∧
              w'.base = b
          · exact e6 b hmem
          · rw [e7 b hmem]
            have hbv : b = v.base := by
              rcases List.mem_cons.1 hi' with heq | hin
              · subst heq
                rw [hocc] at hw
                cases hw
                exact hb.symm
              · by_cases hii : src.off + i' = src.off + i
                · rw [hii, hocc] at hw
                  cases hw
                  exact hb.symm
                · exact absurd ⟨i', hin, w, by simpa [Heap.store, hii] using hw, hb⟩ hmem
            simp [Heap.store, hbv]
        · intro b hnot
          have hbv : b ≠ v.base :=
            fun hbv => hnot ⟨i, List.mem_cons_self _ _, v, hocc, hbv.symm⟩
          rw [e7 b (fun ⟨i', hi', w, hw, hb⟩ =>
            hnot ⟨i', List.mem_cons_of_mem _ hi', w, hslot i' w hw, hb⟩)]
          simp [Heap.store, Function.update_noteq hbv]

/-- The loop of `Move` returns when every node in a visited slot of `src` has
its parent link set. -/
theorem moveLoop_returns (dst src : Slice) :
    ∀ (is : List Nat) (g : Heap V),
      (∀ i ∈ is, ∀ v, g.arr src.arr (src.off + i) = some v → g.parent v.base ≠ none) →
      ∃ g', moveLoop dst src g is = .ok () g'
  | [], g, _ => ⟨g, rfl⟩
  | i :: is, g, hpar => by
    cases hocc : g.arr src.arr (src.off + i) with
    | none =>
      simp only [moveLoop, hocc]
      exact moveLoop_returns dst src is g
        (fun i' hi' v hv => hpar i' (List.mem_cons_of_mem _ hi') v hv)
    | some v =>
      cases hp : g.parent v.base with
      | none => exact absurd hp (hpar i (List.mem_cons_self _ _) v hocc)
      | some q =>
        simp only [moveLoop, hocc]
        rw [resetParent_setParent_ok g v.base q (.slice dst) hp]
        refine moveLoop_returns dst src is _ ?_
        intro i' hi' w hw
        by_cases hii : src.off + i' = src.off + i
        · simp [Heap.store, hii] at hw
        · have hw' : g.arr src.arr (src.off + i') = some w := by
            simpa [Heap.store, hii] using hw
          by_cases hwv : w.base = v.base
          · simp [Heap.store, hwv]
          · simpa [Heap.store, Function.update_noteq hwv] using
              hpar i' (List.mem_cons_of_mem _ hi') w hw'

theorem Move_eq_ok {fuel : Nat} {h h' : Heap V} {dst src : Slice} {u : Unit} :
    Move fuel h dst src = .ok u h' ↔
      ∃ g' lS lD,
        moveLoop dst src (goCopy h dst src) (List.range src.len) = .ok () g' ∧
        IsChain g'.parent src.base lS ∧ lS.length ≤ fuel ∧
        IsChain g'.parent dst.base lD ∧ lD.length ≤ fuel ∧
        h' = (g'.bump lS).bump lD := by
  unfold Move
  simp only [Outcome.andThen_eq_ok, incrementVersion_eq_ok]
  constructor
  · rintro ⟨_, g', hloop, _, _, ⟨lS, hS, hlenS, rfl⟩, lD, hD, hlenD, rfl⟩
    exact ⟨g', lS, lD, hloop, hS, hlenS, hD, hlenD, rfl⟩
  · rintro ⟨g', lS, lD, hloop, hS, hlenS, hD, hlenD, rfl⟩
    exact ⟨(), g', hloop, (), _, ⟨lS, hS, hlenS, rfl⟩, lD, hD, hlenD, rfl⟩

/-- With non-overlapping storage `copy` leaves the slots of `src` as they
are. -/
theorem goCopy_src (h : Heap V) (dst src : Slice) (hdis : NonOverlapping dst src)
    (i : Nat) (hi : i < src.len) :
    (goCopy h dst src).arr src.arr (src.off + i) = h.arr src.arr (src.off + i) := by
  have hne : ¬ (src.arr = dst.arr ∧ dst.off ≤ src.off + i ∧
      src.off + i < dst.off + min dst.len src.len) := by
    rintro ⟨ha, h1, h2⟩
    rcases hdis with hd | hd | hd
    · exact hd ha.symm
    · have := Nat.min_le_left dst.len src.len
      omega
    · omega
  simp [goCopy, hne]

/-- The member after `x` on a chain is the base of the parent of `x`. -/
theorem IsChain.parent_mem {par : Nat → Option Node} {c x : Nat} {l : List Nat} {q : Node}
    (hc : IsChain par c l) (hx : x ∈ l) (hq : par x = some q) : q.base ∈ l := by
  obtain ⟨pre, suf, hl, hs⟩ := IsChain.suffix hc hx
  obtain ⟨t, rfl⟩ := hs.exists_tail
  cases t with
  | nil =>
    have h1 := hs.2
    rw [hq] at h1
    cases h1
  | cons y t =>
    have hstep := hs.2.1
    rw [hq] at hstep
    have hy : q.base = y := by simpa using hstep
    rw [hl, hy]
    simp

/-- `Move` returns in a tree: storage not overlapping, every node in a slot
of `src` a child of `src` and off the chain of `dst`, parent links above
`src` and `dst` acyclic, fuel covering both chains. The chains are the same
after the loop, and the versions are those before the call, bumped along
both chains. -/
theorem Move_returns (fuel : Nat) (h : Heap V) (dst src : Slice) (ancS ancD : List Nat)
    (hdis : NonOverlapping dst src)
    (hS : IsChain h.parent src.base ancS) (hD : IsChain h.parent dst.base ancD)
    (hfS : ancS.length ≤ fuel) (hfD : ancD.length ≤ fuel)
    (hchild : ∀ i, i < src.len → IsChildOf h.parent src.base (h.arr src.arr (src.off + i)))
    (hoff : ∀ i, i < src.len → OffChain ancD (h.arr src.arr (src.off + i))) :
    ∃ g' : Heap V, Move fuel h dst src = .ok () ((g'.bump ancS).bump ancD) ∧
      g'.version = h.version := by
  have hpar : ∀ i ∈ List.range src.len, ∀ v,
      (goCopy h dst src).arr src.arr (src.off + i) = some v →
      (goCopy h dst src).parent v.base ≠ none := by
    intro i hi v hv
    have hi' : i < src.len := List.mem_range.1 hi
    rw [goCopy_src h dst src hdis i hi'] at hv
    have hc := hchild i hi'
    rw [hv] at hc
    intro hnone
    have hnone' : h.parent v.base = none := hnone
    simp [IsChildOf, hnone'] at hc
  obtain ⟨g', hloop⟩ := moveLoop_returns dst src (List.range src.len) (goCopy h dst src) hpar
  obtain ⟨e1, -, -, -, -, -, e7⟩ := moveLoop_eq_ok dst src _ _ g' hloop
  have hkeep : ∀ (c : Nat) (l : List Nat), IsChain h.parent c l →
      (∀ i, i < src.len → OffChain l (h.arr src.arr (src.off + i))) →
      IsChain g'.parent c l := by
    intro c l hc hl
    refine hc.congr (fun x hx => ?_)
    have hnot : ¬ ∃ i ∈ List.range src.len, ∃ v,
        (goCopy h dst src).arr src.arr (src.off + i) = some v ∧ v.base = x := by
      rintro ⟨i, hi, v, hv, hb⟩
      have hi' : i < src.len := List.mem_range.1 hi
      rw [goCopy_src h dst src hdis i hi'] at hv
      have ho := hl i hi'
      rw [hv] at ho
      exact ho (hb ▸ hx)
    rw [e7 x hnot]
    rfl
  have hS' : IsChain g'.parent src.base ancS :=
    hkeep src.base ancS hS (fun i hi => by
      have hc := hchild i hi
      cases hocc : h.arr src.arr (src.off + i) with
      | none => trivial
      | some v =>
        rw [hocc] at hc
        exact hc.not_mem_chain hS v rfl)
  have hD' : IsChain g'.parent dst.base ancD := hkeep dst.base ancD hD hoff
  exact ⟨g', Move_eq_ok.2 ⟨g', ancS, ancD, hloop, hS', hfS, hD', hfD, rfl⟩, e1⟩

/-! ## C8 -/

/-- C8, counterexample: two views of the sequence of length 5, over `[0, 2)`
and `[2, 4)`, share one base; `Move` between them raises the shared version
by 2 (6 to 8). And with `c` nested under `r` (both of length 1),
`Move(r, c)` raises the version of `r` by 2: once through the bump of `c`,
once through its own. -/
theorem C8_counterexample :
    (fiveTree = .ok (fiveSeq, fiveSpare) fiveHeap ∧
      Slice.Slice fiveHeap fiveSeq 0 2 = .ok fiveFront fiveHeap ∧
      Slice.Slice fiveHeap fiveSeq 2 4 = .ok fiveMiddle fiveHeap ∧
      fiveFront.len = fiveMiddle.len ∧
      Move 1 fiveHeap fiveFront fiveMiddle = .ok () fiveAfterMove ∧
      fiveAfterMove.version fiveMiddle.base = fiveHeap.version fiveMiddle.base + 2 ∧
      fiveAfterMove.version fiveFront.base = fiveHeap.version fiveFront.base + 2) ∧
    (nestTree = .ok (nestOuter, nestInner) nestHeap ∧
      nestOuter.len = nestInner.len ∧
      Move 2 nestHeap nestOuter nestInner = .ok () nestAfterMove ∧
      nestAfterMove.version nestInner.base = nestHeap.version nestInner.base + 1 ∧
      nestAfterMove.version nestOuter.base = nestHeap.version nestOuter.base + 2) := by
  refine ⟨⟨rfl, rfl, rfl, rfl, rfl, by decide, by decide⟩, rfl, rfl, rfl, by decide,
    by decide⟩

/-- C8, amended: let `dst` and `src` have non-overlapping storage, acyclic
parent links above both (`ancD`, `ancS`, within the fuel), neither of the two
on the chain of the other (distinct bases, neither an ancestor of the other),
and every node in a slot of `src` a child of `src`. Then `Move(dst, src)`
returns and raises the version of `src` and the version of `dst` by exactly 1
each, whatever the slots hold. -/
theorem C8_move_bumps_once (fuel : Nat) (h : Heap V) (dst src : Slice)
    (ancS ancD : List Nat) (hdis : NonOverlapping dst src)
    (hS : IsChain h.parent src.base ancS) (hD : IsChain h.parent dst.base ancD)
    (hfS : ancS.length ≤ fuel) (hfD : ancD.length ≤ fuel)
    (hnS : dst.base ∉ ancS) (hnD : src.base ∉ ancD)
    (hchild : ∀ i, i < src.len → IsChildOf h.parent src.base (h.arr src.arr (src.off + i))) :
    ∃ h', Move fuel h dst src = .ok () h' ∧
      h'.version src.base = h.version src.base + 1 ∧
      h'.version dst.base = h.version dst.base + 1 := by
  have hoff : ∀ i, i < src.len → OffChain ancD (h.arr src.arr (src.off + i)) := by
    intro i hi
    have hc := hchild i hi
    cases hocc : h.arr src.arr (src.off + i) with
    | none => trivial
    | some v =>
      rw [hocc] at hc
      intro hmem
      cases hq : h.parent v.base with
      | none => simp [IsChildOf, hq] at hc
      | some q =>
        have hqs : q.base = src.base := by simpa [IsChildOf, hq] using hc
        exact hnD (hqs ▸ hD.parent_mem hmem hq)
  obtain ⟨g', hrun, hver⟩ :=
    Move_returns fuel h dst src ancS ancD hdis hS hD hfS hfD hchild hoff
  refine ⟨_, hrun, ?_, ?_⟩
  · rw [Heap.bump_version_of_not_mem _ hnD,
      Heap.bump_version_of_mem _ hS.nodup hS.head_mem, hver]
  · rw [Heap.bump_version_of_mem _ hD.nodup hD.head_mem,
      Heap.bump_version_of_not_mem _ hnS, hver]

/-- C8, amended, on the example of the specification: `src = [A, B]` and
`dst = [nil, nil]` are two roots; both versions go up by 1 although two
nodes are moved. -/
theorem C8_move_bumps_once_witness :
    NonOverlapping moveDst moveSrc ∧
    IsChain moveHeap.parent moveSrc.base [0] ∧ IsChain moveHeap.parent moveDst.base [3] ∧
    ∃ h', Move 1 moveHeap moveDst moveSrc = .ok () h' ∧
      h'.version moveSrc.base = moveHeap.version moveSrc.base + 1 ∧
      h'.version moveDst.base = moveHeap.version moveDst.base + 1 :=
  ⟨by decide, by decide, by decide,
   C8_move_bumps_once 1 moveHeap moveDst moveSrc [0] [3] (by decide) (by decide) (by decide)
     (by decide) (by decide) (by decide) (by decide)
     (by
       intro i hi
       have hi2 : i < 2 := hi
       interval_cases i <;> decide)⟩

/-! ## Lemmas on `Append` -/

/-- The attachment loop of `Append` leaves a set parent link as it is. -/
theorem attachAll_parent_some {n : Node} :
    ∀ {values : List (Option Node)} {h h1 : Heap V} {u : Unit} {b : Nat} {q : Node},
      attachAll n h values = .ok u h1 → h.parent b = some q → h1.parent b = some q
  | [], h, h1, _, _, _, hr, hb => by
    simp only [attachAll, Outcome.ok.injEq, true_and] at hr
    subst hr
    exact hb
  | v :: vs, h, h1, _, b, q, hr, hb => by
    simp only [attachAll, Outcome.andThen_eq_ok] at hr
    obtain ⟨_, h2, ha, hrest⟩ := hr
    refine attachAll_parent_some hrest ?_
    rcases attach_eq_ok ha with ⟨-, rfl⟩ | ⟨w, -, hw, rfl⟩
    · exact hb
    · have hne : b ≠ w.base := by
        intro heq
        rw [heq, hw] at hb
        cases hb
      simpa [Function.update_noteq hne] using hb

/-- After the attachment loop of `Append` every non-empty value has the
receiver as parent. -/
theorem attachAll_parent_mem {n : Node} :
    ∀ {values : List (Option Node)} {h h1 : Heap V} {u : Unit},
      attachAll n h values = .ok u h1 →
      ∀ v, some v ∈ values → h1.parent v.base = some n
  | [], _, _, _, _, v, hv => absurd hv (by simp)
  | w :: vs, h, h1, _, hr, v, hv => by
    simp only [attachAll, Outcome.andThen_eq_ok] at hr
    obtain ⟨_, h2, ha, hrest⟩ := hr
    rcases List.mem_cons.1 hv with heq | hin
    · subst heq
      refine attachAll_parent_some hrest ?_
      rcases attach_eq_ok ha with ⟨hnone, -⟩ | ⟨v', hv', -, rfl⟩
      · cases hnone
      · cases hv'
        simp
    · exact attachAll_parent_mem hrest v hin

/-- The attachment loop of `Append` writes only the parent links of the
values. -/
theorem attachAll_parent_other {n : Node} :
    ∀ {values : List (Option Node)} {h h1 : Heap V} {u : Unit} {b : Nat},
      attachAll n h values = .ok u h1 → (∀ v, some v ∈ values → v.base ≠ b) →
      h1.parent b = h.parent b
  | [], h, h1, _, _, hr, _ => by
    simp only [attachAll, Outcome.ok.injEq, true_and] at hr
    subst hr
    rfl
  | w :: vs, h, h1, _, b, hr, hb => by
    simp only [attachAll, Outcome.andThen_eq_ok] at hr
    obtain ⟨_, h2, ha, hrest⟩ := hr
    rw [attachAll_parent_other hrest (fun v hv => hb v (List.mem_cons_of_mem _ hv))]
    rcases attach_eq_ok ha with ⟨-, rfl⟩ | ⟨v', hv', -, rfl⟩
    · rfl
    · have hne : b ≠ v'.base := fun heq => hb v' (by simp [hv']) heq.symm
      simp [Function.update_noteq hne]

/-- The attachment loop of `Append` returns when the non-empty values are
parentless and have pairwise distinct bases. -/
theorem attachAll_returns (n : Node) :
    ∀ (values : List (Option Node)) (h : Heap V),
      (∀ v, some v ∈ values → h.parent v.base = none) →
      ((values.filterMap id).map Node.base).Nodup →
      ∃ h1, attachAll n h values = .ok () h1
  | [], h, _, _ => ⟨h, rfl⟩
  | none :: vs, h, hpar, hnd => by
    obtain ⟨h1, hr⟩ := attachAll_returns n vs h
      (fun v hv => hpar v (List.mem_cons_of_mem _ hv)) (by simpa using hnd)
    exact ⟨h1, by simpa [attachAll, attach, Outcome.andThen] using hr⟩
  | some w :: vs, h, hpar, hnd => by
    have hw : h.parent w.base = none := hpar w (by simp)
    have hnd' : w.base ∉ (vs.filterMap id).map Node.base ∧
        ((vs.filterMap id).map Node.base).Nodup := by
      simpa [List.nodup_cons] using hnd
    obtain ⟨h1, hr⟩ := attachAll_returns n vs
      { h with parent := Function.update h.parent w.base (some n) }
      (fun v hv => by
        have hne : v.base ≠ w.base := by
          intro heq
          apply hnd'.1
          rw [← heq]
          exact List.mem_map.2 ⟨v, List.mem_filterMap.2 ⟨some v, hv, rfl⟩, rfl⟩
        simpa [Function.update_noteq hne] using hpar v (List.mem_cons_of_mem _ hv))
      hnd'.2
    exact ⟨h1, by simpa [attachAll, attach, base.setParent, hw, Outcome.andThen] using hr⟩

theorem goAppend_len (grow : Nat → Nat → Nat) (h : Heap V) (s : Slice)
    (values : List (Option Node)) :
    (goAppend grow h s values).1.len = s.len + values.length ∧
    (goAppend grow h s values).1.base = s.base := by
  unfold goAppend
  split <;> exact ⟨rfl, rfl⟩

/-- The builtin `append` leaves the slots of the receiver as they are, and
the result starts with them. -/
theorem goAppend_old (grow : Nat → Nat → Nat) (h : Heap V) (s : Slice)
    (values : List (Option Node)) (hs : s.arr < h.nextArr) (i : Nat) (hi : i < s.len) :
    (goAppend grow h s values).2.arr s.arr (s.off + i) = h.arr s.arr (s.off + i) ∧
    (goAppend grow h s values).2.arr (goAppend grow h s values).1.arr
        ((goAppend grow h s values).1.off + i) = h.arr s.arr (s.off + i) := by
  unfold goAppend
  split
  · have hne : ¬ (s.len ≤ i) := by omega
    simp [hne]
  · have hne : s.arr ≠ h.nextArr := by omega
    simp [hne, hi]

/-- The builtin `append` puts the values behind the slots of the receiver. -/
theorem goAppend_new (grow : Nat → Nat → Nat) (h : Heap V) (s : Slice)
    (values : List (Option Node)) (j : Nat) (hj : j < values.length) :
    (goAppend grow h s values).2.arr (goAppend grow h s values).1.arr
        ((goAppend grow h s values).1.off + (s.len + j)) = values[j] := by
  unfold goAppend
  split
  · have hin : s.off + s.len ≤ s.off + (s.len + j) ∧
        s.off + (s.len + j) < s.off + s.len + values.length := by omega
    have hidx : s.off + (s.len + j) - (s.off + s.len) = j := by omega
    simp [hin, hidx, List.getElem?_eq_getElem hj]
  · have hnlt : ¬ (s.len + j < s.len) := by omega
    simp [hnlt, List.getElem?_eq_getElem hj]

/-! ## C10 -/

/-- The builtin `delete` on an absent key changes nothing. -/
theorem Heap.mapDelete_absent (h : Heap V) (t : Nat) (k : String) (habs : h.maps t k = none) :
    h.mapDelete t k = h := by
  cases h with
  | mk version parent arr maps leaves nb na nm nl =>
    simp only [Heap.mapDelete, Heap.mk.injEq, true_and, and_true]
    funext t' k'
    by_cases hk : t' = t ∧ k' = k
    · rw [if_pos hk, hk.1, hk.2]
      exact habs.symm
    · rw [if_neg hk]

/-- `Delete` raises no panic when the key is absent or holds the nil node. -/
theorem Delete_ne_panic (fuel : Nat) (h : Heap V) (m : Map) (k : String)
    (hnil : (h.maps m.tbl k).join = none) (f : Fault) (g : Heap V) :
    Map.Delete fuel h m k ≠ .panic f g := by
  simp only [Map.Delete, hnil, detach, Outcome.andThen]
  exact incrementVersion_ne_panic fuel _ m.base f g

/-- C10: let key `k` be absent from the map `m` and the parent links above
`m` be acyclic (`anc`). Then `m.Delete(k)` raises no panic whatever the fuel,
returns once the fuel covers the chain, leaves every entry of every map and
every parent link as it was, and raises the version of `m` and of each
ancestor of `m` by exactly 1. -/
theorem C10_delete_absent_bumps (fuel : Nat) (h : Heap V) (m : Map) (k : String)
    (anc : List Nat) (habs : (Map.MapIndex2 h m k).2 = false)
    (hanc : IsChain h.parent m.base anc) (hfuel : anc.length ≤ fuel) :
    (∀ fuel0 f g, Map.Delete fuel0 h m k ≠ .panic f g) ∧
    ∃ h', Map.Delete fuel h m k = .ok () h' ∧
      h'.maps = h.maps ∧ h'.parent = h.parent ∧
      h'.version m.base = h.version m.base + 1 ∧
      ∀ b ∈ anc, h'.version b = h.version b + 1 := by
  have hnone : h.maps m.tbl k = none := by
    simpa [Map.MapIndex2] using habs
  have hnil : (h.maps m.tbl k).join = none := by rw [hnone]; rfl
  refine ⟨fun fuel0 f g => Delete_ne_panic fuel0 h m k hnil f g, h.bump anc, ?_, rfl, rfl,
    Heap.bump_version_of_mem _ hanc.nodup hanc.head_mem,
    fun b hb => Heap.bump_version_of_mem _ hanc.nodup hb⟩
  simp only [Map.Delete, hnil, detach, Outcome.andThen]
  rw [Heap.mapDelete_absent h m.tbl k hnone]
  exact incrementVersion_of_chain anc fuel h m.base hanc hfuel

/-- C10 on the sample tree: the key "j" is absent from the map; deleting it
bumps the map (base 1) and the root sequence (base 0). -/
theorem C10_delete_absent_bumps_witness :
    (Map.MapIndex2 sampleHeap sampleMap "j").2 = false ∧
    IsChain sampleHeap.parent sampleMap.base [1, 0] ∧
    (∀ fuel0 f g, Map.Delete fuel0 sampleHeap sampleMap "j" ≠ .panic f g) ∧
    ∃ h', Map.Delete 2 sampleHeap sampleMap "j" = .ok () h' ∧
      h'.maps = sampleHeap.maps ∧ h'.parent = sampleHeap.parent ∧
      h'.version sampleMap.base = sampleHeap.version sampleMap.base + 1 ∧
      ∀ b ∈ [1, 0], h'.version b = sampleHeap.version b + 1 :=
  ⟨by decide, by decide,
   C10_delete_absent_bumps 2 sampleHeap sampleMap "j" [1, 0] (by decide) (by decide)
     (by decide)⟩

/-! ## Lemmas on the panics of `SetIndex` -/

/-- An out-of-range index stops `SetIndex` with the index panic before
anything is written. -/
theorem SetIndex_out_of_range (fuel : Nat) (h : Heap V) (s : Slice) (i : Int)
    (v : Option Node) (hi : i < 0 ∨ (s.len : Int) ≤ i) :
    Slice.SetIndex fuel h s i v = .panic .indexOutOfRange h := by
  simp [Slice.SetIndex, hi]

theorem detach_panic_kind {h g : Heap V} {prev : Option Node} {f : Fault}
    (hd : detach h prev = .panic f g) : f = .internalError := by
  cases prev with
  | none => simp [detach] at hd
  | some p =>
    cases hp : h.parent p.base with
    | none =>
      simp only [detach, base.resetParent, hp, Outcome.panic.injEq] at hd
      exact hd.1.symm
    | some q => simp [detach, base.resetParent, hp] at hd

theorem attach_panic_kind {h g : Heap V} {value : Option Node} {n : Node} {f : Fault}
    (ha : attach h value n = .panic f g) : f = .multipleParents := by
  cases value with
  | none => simp [attach] at ha
  | some v =>
    cases hp : h.parent v.base with
    | some q =>
      simp only [attach, base.setParent, hp, Outcome.panic.injEq] at ha
      exact ha.1.symm
    | none => simp [attach, base.setParent, hp] at ha

theorem Outcome.andThen_eq_panic {σ α β : Type} {x : Outcome σ α}
    {f : α → σ → Outcome σ β} {e : Fault} {st : σ} :
    x.andThen f = .panic e st ↔
      x = .panic e st ∨ ∃ a st1, x = .ok a st1 ∧ f a st1 = .panic e st := by
  cases x with
  | ok a st1 =>
    constructor
    · intro hf
      exact Or.inr ⟨a, st1, rfl, hf⟩
    · rintro (hx | ⟨a', st', heq, hf⟩)
      · cases hx
      · cases heq
        exact hf
  | panic e1 st1 =>
    constructor
    · intro hf
      exact Or.inl (by simpa [Outcome.andThen] using hf)
    · rintro (hx | ⟨a', st', heq, -⟩)
      · simpa [Outcome.andThen] using hx
      · cases heq
  | outOfFuel =>
    constructor
    · intro hf
      cases hf
    · rintro (hx | ⟨a', st', heq, -⟩)
      · cases hx
      · cases heq

/-- With the index in range, a panic of `SetIndex` is one of the two panics of
`resetParent` and `setParent`. -/
theorem SetIndex_in_range_panic_kind (fuel : Nat) (h g : Heap V) (s : Slice) (i : Int)
    (v : Option Node) (f : Fault) (h0 : 0 ≤ i) (hlen : i < s.len)
    (hrun : Slice.SetIndex fuel h s i v = .panic f g) :
    f = .internalError ∨ f = .multipleParents := by
  have hi : ¬ (i < 0 ∨ (s.len : Int) ≤ i) := by omega
  unfold Slice.SetIndex at hrun
  rw [if_neg hi] at hrun
  rcases Outcome.andThen_eq_panic.1 hrun with hd | ⟨_, h1, -, hrest⟩
  · exact Or.inl (detach_panic_kind hd)
  · rcases Outcome.andThen_eq_panic.1 hrest with ha | ⟨_, h2, -, hinc⟩
    · exact Or.inr (attach_panic_kind ha)
    · exact absurd hinc (incrementVersion_ne_panic _ _ _ _ _)

/-! ## C12 -/

/-- C12, counterexample: on the sequence made with length 0 and capacity 5,
`Slice(0, 3)` does not fault although 3 exceeds the length: it returns a view
of length 3, whose slot 2 can be read. -/
theorem C12_counterexample :
    capTree = .ok capSeq capHeap ∧
    capSeq.len = 0 ∧ capSeq.cap = 5 ∧
    Slice.Slice capHeap capSeq 0 3 = .ok capView capHeap ∧
    capView.len = 3 ∧
    Slice.Index capHeap capView 2 = .ok none capHeap :=
  ⟨rfl, rfl, rfl, rfl, rfl, rfl⟩

/-- C12, amended: `s.Slice(i, j)` faults (slice bounds, store untouched)
exactly when not `0 ≤ i ≤ j ≤ cap s`; otherwise it returns the view of length
`j - i` at offset `i` over the same base and backing array, which ends within
the capacity of `s` (but may reach beyond its length). -/
theorem C12_slice_bounds (h : Heap V) (s : Slice) (i j : Int) :
    (¬ (0 ≤ i ∧ i ≤ j ∧ j ≤ s.cap) → Slice.Slice h s i j = .panic .sliceBounds h) ∧
    (0 ≤ i ∧ i ≤ j ∧ j ≤ s.cap →
      ∃ w, Slice.Slice h s i j = .ok w h ∧ (w.len : Int) = j - i ∧
        w.base = s.base ∧ w.arr = s.arr ∧ w.off = s.off + i.toNat ∧
        w.off + w.len ≤ s.off + s.cap) := by
  constructor
  · intro hbad
    have hb : i < 0 ∨ j < i ∨ (s.cap : Int) < j := by omega
    simp [Slice.Slice, hb]
  · rintro ⟨h0, hij, hj⟩
    have hb : ¬ (i < 0 ∨ j < i ∨ (s.cap : Int) < j) := by omega
    refine ⟨
      { base := s.base, arr := s.arr, off := s.off + i.toNat,
        len := j.toNat - i.toNat, cap := s.cap - i.toNat },
      by simp only [Slice.Slice, if_neg hb], ?_, rfl, rfl, rfl, ?_⟩
    · show ((j.toNat - i.toNat : Nat) : Int) = j - i
      omega
    · show s.off + i.toNat + (j.toNat - i.toNat) ≤ s.off + s.cap
      omega

/-- C12, amended, on the sequence of length 0 and capacity 5: `Slice(0, 6)`
and `Slice(2, 1)` fault, `Slice(1, 4)` returns a view of length 3. -/
theorem C12_slice_bounds_witness :
    Slice.Slice capHeap capSeq 0 6 = .panic .sliceBounds capHeap ∧
    Slice.Slice capHeap capSeq 2 1 = .panic .sliceBounds capHeap ∧
    ∃ w, Slice.Slice capHeap capSeq 1 4 = .ok w capHeap ∧ (w.len : Int) = 4 - 1 ∧
      w.base = capSeq.base ∧ w.arr = capSeq.arr ∧ w.off = capSeq.off + (1 : Int).toNat ∧
      w.off + w.len ≤ capSeq.off + capSeq.cap :=
  ⟨(C12_slice_bounds capHeap capSeq 0 6).1 (by decide),
   (C12_slice_bounds capHeap capSeq 2 1).1 (by decide),
   (C12_slice_bounds capHeap capSeq 1 4).2 (by decide)⟩

/-! ## Lemmas on the panics of `Move` -/

theorem goCopy_dst_min (h : Heap V) (dst src : Slice) (i : Nat)
    (hi : i < min dst.len src.len) :
    (goCopy h dst src).arr dst.arr (dst.off + i) = h.arr src.arr (src.off + i) := by
  have hin : dst.off + i < dst.off + min dst.len src.len := by omega
  simp [goCopy, hin]

/-- The only panic the loop of `Move` can raise is that of `resetParent`. -/
theorem moveLoop_panic_kind (dst src : Slice) :
    ∀ (is : List Nat) (g g' : Heap V) (f : Fault),
      moveLoop dst src g is = .panic f g' → f = .internalError
  | [], g, g', f, hrun => by simp [moveLoop] at hrun
  | i :: is, g, g', f, hrun => by
    cases hocc : g.arr src.arr (src.off + i) with
    | none =>
      simp only [moveLoop, hocc] at hrun
      exact moveLoop_panic_kind dst src is g g' f hrun
    | some v =>
      cases hp : g.parent v.base with
      | none =>
        simp only [moveLoop, hocc] at hrun
        rw [resetParent_panic g v.base hp] at hrun
        simp only [Outcome.panic.injEq] at hrun
        exact hrun.1.symm
      | some q =>
        simp only [moveLoop, hocc] at hrun
        rw [resetParent_setParent_ok g v.base q (.slice dst) hp] at hrun
        exact moveLoop_panic_kind dst src is _ g' f hrun

/-- The only panic `Move` can raise is that of `resetParent`: no panic
depends on the two lengths. -/
theorem Move_panic_kind (fuel : Nat) (h g : Heap V) (dst src : Slice) (f : Fault)
    (hrun : Move fuel h dst src = .panic f g) : f = .internalError := by
  unfold Move at hrun
  rcases Outcome.andThen_eq_panic.1 hrun with hl | ⟨_, h1, -, hrest⟩
  · exact moveLoop_panic_kind dst src _ _ g f hl
  · rcases Outcome.andThen_eq_panic.1 hrest with hS | ⟨_, h2, -, hD⟩
    · exact absurd hS (incrementVersion_ne_panic _ _ _ _ _)
    · exact absurd hD (incrementVersion_ne_panic _ _ _ _ _)

/-! ## Lemmas on finite chains under attach and detach -/

/-- Clearing one parent link keeps every finite chain finite. -/
theorem chain_cut {par par' : Nat → Option Node} {b : Nat}
    (hsame : ∀ y, y ≠ b → (par' y).map Node.base = (par y).map Node.base)
    (hb : par' b = none) :
    ∀ (l : List Nat) (x : Nat), IsChain par x l → ∃ l', IsChain par' x l'
  | [], _, hc => absurd hc (by simp [IsChain])
  | [y], x, hc => by
    obtain ⟨rfl, hroot⟩ := hc
    by_cases hyb : y = b
    · exact ⟨[y], rfl, hyb ▸ hb⟩
    · have h1 := hsame y hyb
      rw [hroot] at h1
      exact ⟨[y], rfl, by simpa using h1⟩
  | y :: z :: t, x, hc => by
    obtain ⟨rfl, hstep, hrest⟩ := hc
    by_cases hyb : y = b
    · exact ⟨[y], rfl, hyb ▸ hb⟩
    · obtain ⟨l', hl'⟩ := chain_cut hsame hb (z :: t) z hrest
      obtain ⟨t', rfl⟩ := hl'.exists_tail
      exact ⟨y :: z :: t', rfl, by rw [hsame y hyb]; exact hstep, hl'⟩

/-- Giving a root `b` a parent whose own chain is finite keeps every finite
chain finite. -/
theorem chain_graft {par par' : Nat → Option Node} {b c : Nat} {anc : List Nat}
    (hsame : ∀ y, y ≠ b → (par' y).map Node.base = (par y).map Node.base)
    (hroot : par b = none) (hb : (par' b).map Node.base = some c)
    (hanc : IsChain par' c anc) :
    ∀ (l : List Nat) (x : Nat), IsChain par x l → ∃ l', IsChain par' x l'
  | [], _, hc => absurd hc (by simp [IsChain])
  | [y], x, hc => by
    obtain ⟨rfl, hy⟩ := hc
    by_cases hyb : y = b
    · obtain ⟨t, rfl⟩ := hanc.exists_tail
      exact ⟨y :: c :: t, rfl, by rw [hyb]; exact hb, hanc⟩
    · have h1 := hsame y hyb
      rw [hy] at h1
      exact ⟨[y], rfl, by simpa using h1⟩
  | y :: z :: t, x, hc => by
    obtain ⟨rfl, hstep, hrest⟩ := hc
    have hyb : y ≠ b := by
      intro heq
      rw [heq, hroot] at hstep
      simp at hstep
    obtain ⟨l', hl'⟩ := chain_graft hsame hroot hb hanc (z :: t) z hrest
    obtain ⟨t', rfl⟩ := hl'.exists_tail
    exact ⟨y :: z :: t', rfl, by rw [hsame y hyb]; exact hstep, hl'⟩

theorem detach_keeps_chains {h h1 : Heap V} {prev : Option Node} {u : Unit}
    (hd : detach h prev = .ok u h1) {x : Nat} {l : List Nat} (hl : IsChain h.parent x l) :
    ∃ l', IsChain h1.parent x l' := by
  rcases detach_eq_ok hd with ⟨-, rfl⟩ | ⟨p, q, -, -, rfl⟩
  · exact ⟨l, hl⟩
  · exact chain_cut (b := p.base) (fun y hy => by simp [Function.update_noteq hy])
      (by simp) l x hl

theorem attach_keeps_chains {h h1 : Heap V} {value : Option Node} {n : Node} {u : Unit}
    {anc : List Nat} (ha : attach h value n = .ok u h1) (hanc : IsChain h1.parent n.base anc)
    {x : Nat} {l : List Nat} (hl : IsChain h.parent x l) :
    ∃ l', IsChain h1.parent x l' := by
  rcases attach_eq_ok ha with ⟨-, rfl⟩ | ⟨v, -, hv, rfl⟩
  · exact ⟨l, hl⟩
  · exact chain_graft (b := v.base) (c := n.base)
      (fun y hy => by simp [Function.update_noteq hy]) hv (by simp) hanc l x hl

theorem attachAll_keeps_chains {n : Node} {anc : List Nat} :
    ∀ {values : List (Option Node)} {h h1 : Heap V} {u : Unit},
      attachAll n h values = .ok u h1 → IsChain h1.parent n.base anc →
      ∀ {x : Nat} {l : List Nat}, IsChain h.parent x l → ∃ l', IsChain h1.parent x l'
  | [], h, h1, _, hr, _, x, l, hl => by
    simp only [attachAll, Outcome.ok.injEq, true_and] at hr
    subst hr
    exact ⟨l, hl⟩
  | v :: vs, h, h1, _, hr, hanc, x, l, hl => by
    simp only [attachAll, Outcome.andThen_eq_ok] at hr
    obtain ⟨_, h2, ha, hrest⟩ := hr
    obtain ⟨l2, hl2⟩ := attach_keeps_chains ha (chain_attachAll_back hrest hanc) hl
    exact attachAll_keeps_chains hrest hanc hl2

/-- Without a finite chain above `b`, `incrementVersion` exhausts every
fuel. -/
theorem incrementVersion_no_chain (fuel : Nat) (h : Heap V) (b : Nat)
    (hno : ¬ ∃ l, IsChain h.parent b l) : base.incrementVersion fuel h b = .outOfFuel := by
  cases hr : base.incrementVersion fuel h b with
  | ok u h' =>
    obtain ⟨l, hc, -, -⟩ := incrementVersion_eq_ok.1 hr
    exact absurd ⟨l, hc⟩ hno
  | panic f g => exact absurd hr (incrementVersion_ne_panic fuel h b f g)
  | outOfFuel => rfl

/-- A base whose parent link leads to itself has no finite chain. -/
theorem no_chain_of_self_parent {par : Nat → Option Node} {b : Nat} {p : Node}
    (hp : par b = some p) (hb : p.base = b) : ¬ ∃ l, IsChain par b l := by
  rintro ⟨l, hc⟩
  exact IsChain.not_mem_of_parent hc hp hb hc.head_mem

/-- `Append` returns when the non-empty values are parentless with pairwise
distinct bases off the chain of the receiver, and the fuel covers the
chain. -/
theorem Append_returns (grow : Nat → Nat → Nat) (fuel : Nat) (h : Heap V) (s : Slice)
    (values : List (Option Node)) (anc : List Nat) (hanc : IsChain h.parent s.base anc)
    (hfuel : anc.length ≤ fuel)
    (hfresh : ∀ v, some v ∈ values → h.parent v.base = none ∧ v.base ∉ anc)
    (hnd : ((values.filterMap id).map Node.base).Nodup) :
    ∃ s2 h', Slice.Append grow fuel h s values = .ok s2 h' := by
  obtain ⟨h1, hat⟩ := attachAll_returns (.slice s) values h (fun v hv => (hfresh v hv).1) hnd
  have hc1 : IsChain h1.parent s.base anc := by
    refine hanc.congr (fun x hx => ?_)
    rw [attachAll_parent_other hat (fun v hv hvx => (hfresh v hv).2 (hvx ▸ hx))]
  exact ⟨_, _, Append_eq_ok.2 ⟨h1, anc, hat, hc1, hfuel, rfl, rfl⟩⟩

/-! ## C14 -/

/-- Storing a sequence in one of its own slots never returns: once the
sequence is its own parent there is no finite chain above it. -/
theorem SetIndex_self_never_returns (fuel : Nat) (h h' : Heap V) (s : Slice) (i : Int) :
    Slice.SetIndex fuel h s i (some (.slice s)) ≠ .ok () h' := by
  intro hrun
  obtain ⟨-, h1, h2, l, -, ha, hc, -, -⟩ := SetIndex_eq_ok.1 hrun
  rcases attach_eq_ok ha with ⟨hnone, -⟩ | ⟨v, hv, -, rfl⟩
  · cases hnone
  · cases hv
    have hself : (Function.update h1.parent s.base (some (Node.slice s))) s.base
        = some (Node.slice s) := by simp
    exact no_chain_of_self_parent hself rfl ⟨l, hc⟩

/-- C14, counterexample: the sequence made by `MakeSlice(1, 1)` has no parent
and its slot 0 is empty; `s.SetIndex(0, s)` passes the single-parent check,
makes `s` its own parent, and the version propagation that follows never
reaches a root: the call exhausts every fuel. -/
theorem C14_counterexample :
    selfTree = .ok selfSeq selfHeap ∧
    NoParent selfHeap.parent (some (.slice selfSeq)) ∧
    Slice.Index selfHeap selfSeq 0 = .ok none selfHeap ∧
    attach selfHeap (some (.slice selfSeq)) (.slice selfSeq)
      = .ok () ((attach selfHeap (some (.slice selfSeq)) (.slice selfSeq)).state selfHeap) ∧
    ((attach selfHeap (some (.slice selfSeq)) (.slice selfSeq)).state selfHeap).parent
      selfSeq.base = some (.slice selfSeq) ∧
    (∀ fuel, Slice.SetIndex fuel selfHeap selfSeq 0 (some (.slice selfSeq)) = .outOfFuel) := by
  refine ⟨rfl, by decide, rfl, rfl, rfl, ?_⟩
  intro fuel
  cases hr : Slice.SetIndex fuel selfHeap selfSeq 0 (some (.slice selfSeq)) with
  | ok u h' => exact absurd hr (SetIndex_self_never_returns fuel selfHeap h' selfSeq 0)
  | panic f g =>
    have hk := SetIndex_in_range_panic_kind fuel selfHeap g selfSeq 0 _ f (by decide)
      (by decide) hr
    have h1 : detach selfHeap (selfHeap.arr selfSeq.arr (selfSeq.off + (0 : Int).toNat))
        = .ok () selfHeap := rfl
    have h2 : attach selfHeap (some (.slice selfSeq)) (.slice selfSeq)
        = .ok () ((attach selfHeap (some (.slice selfSeq)) (.slice selfSeq)).state selfHeap) :=
      rfl
    unfold Slice.SetIndex at hr
    rw [if_neg (by decide), h1] at hr
    simp only [Outcome.andThen] at hr
    rw [h2] at hr
    simp only [Outcome.andThen] at hr
    exact absurd hr (incrementVersion_ne_panic _ _ _ _ _)
  | outOfFuel => rfl

/-- C14, amended: let the parent links above a base `b` be acyclic. After
every call of `SetIndex`, `SetMapIndex` or `Append` that returns, they still
are: the chain from `b` is finite and `incrementVersion` from `b` ends at its
root. And these calls return when the attached values are parentless nodes
(with distinct bases) other than the root above the container, in a tree: the
occupant of the slot or entry is empty or a child of the container and the
parent links above the container are acyclic, within the fuel. -/
theorem C14_attach_keeps_chains_finite (grow : Nat → Nat → Nat) (fuel : Nat)
    (h h' : Heap V) (b : Nat) (l : List Nat) (hl : IsChain h.parent b l) :
    ((∀ (s : Slice) (i : Int) (v : Option Node),
        Slice.SetIndex fuel h s i v = .ok () h' →
        ∃ l', IsChain h'.parent b l' ∧
          ∃ h'', base.incrementVersion l'.length h' b = .ok () h'') ∧
      (∀ (m : Map) (k : String) (v : Option Node),
        Map.SetMapIndex fuel h m k v = .ok () h' →
        ∃ l', IsChain h'.parent b l' ∧
          ∃ h'', base.incrementVersion l'.length h' b = .ok () h'') ∧
      (∀ (s s2 : Slice) (values : List (Option Node)),
        Slice.Append grow fuel h s values = .ok s2 h' →
        ∃ l', IsChain h'.parent b l' ∧
          ∃ h'', base.incrementVersion l'.length h' b = .ok () h'')) ∧
    ((∀ (s : Slice) (i : Int) (v : Option Node) (anc : List Nat),
        0 ≤ i → i < s.len → NoParent h.parent v →
        IsChain h.parent s.base anc → anc.length ≤ fuel →
        IsChildOf h.parent s.base (h.arr s.arr (s.off + i.toNat)) → OffChain anc v →
        ∃ h'', Slice.SetIndex fuel h s i v = .ok () h'') ∧
      (∀ (m : Map) (k : String) (v : Option Node) (anc : List Nat),
        NoParent h.parent v →
        IsChain h.parent m.base anc → anc.length ≤ fuel →
        IsChildOf h.parent m.base (h.maps m.tbl k).join → OffChain anc v →
        ∃ h'', Map.SetMapIndex fuel h m k v = .ok () h'') ∧
      (∀ (s : Slice) (values : List (Option Node)) (anc : List Nat),
        IsChain h.parent s.base anc → anc.length ≤ fuel →
        (∀ v, some v ∈ values → h.parent v.base = none ∧ v.base ∉ anc) →
        ((values.filterMap id).map Node.base).Nodup →
        ∃ s2 h'', Slice.Append grow fuel h s values = .ok s2 h'')) := by
  have fin : ∀ (g : Heap V) (l' : List Nat), IsChain g.parent b l' →
      ∃ l', IsChain g.parent b l' ∧
        ∃ h'', base.incrementVersion l'.length g b = .ok () h'' :=
    fun g l' hc => ⟨l', hc, _, incrementVersion_of_chain l' l'.length g b hc (le_refl _)⟩
  refine ⟨⟨?_, ?_, ?_⟩, ?_, ?_, ?_⟩
  · intro s i v hrun
    obtain ⟨-, h1, h2, l3, hd, ha, hc, -, rfl⟩ := SetIndex_eq_ok.1 hrun
    obtain ⟨l1, hl1⟩ := detach_keeps_chains hd hl
    obtain ⟨l2, hl2⟩ := attach_keeps_chains (n := .slice s) ha hc hl1
    exact fin _ l2 hl2
  · intro m k v hrun
    obtain ⟨h1, h2, l3, hd, ha, hc, -, rfl⟩ := SetMapIndex_eq_ok.1 hrun
    obtain ⟨l1, hl1⟩ := detach_keeps_chains hd hl
    obtain ⟨l2, hl2⟩ := attach_keeps_chains (n := .map m) ha hc hl1
    exact fin _ l2 hl2
  · intro s s2 values hrun
    obtain ⟨h1, l3, hat, hc, -, -, rfl⟩ := Append_eq_ok.1 hrun
    obtain ⟨l2, hl2⟩ := attachAll_keeps_chains (n := .slice s) hat hc hl
    exact fin _ l2 (by rw [Heap.bump_parent, goAppend_parent]; exact hl2)
  · intro s i v anc h0 hlen hv hanc hfuel hchild hoff
    exact SetIndex_returns fuel h s i v anc h0 hlen hv hanc hfuel hchild hoff
  · intro m k v anc hv hanc hfuel hchild hoff
    exact SetMapIndex_returns fuel h m k v anc hv hanc hfuel hchild hoff
  · intro s values anc hanc hfuel hfresh hnd
    exact Append_returns grow fuel h s values anc hanc hfuel hfresh hnd

/-- C14, amended, on the sample tree with the spare leaf: the chain of the
first leaf (leaf, map, root) is finite; after `root.SetIndex(0, spareLeaf)`,
which returns, it still is, and propagation from that leaf ends. -/
theorem C14_attach_keeps_chains_finite_witness :
    IsChain spareHeap.parent sampleLeaf.base [2, 1, 0] ∧
    Slice.SetIndex 1 spareHeap sampleRoot 0 (some (.leaf spareLeaf))
      = .ok () spareAfterSetIndex ∧
    (∃ l', IsChain spareAfterSetIndex.parent sampleLeaf.base l' ∧
      ∃ h'', base.incrementVersion l'.length spareAfterSetIndex sampleLeaf.base
        = .ok () h'') ∧
    ∃ h'', Slice.SetIndex 1 spareHeap sampleRoot 0 (some (.leaf spareLeaf)) = .ok () h'' :=
  have hthm := C14_attach_keeps_chains_finite growDouble 1 spareHeap spareAfterSetIndex
    sampleLeaf.base [2, 1, 0] (by decide)
  ⟨by decide, rfl, hthm.1.1 sampleRoot 0 (some (.leaf spareLeaf)) rfl,
   hthm.2.1 sampleRoot 0 (some (.leaf spareLeaf)) [0] (by decide) (by decide) (by decide)
     (by decide) (by decide) (by decide) (by decide)⟩

/-! ## C15 -/

theorem MakeSlice_eq (maxCap : Nat) (h : Heap V) (len cap : Int) (h0 : 0 ≤ len)
    (hcap : len ≤ cap) (hmax : cap ≤ maxCap) :
    MakeSlice maxCap h len cap = .ok
      { base := h.nextBase, arr := h.nextArr, off := 0, len := len.toNat, cap := cap.toNat }
      { h with version := Function.update h.version h.nextBase 1,
               parent := Function.update h.parent h.nextBase none,
               nextBase := h.nextBase + 1,
               arr := fun a j => if a = h.nextArr then none else h.arr a j,
               nextArr := h.nextArr + 1 } := by
  have hb : ¬ (len < 0 ∨ cap < len ∨ (maxCap : Int) < cap) := by omega
  simp only [MakeSlice, if_neg hb]
  rfl

theorem MakeLeaf_eq (h : Heap V) (value : V) :
    MakeLeaf h value = .ok { base := h.nextBase, cell := h.nextLeaf }
      { h with version := Function.update h.version h.nextBase 1,
               parent := Function.update h.parent h.nextBase none,
               nextBase := h.nextBase + 1,
               leaves := Function.update h.leaves h.nextLeaf value,
               nextLeaf := h.nextLeaf + 1 } := rfl

/-- C15, counterexample: with the capacity limit of a 64-bit platform,
`MakeSlice(0, 1 << 62)` has `0 ≤ len ≤ cap` and yet returns no node: `make`
panics, the capacity being beyond what the allocator accepts. -/
theorem C15_counterexample :
    ((0 : Int) ≤ 0 ∧ (0 : Int) ≤ 4611686018427387904) ∧
    MakeSlice maxCap64 (Heap.empty (0 : Int)) 0 4611686018427387904
      = .panic .makeSlice (Heap.empty 0) :=
  ⟨by decide, rfl⟩

/-- C15, amended: in every store, `MakeSlice(len, cap)` with `0 ≤ len ≤ cap`
and `cap` within the capacity limit of `make`, `MakeMap()` and `MakeLeaf(v)`
return a node with version 1 and no parent; the sequence has length `len`
(capacity `cap`) and all its slots are empty; the map has no key; the value
of the leaf is `v`. -/
theorem C15_constructors (maxCap : Nat) (h : Heap V) (len cap : Int) (v : V)
    (h0 : 0 ≤ len) (hcap : len ≤ cap) (hmax : cap ≤ maxCap) :
    (∃ s h', MakeSlice maxCap h len cap = .ok s h' ∧
      base.Version h' s.base = 1 ∧ h'.parent s.base = none ∧
      (s.len : Int) = len ∧ (s.cap : Int) = cap ∧
      (∀ i : Int, 0 ≤ i → i < len → Slice.Index h' s i = .ok none h') ∧
      Slice.Index h' s len = .panic .indexOutOfRange h') ∧
    (∃ m h', MakeMap h = .ok m h' ∧
      base.Version h' m.base = 1 ∧ h'.parent m.base = none ∧
      ∀ k, Map.MapIndex2 h' m k = (none, false)) ∧
    (∃ l h', MakeLeaf h v = .ok l h' ∧
      base.Version h' l.base = 1 ∧ h'.parent l.base = none ∧
      Leaf.Value h' l = v) := by
  refine ⟨⟨_, _, MakeSlice_eq maxCap h len cap h0 hcap hmax, ?_, ?_, ?_, ?_, ?_, ?_⟩,
    ⟨_, _, MakeMap_eq h, ?_, ?_, ?_⟩, ⟨_, _, MakeLeaf_eq h v, ?_, ?_, ?_⟩⟩
  · simp [base.Version]
  · simp
  · show ((len.toNat : Nat) : Int) = len
    omega
  · show ((cap.toNat : Nat) : Int) = cap
    omega
  · intro i hi0 hilen
    rw [Index_eq_ok_of_lt _ _ i hi0 (by show i < ((len.toNat : Nat) : Int); omega)]
    simp
  · have hb : len < 0 ∨ ((len.toNat : Nat) : Int) ≤ len := by omega
    simp [Slice.Index, hb]
  · simp [base.Version]
  · simp
  · intro k
    simp [Map.MapIndex2]
  · simp [base.Version]
  · simp
  · simp [Leaf.Value]

/-- C15, amended, on the store holding the sample tree: a sequence of length
2 and capacity 3, a map and a leaf of value 9 are made. -/
theorem C15_constructors_witness :
    (∃ s h', MakeSlice maxCap64 sampleHeap 2 3 = .ok s h' ∧
      base.Version h' s.base = 1 ∧ h'.parent s.base = none ∧
      (s.len : Int) = 2 ∧ (s.cap : Int) = 3 ∧
      (∀ i : Int, 0 ≤ i → i < 2 → Slice.Index h' s i = .ok none h') ∧
      Slice.Index h' s 2 = .panic .indexOutOfRange h') ∧
    (∃ m h', MakeMap sampleHeap = .ok m h' ∧
      base.Version h' m.base = 1 ∧ h'.parent m.base = none ∧
      ∀ k, Map.MapIndex2 h' m k = (none, false)) ∧
    (∃ l h', MakeLeaf sampleHeap 9 = .ok l h' ∧
      base.Version h' l.base = 1 ∧ h'.parent l.base = none ∧
      Leaf.Value h' l = 9) :=
  C15_constructors maxCap64 sampleHeap 2 3 9 (by decide) (by decide) (by decide)

/-! ## C16 -/

/-- The store in which the guarded detachment followed by the attachment of
an attached node `v` stops: the occupant, if any, has lost its parent link,
and nothing else has changed. -/
theorem detach_attach_panic (h : Heap V) (v q : Node) (hv : h.parent v.base = some q)
    (prev : Option Node) (n : Node) (k : Unit → Heap V → Outcome (Heap V) Unit)
    (hocc : ∀ p, prev = some p → p.base ≠ v.base ∧ h.parent p.base ≠ none) :
    ∃ h1, (detach h prev).andThen (fun _ h1 => (attach h1 (some v) n).andThen k)
        = .panic .multipleParents h1 ∧
      h1.version = h.version ∧ h1.arr = h.arr ∧ h1.maps = h.maps ∧ h1.leaves = h.leaves ∧
      (∀ b, (∀ p, prev = some p → b ≠ p.base) → h1.parent b = h.parent b) ∧
      (∀ p, prev = some p → h1.parent p.base = none) ∧
      (prev = none → h1 = h) := by
  cases prev with
  | none =>
    refine ⟨h, ?_, rfl, rfl, rfl, rfl, fun _ _ => rfl, fun p hp => (by cases hp),
      fun _ => rfl⟩
    simp [detach, attach, base.setParent, hv, Outcome.andThen]
  | some p =>
    obtain ⟨hne, hpar⟩ := hocc p rfl
    cases hp : h.parent p.base with
    | none => exact absurd hp hpar
    | some qp =>
      have hv' : (Function.update h.parent p.base none) v.base = some q := by
        rw [Function.update_noteq (Ne.symm hne)]
        exact hv
      refine ⟨{ h with parent := Function.update h.parent p.base none }, ?_, rfl, rfl, rfl,
        rfl, ?_, ?_, ?_⟩
      · simp [detach, attach, base.resetParent, base.setParent, hp, hv', Outcome.andThen]
      · intro b hb
        have hbp : b ≠ p.base := hb p rfl
        simp [Function.update_noteq hbp]
      · intro p' hp'
        cases hp'
        simp
      · intro hnone
        cases hnone

/-- C16, counterexample: on the sample tree `root.SetIndex(0, leaf)` faults
because the leaf is attached to the map; slot 0 still holds the map, but the
map, which had the root as parent, has no parent in the store left by the
fault. -/
theorem C16_counterexample :
    sampleTree = .ok (sampleRoot, sampleMap, sampleLeaf) sampleHeap ∧
    sampleHeap.parent sampleLeaf.base = some (.map sampleMap) ∧
    Slice.SetIndex 1 sampleHeap sampleRoot 0 (some (.leaf sampleLeaf))
      = .panic .multipleParents sampleAtFault ∧
    Slice.Index sampleHeap sampleRoot 0 = .ok (some (.map sampleMap)) sampleHeap ∧
    Slice.Index sampleAtFault sampleRoot 0 = .ok (some (.map sampleMap)) sampleAtFault ∧
    sampleHeap.parent sampleMap.base = some (.slice sampleRoot) ∧
    sampleAtFault.parent sampleMap.base = none :=
  ⟨rfl, rfl, rfl, rfl, rfl, rfl, rfl⟩

/-- C16, amended: let `v` be a node whose parent link is set, and let the
occupant of slot `i` (in range) of `s`, or of key `k` of `m`, be empty or an
attached node with a base other than that of `v`. Then `s.SetIndex(i, v)` and
`m.SetMapIndex(k, v)` stop with the multiple-parents panic in a store where
every version, slot, map entry and leaf value is as before and every parent
link is as before except that of the occupant, which is cleared. With an
empty slot or entry the store is unchanged. -/
theorem C16_fault_leaves_occupant_detached (fuel : Nat) (h : Heap V) (v q : Node)
    (hv : h.parent v.base = some q) :
    (∀ (s : Slice) (i : Int), 0 ≤ i → i < s.len →
      (∀ p, h.arr s.arr (s.off + i.toNat) = some p →
        p.base ≠ v.base ∧ h.parent p.base ≠ none) →
      ∃ h1, Slice.SetIndex fuel h s i (some v) = .panic .multipleParents h1 ∧
        h1.version = h.version ∧ h1.arr = h.arr ∧ h1.maps = h.maps ∧
        h1.leaves = h.leaves ∧
        (∀ b, (∀ p, h.arr s.arr (s.off + i.toNat) = some p → b ≠ p.base) →
          h1.parent b = h.parent b) ∧
        (∀ p, h.arr s.arr (s.off + i.toNat) = some p → h1.parent p.base = none) ∧
        (h.arr s.arr (s.off + i.toNat) = none → h1 = h)) ∧
    (∀ (m : Map) (k : String),
      (∀ p, (h.maps m.tbl k).join = some p → p.base ≠ v.base ∧ h.parent p.base ≠ none) →
      ∃ h1, Map.SetMapIndex fuel h m k (some v) = .panic .multipleParents h1 ∧
        h1.version = h.version ∧ h1.arr = h.arr ∧ h1.maps = h.maps ∧
        h1.leaves = h.leaves ∧
        (∀ b, (∀ p, (h.maps m.tbl k).join = some p → b ≠ p.base) →
          h1.parent b = h.parent b) ∧
        (∀ p, (h.maps m.tbl k).join = some p → h1.parent p.base = none) ∧
        ((h.maps m.tbl k).join = none → h1 = h)) := by
  constructor
  · intro s i h0 hlen hocc
    have hi : ¬ (i < 0 ∨ (s.len : Int) ≤ i) := by omega
    obtain ⟨h1, hrun, e1, e2, e3, e4, e5, e6, e7⟩ :=
      detach_attach_panic h v q hv (h.arr s.arr (s.off + i.toNat)) (.slice s)
        (fun _ h2 => base.incrementVersion fuel (h2.store s.arr (s.off + i.toNat) (some v))
          s.base) hocc
    refine ⟨h1, ?_, e1, e2, e3, e4, e5, e6, e7⟩
    unfold Slice.SetIndex
    rw [if_neg hi]
    exact hrun
  · intro m k hocc
    obtain ⟨h1, hrun, e1, e2, e3, e4, e5, e6, e7⟩ :=
      detach_attach_panic h v q hv (h.maps m.tbl k).join (.map m)
        (fun _ h2 => base.incrementVersion fuel (h2.mapStore m.tbl k (some v)) m.base) hocc
    refine ⟨h1, ?_, e1, e2, e3, e4, e5, e6, e7⟩
    unfold Map.SetMapIndex
    exact hrun

/-- C16, amended, on the sample tree, with the leaf (attached to the map) as
`v`: `root.SetIndex(0, leaf)` stops with the map detached and nothing else
changed; `map.SetMapIndex("j", leaf)`, on an absent key, stops with the store
unchanged. -/
theorem C16_fault_leaves_occupant_detached_witness :
    sampleHeap.parent sampleLeaf.base = some (.map sampleMap) ∧
    (∃ h1, Slice.SetIndex 1 sampleHeap sampleRoot 0 (some (.leaf sampleLeaf))
        = .panic .multipleParents h1 ∧
      h1.version = sampleHeap.version ∧ h1.arr = sampleHeap.arr ∧
      h1.maps = sampleHeap.maps ∧ h1.leaves = sampleHeap.leaves ∧
      (∀ b, (∀ p, sampleHeap.arr sampleRoot.arr (sampleRoot.off + (0 : Int).toNat) = some p →
          b ≠ p.base) → h1.parent b = sampleHeap.parent b) ∧
      (∀ p, sampleHeap.arr sampleRoot.arr (sampleRoot.off + (0 : Int).toNat) = some p →
        h1.parent p.base = none) ∧
      (sampleHeap.arr sampleRoot.arr (sampleRoot.off + (0 : Int).toNat) = none →
        h1 = sampleHeap)) ∧
    (∃ h1, Map.SetMapIndex 1 sampleHeap sampleMap "j" (some (.leaf sampleLeaf))
        = .panic .multipleParents h1 ∧ h1 = sampleHeap) :=
  have hthm := C16_fault_leaves_occupant_detached 1 sampleHeap (.leaf sampleLeaf)
    (.map sampleMap) rfl
  have hnone : (sampleHeap.maps sampleMap.tbl "j").join = none := by decide
  ⟨rfl,
   hthm.1 sampleRoot 0 (by decide) (by decide) (by
     intro p hp
     have hp' : p = .map sampleMap := (Option.some.inj hp).symm
     subst hp'
     exact ⟨by decide, by decide⟩),
   (hthm.2 sampleMap "j" (by
     intro p hp
     rw [hnone] at hp
     cases hp)).imp (fun _ hx => ⟨hx.1, hx.2.2.2.2.2.2.2 hnone⟩)⟩

/-! ## Lemmas on `Slice3` and reallocation -/

/-- When the capacity does not suffice, `append` writes only the fresh
backing array. -/
theorem goAppend_fresh (grow : Nat → Nat → Nat) (h : Heap V) (s : Slice)
    (values : List (Option Node)) (hfull : s.cap < s.len + values.length)
    (a idx : Nat) (ha : a ≠ h.nextArr) :
    (goAppend grow h s values).2.arr a idx = h.arr a idx := by
  have hnot : ¬ (s.len + values.length ≤ s.cap) := by omega
  simp [goAppend, hnot, ha]

theorem Slice3_eq_ok (h : Heap V) (s : Slice) (i j k : Int) (h0 : 0 ≤ i) (hij : i ≤ j)
    (hjk : j ≤ k) (hk : k ≤ s.cap) :
    Slice.Slice3 h s i j k = .ok
      { base := s.base, arr := s.arr, off := s.off + i.toNat,
        len := j.toNat - i.toNat, cap := k.toNat - i.toNat } h := by
  have hb : ¬ (i < 0 ∨ j < i ∨ k < j ∨ (s.cap : Int) < k) := by omega
  simp [Slice.Slice3, hb]

/-! ## Lemmas on which bases a call bumps -/

/-- After one parent link is cleared, the chain from a base is part of the
chain it had before. -/
theorem chain_cut_subset {par par' : Nat → Option Node} {b : Nat}
    (hsame : ∀ y, y ≠ b → (par' y).map Node.base = (par y).map Node.base)
    (hb : par' b = none) :
    ∀ (l l' : List Nat) (x : Nat), IsChain par x l → IsChain par' x l' → ∀ y ∈ l', y ∈ l
  | [], _, _, hc, _ => absurd hc (by simp [IsChain])
  | _ :: _, [], _, _, hc' => absurd hc' (by simp [IsChain])
  | y :: t, [y'], x, hc, hc' => by
    intro w hw
    have hwy : w = y' := by simpa using hw
    rw [hwy, hc'.1, ← hc.cons_inv]
    simp
  | [y], y' :: z' :: t', x, hc, hc' => by
    obtain ⟨rfl, hroot⟩ := hc
    obtain ⟨rfl, hstep', -⟩ := hc'
    by_cases hyb : y' = b
    · rw [hyb, hb] at hstep'
      simp at hstep'
    · rw [hsame y' hyb, hroot] at hstep'
      simp at hstep'
  | y :: z :: t, y' :: z' :: t', x, hc, hc' => by
    obtain ⟨rfl, hstep, hrest⟩ := hc
    obtain ⟨rfl, hstep', hrest'⟩ := hc'
    by_cases hyb : y' = b
    · rw [hyb, hb] at hstep'
      simp at hstep'
    · rw [hsame y' hyb, hstep] at hstep'
      have hz : z = z' := by simpa using hstep'
      subst hz
      intro w hw
      rcases List.mem_cons.1 hw with hwy | hwt
      · rw [hwy]
        simp
      · exact List.mem_cons_of_mem _ (chain_cut_subset hsame hb (z :: t) (z :: t') z hrest
          hrest' w hwt)

/-- When some parent links are redirected to a base `d`, the new chain from a
base lies within its old chain and the new chain of `d`. -/
theorem chain_redirect_subset {par par' : Nat → Option Node} {d : Nat} {lD : List Nat}
    (hchange : ∀ y, (par' y).map Node.base = (par y).map Node.base ∨
      (par' y).map Node.base = some d)
    (hD : IsChain par' d lD) :
    ∀ (l l' : List Nat) (x : Nat), IsChain par x l → IsChain par' x l' →
      ∀ y ∈ l', y ∈ l ∨ y ∈ lD
  | [], _, _, hc, _ => absurd hc (by simp [IsChain])
  | _ :: _, [], _, _, hc' => absurd hc' (by simp [IsChain])
  | y :: t, [y'], x, hc, hc' => by
    intro w hw
    have hwy : w = y' := by simpa using hw
    left
    rw [hwy, hc'.1, ← hc.cons_inv]
    simp
  | [y], y' :: z' :: t', x, hc, hc' => by
    obtain ⟨rfl, hroot⟩ := hc
    obtain ⟨rfl, hstep', hrest'⟩ := hc'
    rcases hchange y' with hsame | hred
    · rw [hsame, hroot] at hstep'
      simp at hstep'
    · rw [hred] at hstep'
      have hz : d = z' := by simpa using hstep'
      subst hz
      have hl := IsChain.unique hrest' hD
      intro w hw
      rcases List.mem_cons.1 hw with hwy | hwt
      · left
        rw [hwy]
        simp
      · right
        rw [← hl]
        exact hwt
  | y :: z :: t, y' :: z' :: t', x, hc, hc' => by
    obtain ⟨rfl, hstep, hrest⟩ := hc
    obtain ⟨rfl, hstep', hrest'⟩ := hc'
    intro w hw
    rcases List.mem_cons.1 hw with hwy | hwt
    · left
      rw [hwy]
      simp
    · rcases hchange y' with hsame | hred
      · rw [hsame, hstep] at hstep'
        have hz : z = z' := by simpa using hstep'
        subst hz
        rcases chain_redirect_subset hchange hD (z :: t) (z :: t') z hrest hrest' w hwt
          with hin | hin
        · exact Or.inl (List.mem_cons_of_mem _ hin)
        · exact Or.inr hin
      · rw [hred] at hstep'
        have hz : d = z' := by simpa using hstep'
        subst hz
        right
        rw [← IsChain.unique hrest' hD]
        exact hwt

/-- After the guarded detachment, the chain from a base is part of the chain
it had before. -/
theorem detach_chain_subset {h h1 : Heap V} {prev : Option Node} {u : Unit}
    (hd : detach h prev = .ok u h1) {x : Nat} {l l' : List Nat}
    (hl : IsChain h.parent x l) (hl' : IsChain h1.parent x l') : ∀ y ∈ l', y ∈ l := by
  rcases detach_eq_ok hd with ⟨-, rfl⟩ | ⟨p, q, -, -, rfl⟩
  · rw [IsChain.unique hl' hl]
    exact fun y hy => hy
  · exact chain_cut_subset (b := p.base) (fun y hy => by simp [Function.update_noteq hy])
      (by simp) l l' x hl hl'

/-! ## C18 -/

/-- The bases bumped by a returning `Move` lie on the chains that `src` and
`dst` had before the call. -/
theorem Move_bumped_subset {fuel : Nat} {h h' : Heap V} {dst src : Slice}
    {ancS ancD : List Nat} (hS : IsChain h.parent src.base ancS)
    (hD : IsChain h.parent dst.base ancD) (hrun : Move fuel h dst src = .ok () h') :
    ∃ (g' : Heap V) (lS lD : List Nat), h' = (g'.bump lS).bump lD ∧ g'.version = h.version ∧
      (∀ y ∈ lS, y ∈ ancS ∨ y ∈ ancD) ∧ (∀ y ∈ lD, y ∈ ancD) := by
  obtain ⟨g', lS, lD, hloop, hS', -, hD', -, rfl⟩ := Move_eq_ok.1 hrun
  obtain ⟨e1, -, -, -, -, e6, e7⟩ := moveLoop_eq_ok dst src _ _ g' hloop
  have hchange : ∀ y, (g'.parent y).map Node.base = (h.parent y).map Node.base ∨
      (g'.parent y).map Node.base = some dst.base := by
    intro y
    by_cases hm : ∃ i ∈ List.range src.len, ∃ v,
        (goCopy h dst src).arr src.arr (src.off + i) = some v ∧ v.base = y
    · right
      rw [e6 y hm]
      rfl
    · left
      rw [e7 y hm]
      rfl
  have hDh : IsChain h.parent dst.base lD := by
    refine hD'.congr (fun y hy => ?_)
    by_cases hm : ∃ i ∈ List.range src.len, ∃ v,
        (goCopy h dst src).arr src.arr (src.off + i) = some v ∧ v.base = y
    · exact absurd hy (IsChain.not_mem_of_parent hD' (e6 y hm) rfl)
    · rw [e7 y hm]
      rfl
  have hlD : lD = ancD := IsChain.unique hDh hD
  refine ⟨g', lS, lD, rfl, e1, ?_, fun y hy => hlD ▸ hy⟩
  intro y hy
  rcases chain_redirect_subset hchange hD' ancS lS src.base hS hS' y hy with hin | hin
  · exact Or.inl hin
  · exact Or.inr (hlD ▸ hin)

/-- C18: let `b` be a base that is neither the mutated node nor one of its
ancestors, that is, not on the chain (`anc`; for `Move`: `ancS` and `ancD`)
that the parent links form above the mutated node at the time of the call.
Then every call of `SetValue`, `SetIndex`, `Append`, `SetMapIndex`, `Delete`
and `Move` that returns leaves the version of `b` as it was. -/
theorem C18_version_frame (grow : Nat → Nat → Nat) (fuel : Nat) (h h' : Heap V) (b : Nat) :
    (∀ (l : Leaf) (v : V) (anc : List Nat), IsChain h.parent l.base anc → b ∉ anc →
      Leaf.SetValue fuel h l v = .ok () h' → h'.version b = h.version b) ∧
    (∀ (s : Slice) (i : Int) (v : Option Node) (anc : List Nat),
      IsChain h.parent s.base anc → b ∉ anc →
      Slice.SetIndex fuel h s i v = .ok () h' → h'.version b = h.version b) ∧
    (∀ (s s2 : Slice) (values : List (Option Node)) (anc : List Nat),
      IsChain h.parent s.base anc → b ∉ anc →
      Slice.Append grow fuel h s values = .ok s2 h' → h'.version b = h.version b) ∧
    (∀ (m : Map) (k : String) (v : Option Node) (anc : List Nat),
      IsChain h.parent m.base anc → b ∉ anc →
      Map.SetMapIndex fuel h m k v = .ok () h' → h'.version b = h.version b) ∧
    (∀ (m : Map) (k : String) (anc : List Nat),
      IsChain h.parent m.base anc → b ∉ anc →
      Map.Delete fuel h m k = .ok () h' → h'.version b = h.version b) ∧
    (∀ (dst src : Slice) (ancS ancD : List Nat),
      IsChain h.parent src.base ancS → IsChain h.parent dst.base ancD →
      b ∉ ancS → b ∉ ancD →
      Move fuel h dst src = .ok () h' → h'.version b = h.version b) := by
  refine ⟨?_, ?_, ?_, ?_, ?_, ?_⟩
  · intro l v anc hanc hb hrun
    obtain ⟨l', hc, -, rfl⟩ := incrementVersion_eq_ok.1 hrun
    have hl : l' = anc := IsChain.unique hc hanc
    subst hl
    rw [Heap.bump_version_of_not_mem _ hb]
  · intro s i v anc hanc hb hrun
    obtain ⟨-, h1, h2, l3, hd, ha, hc, -, rfl⟩ := SetIndex_eq_ok.1 hrun
    have hc1 : IsChain h1.parent s.base l3 := chain_attach_back (n := .slice s) ha hc
    have hb3 : b ∉ l3 := fun hin => hb (detach_chain_subset hd hanc hc1 b hin)
    rw [Heap.bump_version_of_not_mem _ hb3, Heap.store_version, (attach_frame ha).1,
      (detach_frame hd).1]
  · intro s s2 values anc hanc hb hrun
    obtain ⟨h1, l, hat, hc, -, -, rfl⟩ := Append_eq_ok.1 hrun
    have hl : l = anc := IsChain.unique (chain_attachAll_back (n := .slice s) hat hc) hanc
    subst hl
    rw [Heap.bump_version_of_not_mem _ hb, goAppend_version, (attachAll_frame hat).1]
  · intro m k v anc hanc hb hrun
    obtain ⟨h1, h2, l3, hd, ha, hc, -, rfl⟩ := SetMapIndex_eq_ok.1 hrun
    have hc1 : IsChain h1.parent m.base l3 := chain_attach_back (n := .map m) ha hc
    have hb3 : b ∉ l3 := fun hin => hb (detach_chain_subset hd hanc hc1 b hin)
    rw [Heap.bump_version_of_not_mem _ hb3]
    show h2.version b = h.version b
    rw [(attach_frame ha).1, (detach_frame hd).1]
  · intro m k anc hanc hb hrun
    obtain ⟨h1, l, hd, hc, -, rfl⟩ := Delete_eq_ok.1 hrun
    have hb3 : b ∉ l := fun hin => hb (detach_chain_subset hd hanc hc b hin)
    rw [Heap.bump_version_of_not_mem _ hb3]
    show h1.version b = h.version b
    rw [(detach_frame hd).1]
  · intro dst src ancS ancD hS hD hbS hbD hrun
    obtain ⟨g', lS, lD, rfl, hver, hsubS, hsubD⟩ := Move_bumped_subset hS hD hrun
    have hbl : b ∉ lS := fun hin => (hsubS b hin).elim hbS hbD
    have hbd : b ∉ lD := fun hin => hbD (hsubD b hin)
    rw [Heap.bump_version_of_not_mem _ hbd, Heap.bump_version_of_not_mem _ hbl, hver]

/-- C18 on two samples. In the sequence of five leaves, `SetValue` on the
first leaf (chain: bases 1, 0) leaves the version of its sibling (base 2)
as it was, and `SetIndex` on the view over `[1, 3)` (chain: base 0) leaves
that of the leaf in slot 4 (base 5). In the bulk-move example, `Move`
(chains: base 0 and base 3) leaves the version of the moved leaf `A`
(base 1) as it was. -/
theorem C18_version_frame_witness :
    fiveAfterSetValue.version 2 = fiveHeap.version 2 ∧
    fiveAfterViewSet.version 5 = fiveHeap.version 5 ∧
    moveAfter.version 1 = moveHeap.version 1 :=
  ⟨(C18_version_frame growDouble 2 fiveHeap fiveAfterSetValue 2).1 fiveFirst 99 [1, 0]
      (by decide) (by decide) rfl,
   (C18_version_frame growDouble 1 fiveHeap fiveAfterViewSet 5).2.1 fiveView 0
      (some (.leaf fiveSpare)) [0] (by decide) (by decide) rfl,
   (C18_version_frame growDouble 1 moveHeap moveAfter 1).2.2.2.2.2 moveDst moveSrc [0] [3]
      (by decide) (by decide) (by decide) (by decide) rfl⟩

/-! ## C19 -/

/-- C19, the code at the failing input: `dst = [X]` and `src = [A]` are two
roots. `Move(dst, src)` returns with `dst = [A]` and `src = [nil]`; the
overwritten leaf `X` is in neither slot, yet its parent link is still `dst`,
and storing it elsewhere (`src.SetIndex(0, X)`) raises the multiple-parents
panic. Likewise `Append` through the view over `[0, 2)` of the sequence of
five leaves overwrites slot 2 in place, and the leaf that was there keeps the
sequence as parent. -/
theorem C19_overwritten_node_keeps_parent :
    (overTree = .ok (overDst, overSrc) overHeap ∧
      Slice.Index overHeap overDst 0 = .ok (some (.leaf overX)) overHeap ∧
      Move 1 overHeap overDst overSrc = .ok () overAfter ∧
      Slice.Index overAfter overDst 0 = .ok (some (.leaf overA)) overAfter ∧
      Slice.Index overAfter overSrc 0 = .ok none overAfter ∧
      overAfter.parent overX.base = some (.slice overDst) ∧
      Slice.SetIndex 1 overAfter overSrc 0 (some (.leaf overX))
        = .panic .multipleParents overAfter) ∧
    (Slice.Index fiveHeap fiveSeq 2 = .ok (some (.leaf fiveThird)) fiveHeap ∧
      Slice.Append growDouble 1 fiveHeap fiveFront [some (.leaf fiveSpare)]
        = .ok fiveFrontGrown fiveAfterFrontAppend ∧
      Slice.Index fiveAfterFrontAppend fiveSeq 2
        = .ok (some (.leaf fiveSpare)) fiveAfterFrontAppend ∧
      fiveAfterFrontAppend.parent fiveThird.base = some (.slice fiveSeq)) :=
  ⟨⟨rfl, rfl, rfl, rfl, rfl, rfl, rfl⟩, rfl, rfl, rfl, rfl⟩

/-! ## C20 -/

/-- C20, the code at the failing input: every operation of `dupTree`
returns without fault. After it the leaf `A` is still listed in slot 0 of
`s2` (the copy made by `Append`) but has no parent, and `s2.SetIndex(0, nil)`
raises the internal-error panic of `resetParent`. -/
theorem C20_internal_error_reached :
    dupTree = .ok (dupSeq, dupGrown) dupHeap ∧
    Slice.Index dupHeap dupSeq 0 = .ok none dupHeap ∧
    Slice.Index dupHeap dupGrown 0 = .ok (some (.leaf dupA)) dupHeap ∧
    dupHeap.parent dupA.base = none ∧
    Slice.SetIndex 1 dupHeap dupGrown 0 none = .panic .internalError dupHeap :=
  ⟨rfl, rfl, rfl, rfl, rfl⟩

/-! ## When the calls return -/

/-- Clearing one parent link keeps every finite chain finite, and no
longer. -/
theorem chain_cut_length {par par' : Nat → Option Node} {b : Nat}
    (hsame : ∀ y, y ≠ b → (par' y).map Node.base = (par y).map Node.base)
    (hb : par' b = none) :
    ∀ (l : List Nat) (x : Nat), IsChain par x l →
      ∃ l', IsChain par' x l' ∧ l'.length ≤ l.length
  | [], _, hc => absurd hc (by simp [IsChain])
  | [y], x, hc => by
    obtain ⟨rfl, hroot⟩ := hc
    by_cases hyb : y = b
    · exact ⟨[y], ⟨rfl, hyb ▸ hb⟩, le_refl _⟩
    · have h1 := hsame y hyb
      rw [hroot] at h1
      exact ⟨[y], ⟨rfl, by simpa using h1⟩, le_refl _⟩
  | y :: z :: t, x, hc => by
    obtain ⟨rfl, hstep, hrest⟩ := hc
    by_cases hyb : y = b
    · exact ⟨[y], ⟨rfl, hyb ▸ hb⟩, by simp⟩
    · obtain ⟨l', hl', hlen⟩ := chain_cut_length hsame hb (z :: t) z hrest
      obtain ⟨t', rfl⟩ := hl'.exists_tail
      exact ⟨y :: z :: t', ⟨rfl, by rw [hsame y hyb]; exact hstep, hl'⟩, by
        simp at hlen ⊢
        omega⟩

/-- The guarded detachment of an attached occupant and the guarded attachment
of a parentless node off the chain of the container both go through, and the
chain of the container stays finite, no longer than before. -/
theorem detach_attach_total (h : Heap V) (prev v : Option Node) (n : Node) (c : Nat)
    (anc : List Nat) (hv : NoParent h.parent v) (hanc : IsChain h.parent c anc)
    (hocc : IsAttached h.parent prev) (hoff : OffChain anc v) :
    ∃ h1 h2 l, detach h prev = .ok () h1 ∧ attach h1 v n = .ok () h2 ∧
      IsChain h1.parent c l ∧ IsChain h2.parent c l ∧ l.length ≤ anc.length := by
  have hd : ∃ h1 l, detach h prev = .ok () h1 ∧ IsChain h1.parent c l ∧
      l.length ≤ anc.length ∧ (∀ y ∈ l, y ∈ anc) ∧
      ∀ w, v = some w → h1.parent w.base = none := by
    cases prev with
    | none =>
      exact ⟨h, anc, rfl, hanc, le_refl _, fun y hy => hy, fun w hw => by subst hw; exact hv⟩
    | some p =>
      cases hp : h.parent p.base with
      | none => exact absurd hp hocc
      | some q =>
        have hsame : ∀ y, y ≠ p.base →
            ((Function.update h.parent p.base none) y).map Node.base
              = (h.parent y).map Node.base :=
          fun y hy => by simp [Function.update_noteq hy]
        have hcut : (Function.update h.parent p.base none) p.base = none := by simp
        obtain ⟨l, hl, hlen⟩ := chain_cut_length hsame hcut anc c hanc
        refine ⟨_, l, detach_ok_of_parent h p q hp, hl, hlen,
          chain_cut_subset hsame hcut anc l c hanc hl, ?_⟩
        intro w hw
        subst hw
        have hne : w.base ≠ p.base := by
          intro heq
          have hvn : h.parent w.base = none := hv
          rw [heq, hp] at hvn
          cases hvn
        simp [Function.update_noteq hne, hv.eq_none]
  obtain ⟨h1, l, hdet, hc1, hlen, hsub, hfree⟩ := hd
  have ha : ∃ h2, attach h1 v n = .ok () h2 := by
    cases v with
    | none => exact ⟨h1, rfl⟩
    | some w => exact ⟨_, attach_ok_of_no_parent h1 w _ (hfree w rfl)⟩
  obtain ⟨h2, hatt⟩ := ha
  refine ⟨h1, h2, l, hdet, hatt, hc1, chain_attach hatt hc1 (fun w hw => ?_), hlen⟩
  subst hw
  exact fun hin => hoff (hsub _ hin)

/-- `SetIndex` returns when the index is in range, the occupant of the slot
is empty or attached, the new value is empty or a parentless node off the
chain of the sequence, and the fuel covers the chain. -/
theorem SetIndex_total (fuel : Nat) (h : Heap V) (s : Slice) (i : Int) (v : Option Node)
    (anc : List Nat) (h0 : 0 ≤ i) (hlen : i < s.len) (hv : NoParent h.parent v)
    (hanc : IsChain h.parent s.base anc) (hfuel : anc.length ≤ fuel)
    (hocc : IsAttached h.parent (h.arr s.arr (s.off + i.toNat))) (hoff : OffChain anc v) :
    ∃ h', Slice.SetIndex fuel h s i v = .ok () h' := by
  obtain ⟨h1, h2, l, hdet, hatt, -, hc2, hl⟩ :=
    detach_attach_total h _ v (.slice s) s.base anc hv hanc hocc hoff
  exact ⟨_, SetIndex_eq_ok.2
    ⟨⟨h0, hlen⟩, h1, h2, l, hdet, hatt, hc2, le_trans hl hfuel, rfl⟩⟩

/-- `SetMapIndex` returns under the same conditions on the entry. -/
theorem SetMapIndex_total (fuel : Nat) (h : Heap V) (m : Map) (k : String)
    (v : Option Node) (anc : List Nat) (hv : NoParent h.parent v)
    (hanc : IsChain h.parent m.base anc) (hfuel : anc.length ≤ fuel)
    (hocc : IsAttached h.parent (h.maps m.tbl k).join) (hoff : OffChain anc v) :
    ∃ h', Map.SetMapIndex fuel h m k v = .ok () h' := by
  obtain ⟨h1, h2, l, hdet, hatt, -, hc2, hl⟩ :=
    detach_attach_total h _ v (.map m) m.base anc hv hanc hocc hoff
  exact ⟨_, SetMapIndex_eq_ok.2 ⟨h1, h2, l, hdet, hatt, hc2, le_trans hl hfuel, rfl⟩⟩

/-- `Delete` returns when the entry is absent, empty or attached and the fuel
covers the chain of the map. -/
theorem Delete_total (fuel : Nat) (h : Heap V) (m : Map) (k : String) (anc : List Nat)
    (hanc : IsChain h.parent m.base anc) (hfuel : anc.length ≤ fuel)
    (hocc : IsAttached h.parent (h.maps m.tbl k).join) :
    ∃ h', Map.Delete fuel h m k = .ok () h' := by
  obtain ⟨h1, -, l, hdet, -, hc1, -, hl⟩ :=
    detach_attach_total h _ none (.map m) m.base anc trivial hanc hocc trivial
  exact ⟨_, Delete_eq_ok.2 ⟨h1, l, hdet, hc1, le_trans hl hfuel, rfl⟩⟩

/-! ## When the calls do not return -/

/-- Storing in a sequence a parentless node that shares its base (the
sequence itself, or a view of it) exhausts every fuel: the base becomes its
own parent. -/
theorem SetIndex_own_base_outOfFuel (fuel : Nat) (h h1 : Heap V) (s : Slice) (i : Int)
    (v : Node) (h0 : 0 ≤ i) (hlen : i < s.len)
    (hd : detach h (h.arr s.arr (s.off + i.toNat)) = .ok () h1)
    (hv : h1.parent v.base = none) (hb : v.base = s.base) :
    Slice.SetIndex fuel h s i (some v) = .outOfFuel := by
  have hi : ¬ (i < 0 ∨ (s.len : Int) ≤ i) := by omega
  unfold Slice.SetIndex
  rw [if_neg hi, hd]
  simp only [Outcome.andThen]
  rw [attach_ok_of_no_parent h1 v _ hv]
  simp only [Outcome.andThen]
  refine incrementVersion_no_chain fuel _ s.base
    (no_chain_of_self_parent (p := .slice s) ?_ rfl)
  rw [Heap.store_parent, hb]
  simp

/-- Storing in a map the parentless map itself exhausts every fuel. -/
theorem SetMapIndex_self_outOfFuel (fuel : Nat) (h h1 : Heap V) (m : Map) (k : String)
    (hd : detach h (h.maps m.tbl k).join = .ok () h1) (hv : h1.parent m.base = none) :
    Map.SetMapIndex fuel h m k (some (.map m)) = .outOfFuel := by
  unfold Map.SetMapIndex
  rw [hd]
  simp only [Outcome.andThen]
  rw [attach_ok_of_no_parent h1 (.map m) _ hv]
  simp only [Outcome.andThen]
  refine incrementVersion_no_chain fuel _ m.base
    (no_chain_of_self_parent (p := .map m) ?_ rfl)
  rw [Heap.mapStore_parent]
  simp [Node.base]

/-- `Append` exhausts every fuel when its attachment loop leaves no finite
chain above the receiver. -/
theorem Append_outOfFuel (grow : Nat → Nat → Nat) (fuel : Nat) (h h1 : Heap V) (s : Slice)
    (values : List (Option Node)) (hat : attachAll (.slice s) h values = .ok () h1)
    (hno : ¬ ∃ l, IsChain h1.parent s.base l) :
    Slice.Append grow fuel h s values = .outOfFuel := by
  unfold Slice.Append
  rw [hat]
  simp only [Outcome.andThen]
  rw [incrementVersion_no_chain fuel _ s.base (by rw [goAppend_parent]; exact hno)]

/-- `Move` exhausts every fuel when its loop leaves no finite chain above
`dst`. -/
theorem Move_outOfFuel (fuel : Nat) (h g' : Heap V) (dst src : Slice)
    (hloop : moveLoop dst src (goCopy h dst src) (List.range src.len) = .ok () g')
    (hno : ¬ ∃ l, IsChain g'.parent dst.base l) :
    Move fuel h dst src = .outOfFuel := by
  unfold Move
  rw [hloop]
  simp only [Outcome.andThen]
  cases hr : base.incrementVersion fuel g' src.base with
  | ok u h2 =>
    obtain ⟨l, -, -, rfl⟩ := incrementVersion_eq_ok.1 hr
    exact incrementVersion_no_chain fuel _ dst.base hno
  | panic f g => exact absurd hr (incrementVersion_ne_panic fuel g' src.base f g)
  | outOfFuel => rfl

/-- Two bases that are each other's parent have no finite chain. -/
theorem no_chain_of_two_cycle {par : Nat → Option Node} {b r : Nat} {p q : Node}
    (hp : par b = some p) (hpr : p.base = r) (hq : par r = some q) (hqb : q.base = b) :
    ¬ ∃ l, IsChain par b l := by
  rintro ⟨l, hc⟩
  have hr : r ∈ l := hpr ▸ hc.parent_mem hc.head_mem hp
  exact IsChain.not_mem_of_parent hc hq hqb hr

/-! ## C4 -/

/-- C4, counterexample: the sequence made by `MakeSlice(1, 1)` has no parent
and index 0 is in range, yet `s.SetIndex(0, s)` never returns: it exhausts
every fuel. And in the store of `dupTree`, where slot 0 of `s2` lists a leaf
whose parent link was cleared through `s`, `s2.SetIndex(0, nil)` stops with
the internal-error panic; slot 0 still holds the leaf. -/
theorem C4_counterexample :
    (selfTree = .ok selfSeq selfHeap ∧
      ((0 : Int) ≤ 0 ∧ (0 : Int) < selfSeq.len) ∧
      NoParent selfHeap.parent (some (.slice selfSeq)) ∧
      ∀ fuel, Slice.SetIndex fuel selfHeap selfSeq 0 (some (.slice selfSeq)) = .outOfFuel) ∧
    (dupTree = .ok (dupSeq, dupGrown) dupHeap ∧
      ((0 : Int) ≤ 0 ∧ (0 : Int) < dupGrown.len) ∧
      (∀ fuel, Slice.SetIndex fuel dupHeap dupGrown 0 none = .panic .internalError dupHeap) ∧
      Slice.Index dupHeap dupGrown 0 = .ok (some (.leaf dupA)) dupHeap) :=
  ⟨⟨rfl, by decide, by decide,
    fun fuel => SetIndex_own_base_outOfFuel fuel selfHeap selfHeap selfSeq 0 (.slice selfSeq)
      (by decide) (by decide) rfl rfl rfl⟩,
   rfl, by decide, fun _ => rfl, rfl⟩

/-- C4, amended: let `i` be in range, the parent links above `s` be acyclic
(`anc`, within the fuel), the occupant of slot `i` be empty or a node whose
parent link is set, and `v` be empty or a node without parent that is not on
the chain of `s` (not `s` itself, a view of `s`, or the root above `s`). Then
`s.SetIndex(i, v)` returns, and after it: `s.Index(i)` is `v`; every other
slot of `s` reads as before; the node that was in slot `i` has no parent;
`v`, when not empty, has `s` as its parent; the version of `s` is 1
greater. -/
theorem C4_setIndex_contract (fuel : Nat) (h : Heap V) (s : Slice) (i : Int)
    (v : Option Node) (anc : List Nat) (h0 : 0 ≤ i) (hlen : i < s.len)
    (hv : NoParent h.parent v) (hanc : IsChain h.parent s.base anc)
    (hfuel : anc.length ≤ fuel)
    (hocc : IsAttached h.parent (h.arr s.arr (s.off + i.toNat)))
    (hoff : OffChain anc v) :
    ∃ h', Slice.SetIndex fuel h s i v = .ok () h' ∧
      Slice.Index h' s i = .ok v h' ∧
      (∀ j : Int, 0 ≤ j → j < s.len → j ≠ i →
        ∃ x, Slice.Index h s j = .ok x h ∧ Slice.Index h' s j = .ok x h') ∧
      (∀ p, h.arr s.arr (s.off + i.toNat) = some p → h'.parent p.base = none) ∧
      (∀ n, v = some n → h'.parent n.base = some (.slice s)) ∧
      h'.version s.base = h.version s.base + 1 := by
  obtain ⟨h', hrun⟩ := SetIndex_total fuel h s i v anc h0 hlen hv hanc hfuel hocc hoff
  exact ⟨h', hrun, SetIndex_post fuel h h' s i v h0 hlen hv hrun⟩

/-- C4, amended, on the sample tree: `root.SetIndex(0, spareLeaf)` replaces
the map in slot 0 by the spare leaf. -/
theorem C4_setIndex_contract_witness :
    spareTree = .ok spareLeaf spareHeap ∧
    NoParent spareHeap.parent (some (.leaf spareLeaf)) ∧
    IsChain spareHeap.parent sampleRoot.base [0] ∧
    ∃ h', Slice.SetIndex 1 spareHeap sampleRoot 0 (some (.leaf spareLeaf)) = .ok () h' ∧
      Slice.Index h' sampleRoot 0 = .ok (some (.leaf spareLeaf)) h' ∧
      (∀ j : Int, 0 ≤ j → j < sampleRoot.len → j ≠ 0 →
        ∃ x, Slice.Index spareHeap sampleRoot j = .ok x spareHeap ∧
          Slice.Index h' sampleRoot j = .ok x h') ∧
      (∀ p, spareHeap.arr sampleRoot.arr (sampleRoot.off + (0 : Int).toNat) = some p →
        h'.parent p.base = none) ∧
      (∀ n, some (Node.leaf spareLeaf) = some n →
        h'.parent n.base = some (.slice sampleRoot)) ∧
      h'.version sampleRoot.base = spareHeap.version sampleRoot.base + 1 :=
  ⟨rfl, by decide, by decide,
   C4_setIndex_contract 1 spareHeap sampleRoot 0 (some (.leaf spareLeaf)) [0]
     (by decide) (by decide) (by decide) (by decide) (by decide) (by decide) (by decide)⟩

/-! ## C5 -/

/-- What a returned `SetMapIndex` leaves in the map. -/
theorem SetMapIndex_post (fuel : Nat) (h h' : Heap V) (m : Map) (k : String)
    (v : Option Node) (hrun : Map.SetMapIndex fuel h m k v = .ok () h') :
    Map.MapIndex2 h' m k = (v, true) ∧ Map.MapIndex h' m k = v ∧
    ∀ k', k' ≠ k → Map.MapIndex2 h' m k' = Map.MapIndex2 h m k' := by
  obtain ⟨h1, h2, l, hd, ha, -, -, rfl⟩ := SetMapIndex_eq_ok.1 hrun
  have hmaps : h2.maps = h.maps := (attach_frame ha).2.2.1.trans (detach_frame hd).2.2.1
  refine ⟨?_, ?_, ?_⟩
  · simp [Map.MapIndex2, Heap.bump, Heap.mapStore]
  · simp [Map.MapIndex, Heap.bump, Heap.mapStore]
  · intro k' hk
    simp [Map.MapIndex2, Heap.bump, Heap.mapStore, hk, hmaps]

/-- What a returned `Delete` leaves in the map. -/
theorem Delete_post (fuel : Nat) (h h' : Heap V) (m : Map) (k : String)
    (hrun : Map.Delete fuel h m k = .ok () h') :
    Map.MapIndex2 h' m k = (none, false) ∧
    ∀ k', k' ≠ k → Map.MapIndex2 h' m k' = Map.MapIndex2 h m k' := by
  obtain ⟨h1, l, hd, -, -, rfl⟩ := Delete_eq_ok.1 hrun
  have hmaps : h1.maps = h.maps := (detach_frame hd).2.2.1
  refine ⟨?_, ?_⟩
  · simp [Map.MapIndex2, Heap.bump, Heap.mapDelete]
  · intro k' hk
    simp [Map.MapIndex2, Heap.bump, Heap.mapDelete, hk, hmaps]

/-- After a returned `SetMapIndex` of a value that was empty or parentless,
the map is ready for `Delete` of the same key: its chain is finite within the
fuel and the entry is empty or attached. -/
theorem SetMapIndex_then_ready (fuel : Nat) (h h' : Heap V) (m : Map) (k : String)
    (v : Option Node) (hrun : Map.SetMapIndex fuel h m k v = .ok () h') :
    ∃ l, IsChain h'.parent m.base l ∧ l.length ≤ fuel ∧
      IsAttached h'.parent (h'.maps m.tbl k).join := by
  obtain ⟨h1, h2, l, hd, ha, hc, hlen, rfl⟩ := SetMapIndex_eq_ok.1 hrun
  refine ⟨l, hc, hlen, ?_⟩
  have hentry : ((Heap.bump (h2.mapStore m.tbl k v) l).maps m.tbl k).join = v := by
    simp [Heap.bump, Heap.mapStore]
  rw [hentry]
  cases v with
  | none => trivial
  | some w =>
    rcases attach_eq_ok ha with ⟨hnone, -⟩ | ⟨w', hw', -, rfl⟩
    · cases hnone
    · cases hw'
      show (Function.update h1.parent w.base (some (Node.map m))) w.base ≠ none
      simp

/-- C5, counterexample: a freshly made map has no parent, yet
`m.SetMapIndex("k", m)` never returns: it exhausts every fuel. And in the
store of `staleMapTree`, where key "k" holds a leaf whose parent link was
cleared through a sequence that still listed it, `m.Delete("k")` and
`m.SetMapIndex("k", nil)` stop with the internal-error panic and the key is
still present. -/
theorem C5_counterexample :
    (freshMapTree = .ok freshMap freshMapHeap ∧
      NoParent freshMapHeap.parent (some (.map freshMap)) ∧
      ∀ fuel, Map.SetMapIndex fuel freshMapHeap freshMap "k" (some (.map freshMap))
        = .outOfFuel) ∧
    (dupTree = .ok (dupSeq, dupGrown) dupHeap ∧
      staleMapTree = .ok staleMap staleMapHeap ∧
      Map.MapIndex2 staleMapHeap staleMap "k" = (some (.leaf dupA), true) ∧
      (∀ fuel, Map.Delete fuel staleMapHeap staleMap "k"
        = .panic .internalError staleMapHeap) ∧
      (∀ fuel, Map.SetMapIndex fuel staleMapHeap staleMap "k" none
        = .panic .internalError staleMapHeap)) :=
  ⟨⟨rfl, by decide,
    fun fuel => SetMapIndex_self_outOfFuel fuel freshMapHeap freshMapHeap freshMap "k" rfl rfl⟩,
   rfl, rfl, by decide, fun _ => rfl, fun _ => rfl⟩

/-- C5, amended: a freshly made map has no key: `MapIndex2(k)` is
`(nil, false)`. Let the parent links above `m` be acyclic (`anc`, within the
fuel), the current entry of key `k` be absent, empty or a node whose parent
link is set, and `v` be empty or a node without parent that is not on the
chain of `m` (not `m` itself or the root above `m`). Then `m.SetMapIndex(k, v)`
returns, and after it `MapIndex2(k)` is `(v, true)` and `MapIndex(k)` is `v`;
`m.Delete(k)` returns, from the store before or after that call, and after it
`MapIndex2(k)` is `(nil, false)`; both leave the lookup of every other key as
it was. -/
theorem C5_map_presence_round_trip (fuel : Nat) (h : Heap V) (m : Map) (k : String)
    (v : Option Node) (anc : List Nat) (hv : NoParent h.parent v)
    (hanc : IsChain h.parent m.base anc) (hfuel : anc.length ≤ fuel)
    (hocc : IsAttached h.parent (h.maps m.tbl k).join) (hoff : OffChain anc v) :
    (∃ m0 h0, MakeMap h = .ok m0 h0 ∧ Map.MapIndex2 h0 m0 k = (none, false)) ∧
    (∃ h', Map.SetMapIndex fuel h m k v = .ok () h' ∧
      Map.MapIndex2 h' m k = (v, true) ∧ Map.MapIndex h' m k = v ∧
      (∀ k', k' ≠ k → Map.MapIndex2 h' m k' = Map.MapIndex2 h m k') ∧
      ∃ h'', Map.Delete fuel h' m k = .ok () h'' ∧
        Map.MapIndex2 h'' m k = (none, false) ∧
        ∀ k', k' ≠ k → Map.MapIndex2 h'' m k' = Map.MapIndex2 h m k') ∧
    (∃ h', Map.Delete fuel h m k = .ok () h' ∧
      Map.MapIndex2 h' m k = (none, false) ∧
      ∀ k', k' ≠ k → Map.MapIndex2 h' m k' = Map.MapIndex2 h m k') := by
  refine ⟨⟨_, _, MakeMap_eq h, by simp [Map.MapIndex2]⟩, ?_, ?_⟩
  · obtain ⟨h', hrun⟩ := SetMapIndex_total fuel h m k v anc hv hanc hfuel hocc hoff
    obtain ⟨p1, p2, p3⟩ := SetMapIndex_post fuel h h' m k v hrun
    obtain ⟨l, hl, hlen, hatt⟩ := SetMapIndex_then_ready fuel h h' m k v hrun
    obtain ⟨h'', hdel⟩ := Delete_total fuel h' m k l hl hlen hatt
    obtain ⟨q1, q2⟩ := Delete_post fuel h' h'' m k hdel
    exact ⟨h', hrun, p1, p2, p3, h'', hdel, q1, fun k' hk => (q2 k' hk).trans (p3 k' hk)⟩
  · obtain ⟨h', hrun⟩ := Delete_total fuel h m k anc hanc hfuel hocc
    exact ⟨h', hrun, Delete_post fuel h h' m k hrun⟩

/-- C5, amended, on the sample tree: the spare leaf is stored under the new
key "j" of the map and deleted again. -/
theorem C5_map_presence_round_trip_witness :
    NoParent spareHeap.parent (some (.leaf spareLeaf)) ∧
    IsChain spareHeap.parent sampleMap.base [1, 0] ∧
    (∃ m0 h0, MakeMap spareHeap = .ok m0 h0 ∧ Map.MapIndex2 h0 m0 "j" = (none, false)) ∧
    (∃ h', Map.SetMapIndex 2 spareHeap sampleMap "j" (some (.leaf spareLeaf)) = .ok () h' ∧
      Map.MapIndex2 h' sampleMap "j" = (some (.leaf spareLeaf), true) ∧
      Map.MapIndex h' sampleMap "j" = some (.leaf spareLeaf) ∧
      (∀ k', k' ≠ "j" → Map.MapIndex2 h' sampleMap k' = Map.MapIndex2 spareHeap sampleMap k') ∧
      ∃ h'', Map.Delete 2 h' sampleMap "j" = .ok () h'' ∧
        Map.MapIndex2 h'' sampleMap "j" = (none, false) ∧
        ∀ k', k' ≠ "j" →
          Map.MapIndex2 h'' sampleMap k' = Map.MapIndex2 spareHeap sampleMap k') ∧
    (∃ h', Map.Delete 2 spareHeap sampleMap "j" = .ok () h' ∧
      Map.MapIndex2 h' sampleMap "j" = (none, false) ∧
      ∀ k', k' ≠ "j" → Map.MapIndex2 h' sampleMap k' = Map.MapIndex2 spareHeap sampleMap k') :=
  ⟨by decide, by decide,
   C5_map_presence_round_trip 2 spareHeap sampleMap "j" (some (.leaf spareLeaf)) [1, 0]
     (by decide) (by decide) (by decide) (by decide) (by decide)⟩

/-! ## C6 -/

/-- C6, counterexample: on the parentless sequence of five leaves, with the
view `w = s.Slice(1, 3)`, the call `w.SetIndex(0, s)` never returns: the
shared base becomes its own parent and every fuel is exhausted. -/
theorem C6_counterexample :
    fiveTree = .ok (fiveSeq, fiveSpare) fiveHeap ∧
    Slice.Slice fiveHeap fiveSeq 1 3 = .ok fiveView fiveHeap ∧
    ((0 : Int) ≤ 1 ∧ (1 : Int) ≤ 3 ∧ (3 : Int) ≤ fiveSeq.len ∧ (0 : Int) < 3 - 1) ∧
    NoParent fiveHeap.parent (some (.slice fiveSeq)) ∧
    ∀ fuel, Slice.SetIndex fuel fiveHeap fiveView 0 (some (.slice fiveSeq)) = .outOfFuel :=
  ⟨rfl, rfl, by decide, by decide,
   fun fuel => SetIndex_own_base_outOfFuel fuel fiveHeap
     ((detach fiveHeap (fiveHeap.arr fiveView.arr (fiveView.off + (0 : Int).toNat))).state
       fiveHeap)
     fiveView 0 (.slice fiveSeq) (by decide) (by decide) rfl rfl rfl⟩

/-- C6, amended: for a sequence `s` (its length at most its capacity, as for
every Go slice), bounds `0 ≤ i ≤ j ≤ len s` and an offset `0 ≤ k < j - i` the
view `w = s.Slice(i, j)` exists, has length `j - i`, and `w.Index(k)` is
`s.Index(i + k)`. Let moreover the parent links above `s` be acyclic (`anc`,
within the fuel), the occupant of the slot be empty or a node whose parent
link is set, and `v` be a node without parent that is not on the chain of `s`
(not `s`, a view of `s`, or the root above `s`). Then `w.SetIndex(k, v)`
returns, and after it `s.Index(i + k)` is `v` and `w.Version()` and
`s.Version()` are equal and 1 greater than the version of `s` before;
symmetrically `s.SetIndex(i + k, v)` returns and is read through `w`. -/
theorem C6_view_aliasing (fuel : Nat) (h : Heap V) (s : Slice) (i j k : Int) (v : Node)
    (anc : List Nat) (h0 : 0 ≤ i) (hij : i ≤ j) (hj : j ≤ s.len) (hcap : s.len ≤ s.cap)
    (hk0 : 0 ≤ k) (hk : k < j - i) (hv : NoParent h.parent (some v))
    (hanc : IsChain h.parent s.base anc) (hfuel : anc.length ≤ fuel)
    (hocc : IsAttached h.parent (h.arr s.arr (s.off + (i + k).toNat)))
    (hoff : OffChain anc (some v)) :
    ∃ w, Slice.Slice h s i j = .ok w h ∧ (w.len : Int) = j - i ∧
      Slice.Index h w k = Slice.Index h s (i + k) ∧
      (∃ h', Slice.SetIndex fuel h w k (some v) = .ok () h' ∧
        Slice.Index h' s (i + k) = .ok (some v) h' ∧
        base.Version h' w.base = base.Version h' s.base ∧
        base.Version h' s.base = base.Version h s.base + 1) ∧
      (∃ h', Slice.SetIndex fuel h s (i + k) (some v) = .ok () h' ∧
        Slice.Index h' w k = .ok (some v) h' ∧
        base.Version h' w.base = base.Version h' s.base ∧
        base.Version h' s.base = base.Version h s.base + 1) := by
  have hklen : k < ((j.toNat - i.toNat : Nat) : Int) := by omega
  have haddr : s.off + i.toNat + k.toNat = s.off + (i + k).toNat := by omega
  refine ⟨_, Slice_eq_ok h s i j h0 hij hj hcap, ?_, Index_view h s i j k h0 hj hk0 hk,
    ?_, ?_⟩
  · show ((j.toNat - i.toNat : Nat) : Int) = j - i
    omega
  · have hoccw : IsAttached h.parent (h.arr s.arr (s.off + i.toNat + k.toNat)) := by
      rw [haddr]
      exact hocc
    obtain ⟨h', hrun⟩ := SetIndex_total fuel h
      { base := s.base, arr := s.arr, off := s.off + i.toNat,
        len := j.toNat - i.toNat, cap := s.cap - i.toNat }
      k (some v) anc hk0 hklen hv hanc hfuel hoccw hoff
    have hpost := SetIndex_post fuel h h' _ k (some v) hk0 hklen hv hrun
    refine ⟨h', hrun, ?_, rfl, hpost.2.2.2.2⟩
    rw [← Index_view h' s i j k h0 hj hk0 hk]
    exact hpost.1
  · obtain ⟨h', hrun⟩ := SetIndex_total fuel h s (i + k) (some v) anc (by omega) (by omega)
      hv hanc hfuel hocc hoff
    have hpost := SetIndex_post fuel h h' s (i + k) (some v) (by omega) (by omega) hv hrun
    refine ⟨h', hrun, ?_, rfl, hpost.2.2.2.2⟩
    rw [Index_view h' s i j k h0 hj hk0 hk]
    exact hpost.1

/-- C6, amended, on the sequence of length 5 with the view over `[1, 3)`:
writing the unattached leaf at index 0 of the view shows at index 1 of the
source, and conversely; the shared version goes from 6 to 7. -/
theorem C6_view_aliasing_witness :
    fiveTree = .ok (fiveSeq, fiveSpare) fiveHeap ∧
    NoParent fiveHeap.parent (some (.leaf fiveSpare)) ∧
    IsChain fiveHeap.parent fiveSeq.base [0] ∧
    Slice.Slice fiveHeap fiveSeq 1 3 = .ok fiveView fiveHeap ∧
    Slice.SetIndex 1 fiveHeap fiveView 0 (some (.leaf fiveSpare)) = .ok () fiveAfterViewSet ∧
    (fiveHeap.version 0 = 6 ∧ fiveAfterViewSet.version 0 = 7) ∧
    ∃ w, Slice.Slice fiveHeap fiveSeq 1 3 = .ok w fiveHeap ∧ (w.len : Int) = 3 - 1 ∧
      Slice.Index fiveHeap w 0 = Slice.Index fiveHeap fiveSeq (1 + 0) ∧
      (∃ h', Slice.SetIndex 1 fiveHeap w 0 (some (.leaf fiveSpare)) = .ok () h' ∧
        Slice.Index h' fiveSeq (1 + 0) = .ok (some (.leaf fiveSpare)) h' ∧
        base.Version h' w.base = base.Version h' fiveSeq.base ∧
        base.Version h' fiveSeq.base = base.Version fiveHeap fiveSeq.base + 1) ∧
      (∃ h', Slice.SetIndex 1 fiveHeap fiveSeq (1 + 0) (some (.leaf fiveSpare)) = .ok () h' ∧
        Slice.Index h' w 0 = .ok (some (.leaf fiveSpare)) h' ∧
        base.Version h' w.base = base.Version h' fiveSeq.base ∧
        base.Version h' fiveSeq.base = base.Version fiveHeap fiveSeq.base + 1) :=
  ⟨rfl, by decide, by decide, rfl, rfl, by decide,
   C6_view_aliasing 1 fiveHeap fiveSeq 1 3 0 (.leaf fiveSpare) [0]
     (by decide) (by decide) (by decide) (by decide) (by decide) (by decide) (by decide)
     (by decide) (by decide) (by decide) (by decide)⟩

/-! ## C7 -/

/-- When parent links are redirected to a base `d` whose chain is finite,
every finite chain stays finite, within the two lengths. -/
theorem chain_redirect_exists {par par' : Nat → Option Node} {d : Nat} {lD : List Nat}
    (hchange : ∀ y, (par' y).map Node.base = (par y).map Node.base ∨
      (par' y).map Node.base = some d)
    (hD : IsChain par' d lD) :
    ∀ (l : List Nat) (x : Nat), IsChain par x l →
      ∃ l', IsChain par' x l' ∧ l'.length ≤ l.length + lD.length
  | [], _, hc => absurd hc (by simp [IsChain])
  | [y], x, hc => by
    obtain ⟨rfl, hroot⟩ := hc
    rcases hchange y with hsame | hred
    · rw [hroot] at hsame
      exact ⟨[y], ⟨rfl, by simpa using hsame⟩, by simp⟩
    · obtain ⟨t, rfl⟩ := hD.exists_tail
      exact ⟨y :: d :: t, ⟨rfl, hred, hD⟩, by
        simp only [List.length_cons, List.length_nil]
        omega⟩
  | y :: z :: t, x, hc => by
    obtain ⟨rfl, hstep, hrest⟩ := hc
    rcases hchange y with hsame | hred
    · obtain ⟨l', hl', hlen⟩ := chain_redirect_exists hchange hD (z :: t) z hrest
      obtain ⟨t', rfl⟩ := hl'.exists_tail
      exact ⟨y :: z :: t', ⟨rfl, by rw [hsame]; exact hstep, hl'⟩, by
        simp only [List.length_cons] at hlen ⊢
        omega⟩
    · obtain ⟨t', rfl⟩ := hD.exists_tail
      exact ⟨y :: d :: t', ⟨rfl, hred, hD⟩, by
        simp only [List.length_cons]
        omega⟩

/-- `Move` returns when the storage does not overlap, every node in a slot of
`src` has its parent link set and is off the chain of `dst`, the parent links
above `src` and `dst` are acyclic, and the fuel covers both chains. -/
theorem Move_total (fuel : Nat) (h : Heap V) (dst src : Slice) (ancS ancD : List Nat)
    (hdis : NonOverlapping dst src)
    (hS : IsChain h.parent src.base ancS) (hD : IsChain h.parent dst.base ancD)
    (hfuel : ancS.length + ancD.length ≤ fuel)
    (hocc : ∀ i, i < src.len → IsAttached h.parent (h.arr src.arr (src.off + i)))
    (hoff : ∀ i, i < src.len → OffChain ancD (h.arr src.arr (src.off + i))) :
    ∃ h', Move fuel h dst src = .ok () h' := by
  have hpar : ∀ i ∈ List.range src.len, ∀ v,
      (goCopy h dst src).arr src.arr (src.off + i) = some v →
      (goCopy h dst src).parent v.base ≠ none := by
    intro i hi v hv
    have hi' : i < src.len := List.mem_range.1 hi
    rw [goCopy_src h dst src hdis i hi'] at hv
    have hc := hocc i hi'
    rw [hv] at hc
    exact hc
  obtain ⟨g', hloop⟩ := moveLoop_returns dst src (List.range src.len) (goCopy h dst src) hpar
  obtain ⟨-, -, -, -, -, e6, e7⟩ := moveLoop_eq_ok dst src _ _ g' hloop
  have hchange : ∀ y, (g'.parent y).map Node.base = (h.parent y).map Node.base ∨
      (g'.parent y).map Node.base = some dst.base := by
    intro y
    by_cases hm : ∃ i ∈ List.range src.len, ∃ v,
        (goCopy h dst src).arr src.arr (src.off + i) = some v ∧ v.base = y
    · right
      rw [e6 y hm]
      rfl
    · left
      rw [e7 y hm]
      rfl
  have hD' : IsChain g'.parent dst.base ancD := by
    refine hD.congr (fun x hx => ?_)
    have hnot : ¬ ∃ i ∈ List.range src.len, ∃ v,
        (goCopy h dst src).arr src.arr (src.off + i) = some v ∧ v.base = x := by
      rintro ⟨i, hi, v, hv, hb⟩
      have hi' : i < src.len := List.mem_range.1 hi
      rw [goCopy_src h dst src hdis i hi'] at hv
      have ho := hoff i hi'
      rw [hv] at ho
      exact ho (hb ▸ hx)
    rw [e7 x hnot]
    rfl
  obtain ⟨lS, hS', hlS⟩ := chain_redirect_exists hchange hD' ancS src.base hS
  exact ⟨_, Move_eq_ok.2 ⟨g', lS, ancD, hloop, hS', by omega, hD', by omega, rfl⟩⟩

/-- What a returned `Move` between sequences of non-overlapping storage
leaves in the slots: the first `min (len dst) (len src)` slots of `dst` hold
what the same slots of `src` held; every slot of `src` is empty and the node
it held has `dst` as parent. -/
theorem Move_post (fuel : Nat) (h h' : Heap V) (dst src : Slice)
    (hdis : NonOverlapping dst src) (hrun : Move fuel h dst src = .ok () h') :
    (∀ i : Nat, i < min dst.len src.len →
      Slice.Index h' dst i = .ok (h.arr src.arr (src.off + i)) h') ∧
    (∀ i : Nat, i < src.len →
      Slice.Index h src i = .ok (h.arr src.arr (src.off + i)) h ∧
      Slice.Index h' src i = .ok none h' ∧
      ∀ v, h.arr src.arr (src.off + i) = some v → h'.parent v.base = some (.slice dst)) := by
  obtain ⟨g', lS, lD, hloop, -, -, -, -, rfl⟩ := Move_eq_ok.1 hrun
  obtain ⟨-, -, -, e4, e5, e6, -⟩ := moveLoop_eq_ok dst src _ _ g' hloop
  constructor
  · intro i hi
    have hiS : i < src.len := lt_of_lt_of_le hi (Nat.min_le_right _ _)
    have hiD : i < dst.len := lt_of_lt_of_le hi (Nat.min_le_left _ _)
    rw [Index_eq_ok_of_lt _ dst i (by omega) (by omega)]
    have hnot : ¬ (dst.arr = src.arr ∧ ∃ i' ∈ List.range src.len,
        dst.off + i = src.off + i') := by
      rintro ⟨ha, i', hi', hj⟩
      have hi'' : i' < src.len := List.mem_range.1 hi'
      rcases hdis with hd | hd | hd
      · exact hd ha
      · omega
      · omega
    have hslot : g'.arr dst.arr (dst.off + i) = h.arr src.arr (src.off + i) := by
      rw [e5 _ _ hnot, goCopy_dst_min h dst src i hi]
    simp [Heap.bump, hslot]
  · intro i hi
    refine ⟨by simpa using Index_eq_ok_of_lt h src i (by omega) (by omega), ?_, ?_⟩
    · rw [Index_eq_ok_of_lt _ src i (by omega) (by omega)]
      have hslot : g'.arr src.arr (src.off + i) = none :=
        e4 _ _ ⟨rfl, i, List.mem_range.2 hi, rfl⟩
      simp [Heap.bump, hslot]
    · intro v hv
      have hmoved : g'.parent v.base = some (.slice dst) :=
        e6 v.base ⟨i, List.mem_range.2 hi, v,
          by rw [goCopy_src h dst src hdis i hi]; exact hv, rfl⟩
      simpa [Heap.bump] using hmoved

/-- C7, counterexample: `src = [r]`, `r = [dst]`, `dst = [nil]` have equal
length 1 and separate storage, yet `Move(dst, src)` never returns: the loop
makes `dst` the parent of `r`, which is the parent of `dst`, and every fuel
is exhausted. And with `src` the sequence `s2` of `dupTree`, whose slot 0
lists a leaf without parent link, `Move(dst, s2)` stops with the
internal-error panic after the copy: the leaf is in slot 0 of both. -/
theorem C7_counterexample :
    (cycleMoveTree = .ok (cycleDst, cycleSrc) cycleMoveHeap ∧
      cycleDst.len = cycleSrc.len ∧ NonOverlapping cycleDst cycleSrc ∧
      Slice.Index cycleMoveHeap cycleSrc 0 = .ok (some (.slice cycleMid)) cycleMoveHeap ∧
      Slice.Index cycleMoveHeap cycleMid 0 = .ok (some (.slice cycleDst)) cycleMoveHeap ∧
      ∀ fuel, Move fuel cycleMoveHeap cycleDst cycleSrc = .outOfFuel) ∧
    (dupTree = .ok (dupSeq, dupGrown) dupHeap ∧
      staleMoveTree = .ok staleMoveDst staleMoveHeap ∧
      staleMoveDst.len = dupGrown.len ∧ NonOverlapping staleMoveDst dupGrown ∧
      (∀ fuel, Move fuel staleMoveHeap staleMoveDst dupGrown
        = .panic .internalError staleMoveAtFault) ∧
      Slice.Index staleMoveAtFault staleMoveDst 0
        = .ok (some (.leaf dupA)) staleMoveAtFault ∧
      Slice.Index staleMoveAtFault dupGrown 0
        = .ok (some (.leaf dupA)) staleMoveAtFault) :=
  ⟨⟨rfl, rfl, by decide, rfl, rfl,
    fun fuel => Move_outOfFuel fuel cycleMoveHeap cycleAfterLoop cycleDst cycleSrc rfl
      (no_chain_of_two_cycle (b := 2) (r := 1) (p := .slice cycleMid) (q := .slice cycleDst)
        rfl rfl rfl rfl)⟩,
   rfl, rfl, rfl, by decide, fun _ => rfl, rfl, rfl⟩

/-- C7, amended: let `dst` and `src` have equal length and non-overlapping
storage, the parent links above both be acyclic (`ancD`, `ancS`, within the
fuel), and every node in a slot of `src` have its parent link set and be off
the chain of `dst` (not `dst`, a view of it, or an ancestor of `dst`). Then
`Move(dst, src)` returns, and after it, for every `i` below the length:
`dst.Index(i)` is the node that `src.Index(i)` held before the call,
`src.Index(i)` is empty, and that node, when not empty, has `dst` as its
parent. -/
theorem C7_move_transfers_slots (fuel : Nat) (h : Heap V) (dst src : Slice)
    (ancS ancD : List Nat) (hlen : dst.len = src.len) (hdis : NonOverlapping dst src)
    (hS : IsChain h.parent src.base ancS) (hD : IsChain h.parent dst.base ancD)
    (hfuel : ancS.length + ancD.length ≤ fuel)
    (hocc : ∀ i, i < src.len → IsAttached h.parent (h.arr src.arr (src.off + i)))
    (hoff : ∀ i, i < src.len → OffChain ancD (h.arr src.arr (src.off + i))) :
    ∃ h', Move fuel h dst src = .ok () h' ∧
      ∀ i : Nat, i < src.len →
        ∃ x, Slice.Index h src i = .ok x h ∧
          Slice.Index h' dst i = .ok x h' ∧
          Slice.Index h' src i = .ok none h' ∧
          ∀ v, x = some v → h'.parent v.base = some (.slice dst) := by
  obtain ⟨h', hrun⟩ := Move_total fuel h dst src ancS ancD hdis hS hD hfuel hocc hoff
  obtain ⟨hdst, hsrc⟩ := Move_post fuel h h' dst src hdis hrun
  refine ⟨h', hrun, fun i hi => ?_⟩
  obtain ⟨s1, s2, s3⟩ := hsrc i hi
  exact ⟨_, s1, hdst i (by rw [hlen, Nat.min_self]; exact hi), s2, fun v hv => s3 v hv⟩

/-- C7, amended, on the example of the specification: `src = [A, B]`,
`dst = [nil, nil]`; after `Move(dst, src)`, `dst = [A, B]`,
`src = [nil, nil]`, and `A` and `B` have `dst` as parent. -/
theorem C7_move_transfers_slots_witness :
    moveTree = .ok (moveDst, moveSrc) moveHeap ∧
    NonOverlapping moveDst moveSrc ∧
    IsChain moveHeap.parent moveSrc.base [0] ∧ IsChain moveHeap.parent moveDst.base [3] ∧
    Move 2 moveHeap moveDst moveSrc = .ok () ((Move 2 moveHeap moveDst moveSrc).state moveHeap) ∧
    (Slice.Index ((Move 2 moveHeap moveDst moveSrc).state moveHeap) moveDst 0
        = .ok (some (.leaf moveA)) ((Move 2 moveHeap moveDst moveSrc).state moveHeap) ∧
      Slice.Index ((Move 2 moveHeap moveDst moveSrc).state moveHeap) moveDst 1
        = .ok (some (.leaf moveB)) ((Move 2 moveHeap moveDst moveSrc).state moveHeap)) ∧
    ∃ h', Move 2 moveHeap moveDst moveSrc = .ok () h' ∧
      ∀ i : Nat, i < moveSrc.len →
        ∃ x, Slice.Index moveHeap moveSrc i = .ok x moveHeap ∧
          Slice.Index h' moveDst i = .ok x h' ∧
          Slice.Index h' moveSrc i = .ok none h' ∧
          ∀ v, x = some v → h'.parent v.base = some (.slice moveDst) :=
  ⟨rfl, by decide, by decide, by decide, rfl, ⟨rfl, rfl⟩,
   C7_move_transfers_slots 2 moveHeap moveDst moveSrc [0] [3] (by decide) (by decide)
     (by decide) (by decide) (by decide)
     (by
       intro i hi
       have hi2 : i < 2 := hi
       interval_cases i <;> decide)
     (by
       intro i hi
       have hi2 : i < 2 := hi
       interval_cases i <;> decide)⟩

/-! ## C9 -/

/-- What a returned `Append` did: the result has length `n + m`; its first
`n` slots are the slots of `s`, which read through `s` as before, and `s`
still ends at `n`; its last `m` slots are the values in order; every
non-empty value has `s` as parent; the version, shared by `s` and the result,
is 1 greater. -/
theorem Append_post (grow : Nat → Nat → Nat) (fuel : Nat) (h h' : Heap V)
    (s s2 : Slice) (values : List (Option Node)) (hs : s.arr < h.nextArr)
    (hrun : Slice.Append grow fuel h s values = .ok s2 h') :
    s2.len = s.len + values.length ∧
    (∀ i : Nat, i < s.len →
      ∃ x, Slice.Index h s i = .ok x h ∧ Slice.Index h' s2 i = .ok x h' ∧
        Slice.Index h' s i = .ok x h') ∧
    Slice.Index h' s (s.len : Int) = .panic .indexOutOfRange h' ∧
    (∀ (j : Nat) (hj : j < values.length),
      Slice.Index h' s2 ((s.len + j : Nat) : Int) = .ok values[j] h') ∧
    (∀ v, some v ∈ values → h'.parent v.base = some (.slice s)) ∧
    base.Version h' s.base = base.Version h s.base + 1 ∧
    base.Version h' s2.base = base.Version h' s.base := by
  obtain ⟨h1, l, hat, hc, -, rfl, rfl⟩ := Append_eq_ok.1 hrun
  obtain ⟨fver, farr, -, -, fnext⟩ := attachAll_frame hat
  have hs1 : s.arr < h1.nextArr := by rw [fnext]; exact hs
  have hlen := (goAppend_len grow h1 s values).1
  have hbase := (goAppend_len grow h1 s values).2
  refine ⟨hlen, ?_, ?_, ?_, ?_, ?_, ?_⟩
  · intro i hi
    have hold := goAppend_old grow h1 s values hs1 i hi
    refine ⟨_, Index_eq_ok_of_lt h s i (by omega) (by omega), ?_, ?_⟩
    · rw [Index_eq_ok_of_lt _ _ i (by omega) (by rw [hlen]; omega)]
      simp only [Int.toNat_ofNat, Heap.bump_arr]
      rw [hold.2, farr]
    · rw [Index_eq_ok_of_lt _ s i (by omega) (by omega)]
      simp only [Int.toNat_ofNat, Heap.bump_arr]
      rw [hold.1, farr]
  · simp [Slice.Index]
  · intro j hj
    rw [Index_eq_ok_of_lt _ _ _ (by omega) (by rw [hlen]; omega)]
    simp only [Int.toNat_ofNat, Heap.bump_arr]
    rw [goAppend_new grow h1 s values j hj]
  · intro v hv
    rw [Heap.bump_parent, goAppend_parent]
    exact attachAll_parent_mem hat v hv
  · show (Heap.bump _ l).version s.base = h.version s.base + 1
    rw [Heap.bump_version_of_mem _ hc.nodup hc.head_mem, goAppend_version, fver]
  · show (Heap.bump _ l).version _ = (Heap.bump _ l).version s.base
    rw [hbase]

/-- C9, counterexample: the sequence `s` made by `MakeSlice(1, 1)` is a
parentless node, yet `s.Append(s)` never returns: the loop makes `s` its own
parent and every fuel is exhausted. And `a` and its empty view
`e = a.Slice(0, 0)` are two distinct parentless nodes, yet `s.Append(a, e)`
stops with the multiple-parents panic: the two share one parent link, which
the first attachment sets. Nothing is appended, and `a` keeps `s` as
parent. -/
theorem C9_counterexample :
    (selfTree = .ok selfSeq selfHeap ∧
      NoParent selfHeap.parent (some (.slice selfSeq)) ∧
      ∀ fuel, Slice.Append growDouble fuel selfHeap selfSeq [some (.slice selfSeq)]
        = .outOfFuel) ∧
    (pairTree = .ok (pairSeq, pairA, pairView) pairHeap ∧
      Node.slice pairA ≠ Node.slice pairView ∧
      NoParent pairHeap.parent (some (.slice pairA)) ∧
      NoParent pairHeap.parent (some (.slice pairView)) ∧
      (∀ fuel, Slice.Append growDouble fuel pairHeap pairSeq
          [some (.slice pairA), some (.slice pairView)]
        = .panic .multipleParents pairAtFault) ∧
      pairAtFault.parent pairA.base = some (.slice pairSeq) ∧
      Slice.Index pairAtFault pairSeq 1 = .panic .indexOutOfRange pairAtFault) :=
  ⟨⟨rfl, by decide,
    fun fuel => Append_outOfFuel growDouble fuel selfHeap selfAfterAttach selfSeq
      [some (.slice selfSeq)] rfl
      (no_chain_of_self_parent (b := 0) (p := .slice selfSeq) rfl rfl)⟩,
   rfl, by decide, by decide, by decide, fun _ => rfl, rfl, rfl⟩

/-- C9, amended: let `s` (length `n`, backing array in the store) be appended
`m` values, each empty or a parentless node, the nodes with pairwise distinct
bases (no two of them views of one sequence) and none on the chain of `s`
(not `s`, a view of `s`, or the root above `s`), and let the parent links
above `s` be acyclic (`anc`, within the fuel). Then `s.Append(values...)`
returns a sequence `s2`, and after it: `s2` has length `n + m`; its first `n`
slots are the slots of `s`, which read through `s` as before, and `s` still
ends at `n`; its last `m` slots are the values in order; every non-empty
value has `s` as parent; the version, shared by `s` and `s2`, is 1 greater,
whatever `m` is. -/
theorem C9_append_contract (grow : Nat → Nat → Nat) (fuel : Nat) (h : Heap V)
    (s : Slice) (values : List (Option Node)) (anc : List Nat) (hs : s.arr < h.nextArr)
    (hanc : IsChain h.parent s.base anc) (hfuel : anc.length ≤ fuel)
    (hfresh : ∀ v, some v ∈ values → h.parent v.base = none ∧ v.base ∉ anc)
    (hnd : ((values.filterMap id).map Node.base).Nodup) :
    ∃ s2 h', Slice.Append grow fuel h s values = .ok s2 h' ∧
      s2.len = s.len + values.length ∧
      (∀ i : Nat, i < s.len →
        ∃ x, Slice.Index h s i = .ok x h ∧ Slice.Index h' s2 i = .ok x h' ∧
          Slice.Index h' s i = .ok x h') ∧
      Slice.Index h' s (s.len : Int) = .panic .indexOutOfRange h' ∧
      (∀ (j : Nat) (hj : j < values.length),
        Slice.Index h' s2 ((s.len + j : Nat) : Int) = .ok values[j] h') ∧
      (∀ v, some v ∈ values → h'.parent v.base = some (.slice s)) ∧
      base.Version h' s.base = base.Version h s.base + 1 ∧
      base.Version h' s2.base = base.Version h' s.base := by
  obtain ⟨s2, h', hrun⟩ := Append_returns grow fuel h s values anc hanc hfuel hfresh hnd
  exact ⟨s2, h', hrun, Append_post grow fuel h h' s s2 values hs hrun⟩

/-- C9, amended, on the sample tree: `root.Append(spareLeaf, nil)` returns a
sequence of length 3 holding the map, the spare leaf and an empty slot; the
root still has length 1; the shared version goes up by 1. -/
theorem C9_append_contract_witness :
    sampleRoot.arr < spareHeap.nextArr ∧
    IsChain spareHeap.parent sampleRoot.base [0] ∧
    Slice.Append growDouble 1 spareHeap sampleRoot [some (.leaf spareLeaf), none]
      = .ok spareAppended spareAfterAppend ∧
    spareAppended.len = 3 ∧
    base.Version spareAfterAppend sampleRoot.base
      = base.Version spareHeap sampleRoot.base + 1 ∧
    ∃ s2 h', Slice.Append growDouble 1 spareHeap sampleRoot [some (.leaf spareLeaf), none]
        = .ok s2 h' ∧
      s2.len = sampleRoot.len + [some (Node.leaf spareLeaf), none].length ∧
      (∀ i : Nat, i < sampleRoot.len →
        ∃ x, Slice.Index spareHeap sampleRoot i = .ok x spareHeap ∧
          Slice.Index h' s2 i = .ok x h' ∧
          Slice.Index h' sampleRoot i = .ok x h') ∧
      Slice.Index h' sampleRoot (sampleRoot.len : Int) = .panic .indexOutOfRange h' ∧
      (∀ (j : Nat) (hj : j < [some (Node.leaf spareLeaf), none].length),
        Slice.Index h' s2 ((sampleRoot.len + j : Nat) : Int)
          = .ok [some (Node.leaf spareLeaf), none][j] h') ∧
      (∀ v, some v ∈ [some (Node.leaf spareLeaf), none] →
        h'.parent v.base = some (.slice sampleRoot)) ∧
      base.Version h' sampleRoot.base = base.Version spareHeap sampleRoot.base + 1 ∧
      base.Version h' s2.base = base.Version h' sampleRoot.base :=
  ⟨by decide, by decide, rfl, rfl, rfl,
   C9_append_contract growDouble 1 spareHeap sampleRoot [some (.leaf spareLeaf), none] [0]
     (by decide) (by decide) (by decide)
     (by
       intro v hv
       have hv' : v = .leaf spareLeaf := by simpa using hv
       subst hv'
       exact ⟨by decide, by decide⟩)
     (by decide)⟩

/-! ## C11 -/

/-- C11, counterexample: in the sample tree index 0 is in range for the root
sequence, yet `root.SetIndex(0, leaf)` faults: the leaf is attached to the
map. -/
theorem C11_counterexample :
    sampleTree = .ok (sampleRoot, sampleMap, sampleLeaf) sampleHeap ∧
    ((0 : Int) ≤ 0 ∧ (0 : Int) < sampleRoot.len) ∧
    Slice.SetIndex 1 sampleHeap sampleRoot 0 (some (.leaf sampleLeaf))
      = .panic .multipleParents
          ((Slice.SetIndex 1 sampleHeap sampleRoot 0 (some (.leaf sampleLeaf))).state
            sampleHeap) :=
  ⟨rfl, by decide, rfl⟩

/-- C11, amended: `s.Index(i)` and `s.SetIndex(i, v)` raise the index panic,
the store untouched, when `i` is outside `[0, len s)`. With `i` in range,
`Index` returns the content of the slot and leaves the store as it is, and
`SetIndex` never raises the index panic: a panic it raises is that of
detaching the occupant or that of attaching `v`. With `i` in range it returns
when the parent links above `s` are acyclic (`anc`, within the fuel), the
occupant of the slot is empty or a node whose parent link is set, and `v` is
empty or a parentless node off the chain of `s`. Nothing is stated for a call
that makes the parent links cyclic: it does not return. -/
theorem C11_index_bounds (fuel : Nat) (h : Heap V) (s : Slice) (i : Int) (v : Option Node) :
    (i < 0 ∨ (s.len : Int) ≤ i →
      Slice.Index h s i = .panic .indexOutOfRange h ∧
      Slice.SetIndex fuel h s i v = .panic .indexOutOfRange h) ∧
    (0 ≤ i ∧ i < s.len →
      Slice.Index h s i = .ok (h.arr s.arr (s.off + i.toNat)) h ∧
      (∀ f g, Slice.SetIndex fuel h s i v = .panic f g →
        f = .internalError ∨ f = .multipleParents) ∧
      ∀ anc, IsChain h.parent s.base anc → anc.length ≤ fuel →
        IsAttached h.parent (h.arr s.arr (s.off + i.toNat)) →
        NoParent h.parent v → OffChain anc v →
        ∃ h', Slice.SetIndex fuel h s i v = .ok () h') := by
  constructor
  · intro hi
    exact ⟨by simp [Slice.Index, hi], SetIndex_out_of_range fuel h s i v hi⟩
  · rintro ⟨h0, hlen⟩
    exact ⟨Index_eq_ok_of_lt h s i h0 hlen,
      fun f g hrun => SetIndex_in_range_panic_kind fuel h g s i v f h0 hlen hrun,
      fun anc hanc hfuel hocc hv hoff =>
        SetIndex_total fuel h s i v anc h0 hlen hv hanc hfuel hocc hoff⟩

/-- C11, amended, on the sample tree: index 1 is out of range for the root
sequence, index 0 is in range and holds the map, and `root.SetIndex(0, nil)`
returns. -/
theorem C11_index_bounds_witness :
    (Slice.Index sampleHeap sampleRoot 1 = .panic .indexOutOfRange sampleHeap ∧
      Slice.SetIndex 1 sampleHeap sampleRoot 1 none = .panic .indexOutOfRange sampleHeap) ∧
    (Slice.Index sampleHeap sampleRoot 0
        = .ok (sampleHeap.arr sampleRoot.arr (sampleRoot.off + (0 : Int).toNat)) sampleHeap ∧
      (∀ f g, Slice.SetIndex 1 sampleHeap sampleRoot 0 none = .panic f g →
        f = .internalError ∨ f = .multipleParents) ∧
      ∀ anc, IsChain sampleHeap.parent sampleRoot.base anc → anc.length ≤ 1 →
        IsAttached sampleHeap.parent
          (sampleHeap.arr sampleRoot.arr (sampleRoot.off + (0 : Int).toNat)) →
        NoParent sampleHeap.parent none → OffChain anc none →
        ∃ h', Slice.SetIndex 1 sampleHeap sampleRoot 0 none = .ok () h') ∧
    sampleHeap.arr sampleRoot.arr (sampleRoot.off + (0 : Int).toNat)
      = some (.map sampleMap) ∧
    IsChain sampleHeap.parent sampleRoot.base [0] ∧
    ∃ h', Slice.SetIndex 1 sampleHeap sampleRoot 0 none = .ok () h' :=
  ⟨(C11_index_bounds 1 sampleHeap sampleRoot 1 none).1 (by decide),
   (C11_index_bounds 1 sampleHeap sampleRoot 0 none).2 (by decide), rfl, by decide,
   ((C11_index_bounds 1 sampleHeap sampleRoot 0 none).2 (by decide)).2.2 [0]
     (by decide) (by decide) (by decide) (by decide) (by decide)⟩

/-! ## C13 -/

/-- C13, counterexample: `src = [A, B]` has length 2 and `dst = [nil]` has
length 1, yet `Move(dst, src)` returns: `A` is moved into `dst`, and both `A`
and `B` are detached from `src` and re-parented to `dst`. -/
theorem C13_counterexample :
    shortTree = .ok (shortDst, moveSrc) shortHeap ∧
    shortDst.len ≠ moveSrc.len ∧
    Move 1 shortHeap shortDst moveSrc = .ok () shortAfter ∧
    Slice.Index shortAfter shortDst 0 = .ok (some (.leaf moveA)) shortAfter ∧
    shortHeap.parent moveA.base = some (.slice moveSrc) ∧
    shortAfter.parent moveA.base = some (.slice shortDst) ∧
    shortHeap.parent moveB.base = some (.slice moveSrc) ∧
    shortAfter.parent moveB.base = some (.slice shortDst) :=
  ⟨rfl, by decide, rfl, rfl, rfl, rfl, rfl, rfl⟩

/-- C13, amended: `Move(dst, src)` has no fault for differing lengths.
Whatever the two lengths, a panic it raises is that of `resetParent`. And for
any two lengths it returns when the storage does not overlap, the parent
links above `src` and `dst` are acyclic (`ancS`, `ancD`, within the fuel), and
every node in a slot of `src` has its parent link set and is off the chain of
`dst` (not `dst`, a view of it, or an ancestor of `dst`); then the first
`min (len dst) (len src)` slots of `dst` hold what the same slots of `src`
held, and every slot of `src` is empty. Nothing is stated for a call that
makes the parent links cyclic: it does not return. -/
theorem C13_move_any_length (fuel : Nat) (h : Heap V) (dst src : Slice) :
    (∀ f g, Move fuel h dst src = .panic f g → f = .internalError) ∧
    ∀ ancS ancD, NonOverlapping dst src →
      IsChain h.parent src.base ancS → IsChain h.parent dst.base ancD →
      ancS.length + ancD.length ≤ fuel →
      (∀ i, i < src.len → IsAttached h.parent (h.arr src.arr (src.off + i))) →
      (∀ i, i < src.len → OffChain ancD (h.arr src.arr (src.off + i))) →
      ∃ h', Move fuel h dst src = .ok () h' ∧
        (∀ i : Nat, i < min dst.len src.len →
          ∃ x, Slice.Index h src i = .ok x h ∧ Slice.Index h' dst i = .ok x h') ∧
        (∀ i : Nat, i < src.len → Slice.Index h' src i = .ok none h') := by
  refine ⟨fun f g hrun => Move_panic_kind fuel h g dst src f hrun, ?_⟩
  intro ancS ancD hdis hS hD hfuel hocc hoff
  obtain ⟨h', hrun⟩ := Move_total fuel h dst src ancS ancD hdis hS hD hfuel hocc hoff
  obtain ⟨hdst, hsrc⟩ := Move_post fuel h h' dst src hdis hrun
  refine ⟨h', hrun, fun i hi => ?_, fun i hi => (hsrc i hi).2.1⟩
  exact ⟨_, (hsrc i (lt_of_lt_of_le hi (Nat.min_le_right _ _))).1, hdst i hi⟩

/-- C13, amended, on `src = [A, B]` and `dst = [nil]`: the call returns,
slot 0 of `dst` holds `A`, both slots of `src` are empty. -/
theorem C13_move_any_length_witness :
    NonOverlapping shortDst moveSrc ∧
    IsChain shortHeap.parent moveSrc.base [0] ∧ IsChain shortHeap.parent shortDst.base [3] ∧
    shortDst.len ≠ moveSrc.len ∧
    ∃ h', Move 2 shortHeap shortDst moveSrc = .ok () h' ∧
      (∀ i : Nat, i < min shortDst.len moveSrc.len →
        ∃ x, Slice.Index shortHeap moveSrc i = .ok x shortHeap ∧
          Slice.Index h' shortDst i = .ok x h') ∧
      (∀ i : Nat, i < moveSrc.len → Slice.Index h' moveSrc i = .ok none h') :=
  ⟨by decide, by decide, by decide, by decide,
   (C13_move_any_length 2 shortHeap shortDst moveSrc).2 [0] [3] (by decide) (by decide)
     (by decide) (by decide)
     (by
       intro i hi
       have hi2 : i < 2 := hi
       interval_cases i <;> decide)
     (by
       intro i hi
       have hi2 : i < 2 := hi
       interval_cases i <;> decide)⟩

/-! ## C17 -/

/-- C17, counterexample: on the sequence `s` of length 5, whose slot 0 holds
a leaf, the view `w = s.Slice3(1, 3, 4)` has one free slot. Appending the two
values `(leaf, nil)` stops with the multiple-parents panic, the leaf having
`s` as parent, and appending `(s, nil)` never returns, `s` becoming its own
parent: in neither case is there a returned sequence. -/
theorem C17_counterexample :
    fiveTree = .ok (fiveSeq, fiveSpare) fiveHeap ∧
    Slice.Slice3 fiveHeap fiveSeq 1 3 4 = .ok fiveCapped fiveHeap ∧
    fiveCapped.cap - fiveCapped.len < [some (Node.leaf fiveFirst), none].length ∧
    Slice.Index fiveHeap fiveSeq 0 = .ok (some (.leaf fiveFirst)) fiveHeap ∧
    (∀ fuel, Slice.Append growDouble fuel fiveHeap fiveCapped [some (.leaf fiveFirst), none]
      = .panic .multipleParents fiveHeap) ∧
    NoParent fiveHeap.parent (some (.slice fiveSeq)) ∧
    (∀ fuel, Slice.Append growDouble fuel fiveHeap fiveCapped [some (.slice fiveSeq), none]
      = .outOfFuel) :=
  ⟨rfl, rfl, by decide, rfl, fun _ => rfl, by decide,
   fun fuel => Append_outOfFuel growDouble fuel fiveHeap fiveAfterAttach fiveCapped
     [some (.slice fiveSeq), none] rfl
     (no_chain_of_self_parent (b := 0) (p := .slice fiveCapped) rfl rfl)⟩

/-- C17, amended: for a sequence `s` (backing array in the store) and bounds
`0 ≤ i ≤ j ≤ k ≤ cap s` the view `w = s.Slice3(i, j, k)` exists with length
`j - i` and capacity `k - i`. Let
more than `k - j` values be appended to `w`, each empty or a parentless node,
the nodes with pairwise distinct bases and none on the chain of `s` (not `s`,
a view of `s`, or the root above `s`), and let the parent links above `s` be
acyclic (`anc`, within the fuel). Then `w.Append(values...)` returns a
sequence `s2`, and after it: every slot of every backing array of the store
before the call, that of `s` included, is as before; `s2` holds the slots of
`w` followed by the values in order; and `s2` reads the version of `s`. -/
theorem C17_slice3_bounds_growth (grow : Nat → Nat → Nat) (fuel : Nat) (h : Heap V)
    (s : Slice) (i j k : Int) (values : List (Option Node)) (anc : List Nat)
    (h0 : 0 ≤ i) (hij : i ≤ j) (hjk : j ≤ k) (hk : k ≤ s.cap) (hs : s.arr < h.nextArr)
    (hm : (k - j).toNat < values.length)
    (hanc : IsChain h.parent s.base anc) (hfuel : anc.length ≤ fuel)
    (hfresh : ∀ v, some v ∈ values → h.parent v.base = none ∧ v.base ∉ anc)
    (hnd : ((values.filterMap id).map Node.base).Nodup) :
    ∃ w, Slice.Slice3 h s i j k = .ok w h ∧ (w.len : Int) = j - i ∧ (w.cap : Int) = k - i ∧
      ∃ s2 h', Slice.Append grow fuel h w values = .ok s2 h' ∧
        (∀ a idx, a < h.nextArr → h'.arr a idx = h.arr a idx) ∧
        s2.len = w.len + values.length ∧
        (∀ t : Nat, t < w.len →
          ∃ x, Slice.Index h w t = .ok x h ∧ Slice.Index h' s2 t = .ok x h') ∧
        (∀ (t : Nat) (ht : t < values.length),
          Slice.Index h' s2 ((w.len + t : Nat) : Int) = .ok values[t] h') ∧
        s2.base = s.base ∧
        base.Version h' s2.base = base.Version h' s.base := by
  obtain ⟨s2, h', hrun⟩ := Append_returns grow fuel h
    { base := s.base, arr := s.arr, off := s.off + i.toNat,
      len := j.toNat - i.toNat, cap := k.toNat - i.toNat } values anc hanc hfuel hfresh hnd
  refine ⟨
    { base := s.base, arr := s.arr, off := s.off + i.toNat,
      len := j.toNat - i.toNat, cap := k.toNat - i.toNat },
    Slice3_eq_ok h s i j k h0 hij hjk hk, ?_, ?_, s2, h', hrun, ?_⟩
  · show ((j.toNat - i.toNat : Nat) : Int) = j - i
    omega
  · show ((k.toNat - i.toNat : Nat) : Int) = k - i
    omega
  · obtain ⟨h1, l, hat, hc, -, rfl, rfl⟩ := Append_eq_ok.1 hrun
    obtain ⟨-, farr, -, -, fnext⟩ := attachAll_frame hat
    have hfull : (k.toNat - i.toNat) < (j.toNat - i.toNat) + values.length := by omega
    have hlen := (goAppend_len grow h1
      { base := s.base, arr := s.arr, off := s.off + i.toNat,
        len := j.toNat - i.toNat, cap := k.toNat - i.toNat } values)
    refine ⟨?_, hlen.1, ?_, ?_, hlen.2, ?_⟩
    · intro a idx ha
      rw [Heap.bump_arr, goAppend_fresh grow h1 _ values hfull a idx (by rw [fnext]; omega),
        farr]
    · intro t ht
      have hold := goAppend_old grow h1
        { base := s.base, arr := s.arr, off := s.off + i.toNat,
          len := j.toNat - i.toNat, cap := k.toNat - i.toNat } values
        (by rw [fnext]; exact hs) t ht
      refine ⟨_, Index_eq_ok_of_lt h _ t (by omega) (by omega), ?_⟩
      rw [Index_eq_ok_of_lt _ _ t (by omega) (by rw [hlen.1]; omega)]
      simp only [Int.toNat_ofNat, Heap.bump_arr]
      rw [hold.2, farr]
    · intro t ht
      rw [Index_eq_ok_of_lt _ _ _ (by omega) (by rw [hlen.1]; omega)]
      simp only [Int.toNat_ofNat, Heap.bump_arr]
      rw [goAppend_new grow h1 _ values t ht]
    · show (Heap.bump _ l).version _ = (Heap.bump _ l).version s.base
      rw [hlen.2]

/-- C17, amended, on the sequence of length 5: `Slice3(1, 3, 4)` has length 2
and capacity 3; appending the unattached leaf and an empty value (more than
the one free slot) returns a sequence of length 4 in a fresh array, and the
five slots of the source are as before. -/
theorem C17_slice3_bounds_growth_witness :
    Slice.Slice3 fiveHeap fiveSeq 1 3 4 = .ok fiveCapped fiveHeap ∧
    IsChain fiveHeap.parent fiveSeq.base [0] ∧
    Slice.Append growDouble 1 fiveHeap fiveCapped [some (.leaf fiveSpare), none]
      = .ok fiveGrown fiveAfterAppend ∧
    (∀ idx, idx < 5 → fiveAfterAppend.arr 0 idx = fiveHeap.arr 0 idx) ∧
    ∃ w, Slice.Slice3 fiveHeap fiveSeq 1 3 4 = .ok w fiveHeap ∧
      (w.len : Int) = 3 - 1 ∧ (w.cap : Int) = 4 - 1 ∧
      ∃ s2 h', Slice.Append growDouble 1 fiveHeap w [some (.leaf fiveSpare), none]
          = .ok s2 h' ∧
        (∀ a idx, a < fiveHeap.nextArr → h'.arr a idx = fiveHeap.arr a idx) ∧
        s2.len = w.len + [some (Node.leaf fiveSpare), none].length ∧
        (∀ t : Nat, t < w.len →
          ∃ x, Slice.Index fiveHeap w t = .ok x fiveHeap ∧ Slice.Index h' s2 t = .ok x h') ∧
        (∀ (t : Nat) (ht : t < [some (Node.leaf fiveSpare), none].length),
          Slice.Index h' s2 ((w.len + t : Nat) : Int)
            = .ok [some (Node.leaf fiveSpare), none][t] h') ∧
        s2.base = fiveSeq.base ∧
        base.Version h' s2.base = base.Version h' fiveSeq.base :=
  ⟨rfl, by decide, rfl, by decide,
   C17_slice3_bounds_growth growDouble 1 fiveHeap fiveSeq 1 3 4
     [some (.leaf fiveSpare), none] [0] (by decide) (by decide) (by decide) (by decide)
     (by decide) (by decide) (by decide) (by decide)
     (by
       intro v hv
       have hv' : v = .leaf fiveSpare := by simpa using hv
       subst hv'
       exact ⟨by decide, by decide⟩)
     (by decide)⟩

end Tree
